import Mathlib

/-!
# Analytics service: aggregation engine

A shallow embedding of `internal/analytics/service.go` and
`internal/analytics/models.go`.

Modelling conventions.

* A Go `int` has 64 bits.  `splitIntoChunks64` is `splitIntoChunks` in that
  arithmetic, every sum and quotient wrapped to the signed 64-bit range; the
  statements about the chunks are made for it.
  `splitIntoChunks` is the same text over the mathematical integers; the two
  agree when `len(data) + workers ≤ 2^63` (`splitIntoChunks64_eq`), and
  differ above: for `2^63 - 1` workers and a ledger of two or more records the
  sum `len(data) + workers - 1` wraps around and the code panics.
* A `time.Time` is an instant, counted in nanoseconds since
  `0001-01-01 00:00:00 UTC`; a `time.Duration` is a count of nanoseconds that
  `Time.Sub` saturates to the signed 64-bit range, as the library documents.
* A finite `float64` is the rational number it denotes.  Every floating-point
  operation of the source is the exact operation followed by the rounding
  function `Env.rnd` of the environment: the identity gives exact arithmetic,
  `roundF64` gives IEEE-754 binary64 (round to nearest, ties to even,
  subnormal numbers included).  The infinities and NaN are not represented: an
  operation whose rounded result exceeds `maxFloat64` overflows in the code,
  and from there on the code and these definitions differ; `finite64` is the
  condition that the rounded result of an operation is finite, and the
  statements that depend on it carry it as a hypothesis.
* A Go `map[string]V` is a list of entries in which a key is bound to the value
  of its first entry; the order in which a `range` statement visits the keys,
  the order in which the results of the workers reach the collecting loop, and
  the permutation computed by `sort.Slice` are taken from the environment.
* The files read by `loadStockData` and `loadSalesData` are arguments of
  `GetItemAnalytics`; logging is left out.
-/

namespace Analytics

/-! ## Records (`models.go`) -/

/-- One ledger record (`StockItem`); the field names are transliterated:
`code` is `НоменклатураКод`, `name` is `Номенклатура`, `parent` is `Родитель`,
`period` is `Период`, `startBalance` is `НачальныйОстаток`, `endBalance` is
`КонечныйОстаток` and `expenseItem` is `СтатьяРасходов`. -/
structure StockItem where
  code : String
  name : String
  parent : String
  period : String
  startBalance : ℚ
  endBalance : ℚ
  expenseItem : String
  deriving DecidableEq

/-- One sales record (`SalesItem`): `code` is `Код`, `name` is `Номенклатура`,
`quantity` is `Количество` and `amount` is `Сумма`. -/
structure SalesItem where
  code : String
  name : String
  quantity : ℚ
  amount : ℚ
  deriving DecidableEq

/-- An instant: nanoseconds since `0001-01-01 00:00:00 UTC`. -/
abbrev Time := Int

/-- A `time.Duration`: nanoseconds. -/
abbrev Duration := Int

/-- The `StockEvent` of `models.go`. -/
structure StockEvent where
  time : Time
  start : ℚ
  end_ : ℚ
  deriving DecidableEq

/-- The `ItemAnalyticsResult` of `models.go`. -/
structure ItemAnalyticsResult where
  name : String
  code : String
  group : String
  sales : ℚ
  loss : ℚ
  lossOfProfit : ℚ
  osa : ℚ
  abc : String
  deriving DecidableEq

/-- The `Chunk` of `models.go`. -/
structure Chunk where
  items : List StockItem
  index : Int
  deriving DecidableEq

/-- The `Service` of `service.go`. -/
structure Service where
  workers : Int
  deriving DecidableEq

/-- What stops a run of the Go code: a run-time panic, or a loop that does not
end within the iterations granted to it. -/
inductive Fault where
  | divideByZero
  | sliceBounds
  | outOfFuel
  deriving DecidableEq

deriving instance DecidableEq for Except

/-! ## `NewService`, `SetWorkers` -/

/-- `NewService`, with `runtime.NumCPU()` as its argument. -/
def NewService (numCPU : Int) : Service :=
  { workers := if numCPU < 2 then 2 else numCPU }

/-- `SetWorkers`. -/
def SetWorkers (s : Service) (workers : Int) : Service :=
  if workers > 0 then { s with workers := workers } else s

/-! ## `splitIntoChunks` -/

/-- The slice expression `data[i:j]` for `0 ≤ i ≤ j ≤ len(data)`. -/
def slice (data : List StockItem) (i j : Int) : List StockItem :=
  (data.drop i.toNat).take (j - i).toNat

/-- The loop of `splitIntoChunks`, from index `i` on, with the chunks
appended so far; `fuel` bounds the number of iterations. -/
def splitLoop (data : List StockItem) (chunkSize : Int) :
    Nat → Int → List Chunk → Except Fault (List Chunk)
  | 0, i, chunks => if i < data.length then .error .outOfFuel else .ok chunks
  | fuel + 1, i, chunks =>
    if i < data.length then
      let end0 := i + chunkSize
      let end1 := if end0 > data.length then (data.length : Int) else end0
      if i < 0 ∨ end1 < i then .error .sliceBounds
      else if chunkSize = 0 then .error .divideByZero
      else
        splitLoop data chunkSize fuel (i + chunkSize)
          (chunks ++ [{ items := slice data i end1, index := Int.tdiv i chunkSize }])
    else .ok chunks

/-- `splitIntoChunks` over the mathematical integers: the function of the code
for `len(data) + s.workers ≤ 2 ^ 63` (see `splitIntoChunks64` for the 64-bit
arithmetic); the loop is granted `len(data) + 1` iterations. -/
def splitIntoChunks (s : Service) (data : List StockItem) : Except Fault (List Chunk) :=
  if s.workers = 0 then .error .divideByZero
  else
    let chunkSize := Int.tdiv (data.length + s.workers - 1) s.workers
    splitLoop data chunkSize (data.length + 1) 0 []

/-- The items of a list of chunks, concatenated in chunk order. -/
def chunkItems (chunks : List Chunk) : List StockItem :=
  (chunks.map (fun c => c.items)).flatten

/-! ## Go maps -/

/-- A Go `map[string]V`: a list of entries; a key is bound to the value of its
first entry, and `GoMap.set` keeps at most one entry per key. -/
abbrev GoMap (V : Type) := List (String × V)

/-- The value bound to `k`, if any. -/
def GoMap.get? {V : Type} : GoMap V → String → Option V
  | [], _ => none
  | (k', v) :: t, k => if k' = k then some v else GoMap.get? t k

/-- The map expression `m[k]`: the value bound to `k`, or the zero value `d`
of the value type. -/
def GoMap.getD {V : Type} (m : GoMap V) (k : String) (d : V) : V :=
  (GoMap.get? m k).getD d

/-- The assignment `m[k] = v`. -/
def GoMap.set {V : Type} : GoMap V → String → V → GoMap V
  | [], k, v => [(k, v)]
  | (k', v') :: t, k, v => if k' = k then (k, v) :: t else (k', v') :: GoMap.set t k v

/-- The keys of the map, each once. -/
def GoMap.keys {V : Type} (m : GoMap V) : List String :=
  (m.map Prod.fst).dedup

/-! ## Floating point -/

/-- Number of binary digits of `m`, computed with `fuel` halvings. -/
def bitLenAux : Nat → Nat → Nat
  | 0, _ => 0
  | fuel + 1, m => if m = 0 then 0 else 1 + bitLenAux fuel (m / 2)

/-- Number of binary digits of `n`: `0` for `0`, else `⌊log₂ n⌋ + 1`. -/
def bitLen (n : Nat) : Nat := bitLenAux n n

/-- The binary exponent `⌊log₂ (n / d)⌋` of a positive fraction. -/
def binExp (n d : Nat) : Int :=
  let e0 : Int := (bitLen n : Int) - (bitLen d : Int)
  if (if 0 ≤ e0 then d * 2 ^ e0.toNat ≤ n else d ≤ n * 2 ^ (-e0).toNat) then e0 else e0 - 1

/-- The integer nearest to `n / d`, halves going to the even neighbour. -/
def roundHalfEven (n d : Nat) : Nat :=
  let q := n / d
  let r := n % d
  if 2 * r < d then q
  else if d < 2 * r then q + 1
  else if q % 2 = 0 then q else q + 1

/-- The significand of the binary64 value nearest to `n / d` (`n, d > 0`)
and the scale `s`: the value is `significand * 2 ^ (-s)`. A normal number has
53 significant bits; below `2 ^ (-1022)` the spacing stays `2 ^ (-1074)`. -/
def f64Parts (n d : Nat) : Nat × Int :=
  let e : Int := max (binExp n d) (-1022)
  let s : Int := 52 - e
  let k := if 0 ≤ s then roundHalfEven (n * 2 ^ s.toNat) d
    else roundHalfEven n (d * 2 ^ (-s).toNat)
  (k, s)

/-- IEEE-754 binary64 rounding of a rational number: round to nearest, ties
to even. Overflow to an infinity is not represented: a result above the
largest finite binary64 number in magnitude (see `finite64`) stands for an
operation that overflows in the code. -/
def roundF64 (q : ℚ) : ℚ :=
  if q.num = 0 then 0
  else
    let p := f64Parts q.num.natAbs q.den
    let a : ℚ := if 0 ≤ p.2 then (p.1 : ℚ) / 2 ^ p.2.toNat else (p.1 : ℚ) * 2 ^ (-p.2).toNat
    if q.num < 0 then -a else a

/-- The function `math.Round`: nearest integer, halves away from zero. -/
def mathRound (x : ℚ) : ℚ :=
  if 0 ≤ x then (⌊x + 1 / 2⌋ : ℚ) else -(⌊-x + 1 / 2⌋ : ℚ)

/-! ## Time -/

/-- The largest `time.Duration`. -/
def maxDuration : Duration := 2 ^ 63 - 1

/-- The smallest `time.Duration`. -/
def minDuration : Duration := -2 ^ 63

/-- The constant `time.Hour`, in nanoseconds. -/
def hourNs : Duration := 3600000000000

/-- The method `Time.Sub`: the difference `t - u`, or the largest or smallest
duration when the difference does not fit a `Duration`. -/
def timeSub (t u : Time) : Duration :=
  if t - u > maxDuration then maxDuration
  else if t - u < minDuration then minDuration
  else t - u

/-- The method `Time.Add` (no instant of the model leaves the range of `Time`). -/
def timeAdd (t : Time) (d : Duration) : Time := t + d

/-- The method `Duration.Hours`:
`float64(d / Hour) + float64(d % Hour) / (60 * 60 * 1e9)`. -/
def hoursOf (rnd : ℚ → ℚ) (d : Duration) : ℚ :=
  rnd (rnd (Int.tdiv d hourNs : Int) + rnd (rnd (Int.tmod d hourNs : Int) / 3600000000000))

/-! ## Strings -/

/-- The predicate `unicode.IsSpace`. -/
def isSpace (c : Char) : Bool :=
  let n := c.toNat
  n = 0x09 || n = 0x0A || n = 0x0B || n = 0x0C || n = 0x0D || n = 0x20 || n = 0x85 ||
    n = 0xA0 || n = 0x1680 || (0x2000 ≤ n && n ≤ 0x200A) || n = 0x2028 || n = 0x2029 ||
    n = 0x202F || n = 0x205F || n = 0x3000

/-- The function `strings.TrimSpace`. -/
def TrimSpace (s : String) : String :=
  String.mk ((s.data.dropWhile isSpace).reverse.dropWhile isSpace).reverse

/-! ## `time.Parse` for the layouts of the service -/

/-- The elements into which `time.Parse` cuts a layout: the text to skip before
a field, and the fields `02`, `01`, `2006`, `15`, `04`, `05`. -/
inductive LayoutElem where
  | lit (text : List Char)
  | zeroDay
  | zeroMonth
  | longYear
  | hour
  | zeroMinute
  | zeroSecond
  deriving DecidableEq

/-- The layout `"02.01.2006"`. -/
def layoutDate : List LayoutElem :=
  [.zeroDay, .lit ['.'], .zeroMonth, .lit ['.'], .longYear]

/-- The layout `"02.01.2006 15:04"`. -/
def layoutMinute : List LayoutElem :=
  layoutDate ++ [.lit [' '], .hour, .lit [':'], .zeroMinute]

/-- The layout `"02.01.2006 15:04:05"`. -/
def layoutSecond : List LayoutElem :=
  layoutMinute ++ [.lit [':'], .zeroSecond]

/-- The fields collected by `time.Parse`. -/
structure DateFields where
  year : Nat
  month : Nat
  day : Nat
  hour : Nat
  min : Nat
  sec : Nat
  nsec : Nat
  deriving DecidableEq

/-- The helper `isDigit(s, i)` of package `time`. -/
def isDigit (s : List Char) (i : Nat) : Bool :=
  match s.get? i with
  | some c => decide ('0'.toNat ≤ c.toNat ∧ c.toNat ≤ '9'.toNat)
  | none => false

/-- The value of a decimal digit. -/
def digitVal (c : Char) : Nat := c.toNat - '0'.toNat

/-- The helper `getnum(s, fixed)`: a number of one or two digits (exactly two
when `fixed`), and the rest of the text. -/
def getnum (s : List Char) (fixed : Bool) : Option (Nat × List Char) :=
  if !isDigit s 0 then none
  else if !isDigit s 1 then
    if fixed then none else some (digitVal (s.getD 0 '0'), s.drop 1)
  else some (digitVal (s.getD 0 '0') * 10 + digitVal (s.getD 1 '0'), s.drop 2)

/-- The helper `cutspace`. -/
def cutspace (s : List Char) : List Char := s.dropWhile (fun c => c = ' ')

/-- The helper `skip(value, prefix)`, with `fuel` rounds of its loop. -/
def skipAux : Nat → List Char → List Char → Option (List Char)
  | 0, value, pre => if pre.isEmpty then some value else none
  | fuel + 1, value, pre =>
    match pre with
    | [] => some value
    | p :: ps =>
      if p = ' ' then
        match value with
        | v :: _ => if v ≠ ' ' then none else skipAux fuel (cutspace value) (cutspace (p :: ps))
        | [] => skipAux fuel (cutspace value) (cutspace (p :: ps))
      else
        match value with
        | v :: vs => if v ≠ p then none else skipAux fuel vs ps
        | [] => none

/-- The helper `skip(value, prefix)`. -/
def skip (value pre : List Char) : Option (List Char) :=
  skipAux (pre.length + 1) value pre

/-- The decimal value of a text made of digits only, `none` otherwise. -/
def digitsVal (s : List Char) : Option Nat :=
  if s.isEmpty then none
  else s.foldl (fun acc c => match acc with
    | some n => if isDigit [c] 0 then some (n * 10 + digitVal c) else none
    | none => none) (some 0)

/-- The helper `parseNanoseconds(value, nbytes)`, for a `value` that starts
with a period or a comma followed by `nbytes - 1` digits. -/
def parseNanoseconds (value : List Char) (nbytes : Nat) : Option Nat :=
  let nb := if nbytes > 10 then 10 else nbytes
  match digitsVal ((value.take nb).drop 1) with
  | some ns => some (ns * 10 ^ (10 - nb))
  | none => none

/-- One round of the loop of `time.Parse`: the field or literal `e` is read
from `value`; `none` is a parse error. -/
def parseElem (e : LayoutElem) (f : DateFields) (value : List Char) :
    Option (DateFields × List Char) :=
  match e with
  | .lit text => (skip value text).map (fun v => (f, v))
  | .zeroDay => (getnum value true).map (fun r => ({ f with day := r.1 }, r.2))
  | .zeroMonth =>
    match getnum value true with
    | some (m, rest) => if m = 0 ∨ 12 < m then none else some ({ f with month := m }, rest)
    | none => none
  | .longYear =>
    if value.length < 4 ∨ !isDigit value 0 then none
    else (digitsVal (value.take 4)).map (fun y => ({ f with year := y }, value.drop 4))
  | .hour =>
    match getnum value false with
    | some (h, rest) => if 24 ≤ h then none else some ({ f with hour := h }, rest)
    | none => none
  | .zeroMinute =>
    match getnum value true with
    | some (m, rest) => if 60 ≤ m then none else some ({ f with min := m }, rest)
    | none => none
  | .zeroSecond =>
    match getnum value true with
    | some (sec, rest) =>
      if 60 ≤ sec then none
      else if 2 ≤ rest.length ∧ (rest.getD 0 ' ' = '.' ∨ rest.getD 0 ' ' = ',') ∧ isDigit rest 1 then
        let n := 2 + ((rest.drop 2).takeWhile (fun c => isDigit [c] 0)).length
        (parseNanoseconds rest n).map (fun ns => ({ f with sec := sec, nsec := ns }, rest.drop n))
      else some ({ f with sec := sec }, rest)
    | none => none

/-- The loop of `time.Parse` over the elements of the layout; text left over
after the last element is an error. -/
def parseElems : List LayoutElem → DateFields → List Char → Option DateFields
  | [], f, value => if value.isEmpty then some f else none
  | e :: es, f, value =>
    match parseElem e f value with
    | some (f', rest) => parseElems es f' rest
    | none => none

/-- Leap years of the proleptic Gregorian calendar. -/
def isLeap (year : Nat) : Bool :=
  year % 4 = 0 && (year % 100 ≠ 0 || year % 400 = 0)

/-- The helper `daysIn(month, year)`. -/
def daysIn (month year : Nat) : Nat :=
  if month = 2 then (if isLeap year then 29 else 28)
  else if month = 4 ∨ month = 6 ∨ month = 9 ∨ month = 11 then 30 else 31

/-- Days of a common year before the first day of `month`. -/
def daysBefore (month : Nat) : Nat :=
  [0, 31, 59, 90, 120, 151, 181, 212, 243, 273, 304, 334].getD (month - 1) 0

/-- The function `time.Date(year, month, day, hour, min, sec, nsec, time.UTC)` for
a valid calendar date, as an instant. -/
def dateToTime (f : DateFields) : Time :=
  let y1 : Int := (f.year : Int) - 1
  let days : Int := 365 * y1 + y1 / 4 - y1 / 100 + y1 / 400 + (daysBefore f.month : Int)
    + (if isLeap f.year ∧ 2 < f.month then 1 else 0) + ((f.day : Int) - 1)
  ((days * 86400 + (f.hour : Int) * 3600 + (f.min : Int) * 60 + (f.sec : Int)) * 1000000000)
    + (f.nsec : Int)

/-- The function `time.Parse(layout, value)` for a layout without zone: the
fields are read in layout order, the day is checked against the month, and the
result is the instant in UTC. -/
def timeParse (layout : List LayoutElem) (value : String) : Option Time :=
  match parseElems layout ⟨0, 0, 0, 0, 0, 0, 0⟩ value.data with
  | some f =>
    if f.day < 1 ∨ daysIn f.month f.year < f.day then none else some (dateToTime f)
  | none => none

/-! ## `parseDateTime` -/

/-- The loop of `parseDateTime` over the formats. -/
def parseFormats : List (List LayoutElem) → String → Option Time
  | [], _ => none
  | format :: rest, dateStr =>
    match timeParse format dateStr with
    | some dt => some dt
    | none => parseFormats rest dateStr

/-- `parseDateTime`. -/
def parseDateTime (dateStr : String) : Option Time :=
  parseFormats [layoutSecond, layoutMinute, layoutDate] dateStr

/-! ## The environment of a run -/

/-- The `ProcessedChunk` of `models.go`. -/
structure ProcessedChunk where
  events : GoMap (List StockEvent)
  losses : GoMap ℚ
  index : Int

/-- What a run takes from outside the source text: the rounding of `float64`
operations, the permutation computed by `sort.Slice`, the order in which a
`range` statement visits the keys of a map, and the order in which the results
of the workers reach the collecting loop. -/
structure Env where
  rnd : ℚ → ℚ
  sortSlice : (α : Type) → (α → α → Bool) → List α → List α
  rangeKeys : List String → List String
  arrival : List ProcessedChunk → List ProcessedChunk

/-- A comparison that `sort.Slice` accepts: a strict weak ordering. -/
structure StrictWeak {α : Type} (less : α → α → Bool) : Prop where
  irrefl : ∀ a, less a a = false
  trans : ∀ a b c, less a b = true → less b c = true → less a c = true
  incomp : ∀ a b c, less a b = false → less b c = false → less a c = false

/-- The guarantees of the library and of the run time: `sort.Slice` permutes
its slice and leaves it ordered, a `range` visits every key once, and every
result sent by a worker is received once. -/
structure Env.Sound (E : Env) : Prop where
  sort_perm : ∀ (α : Type) (less : α → α → Bool) (l : List α), (E.sortSlice α less l).Perm l
  sort_sorted : ∀ (α : Type) (less : α → α → Bool) (l : List α), StrictWeak less →
    (E.sortSlice α less l).Pairwise (fun a b => less b a = false)
  range_perm : ∀ ks : List String, (E.rangeKeys ks).Perm ks
  arrival_perm : ∀ rs : List ProcessedChunk, (E.arrival rs).Perm rs

/-- One pass of the inner loop of insertion sort: `x` is swapped with its left
neighbours while it is less than them; the sorted part is held right to left. -/
def insertRev {α : Type} (less : α → α → Bool) (x : α) : List α → List α
  | [] => [x]
  | y :: ys => if less x y then y :: insertRev less x ys else x :: y :: ys

/-- Insertion sort, which `sort.Slice` runs on slices of at most 12 elements
(on longer slices it runs an unstable pattern-defeating quicksort, so this
function stands for `sort.Slice` only in closed instances of at most 12
elements; the general statements range over every sorting function that
satisfies `Env.Sound`). -/
def insertionSort {α : Type} (less : α → α → Bool) (l : List α) : List α :=
  (l.foldl (fun sortedRev x => insertRev less x sortedRev) []).reverse

/-- Exact arithmetic, insertion sort, keys visited in the order of their first
assignment, results received in chunk order. -/
def exactEnv : Env :=
  { rnd := fun x => x
    sortSlice := fun _ less l => insertionSort less l
    rangeKeys := fun ks => ks
    arrival := fun rs => rs }

/-- Binary64 arithmetic, insertion sort, keys visited in the order of their
first assignment, results received in chunk order. -/
def f64Env : Env := { exactEnv with rnd := roundF64 }

/-- Binary64 arithmetic with the results received in the reverse of chunk
order. -/
def reversedEnv : Env := { f64Env with arrival := fun rs => rs.reverse }

/-! ## `processChunk` -/

/-- The expense category that marks shrinkage. -/
def shrinkageMarker : String := "Порча на складах (94)"

/-- The body of the loop of `processChunk` for one record. -/
def chunkStep (E : Env) (acc : GoMap (List StockEvent) × GoMap ℚ) (item : StockItem) :
    GoMap (List StockEvent) × GoMap ℚ :=
  let code := TrimSpace item.code
  if code = "" then acc
  else
    match parseDateTime item.period with
    | none => acc
    | some dt =>
      let events := acc.1.set code
        (acc.1.getD code [] ++ [{ time := dt, start := item.startBalance, end_ := item.endBalance }])
      if item.expenseItem = shrinkageMarker then
        let diff := E.rnd (item.startBalance - item.endBalance)
        if diff > 0 then (events, acc.2.set code (E.rnd (acc.2.getD code 0 + diff)))
        else (events, acc.2)
      else (events, acc.2)

/-- `processChunk`. -/
def processChunk (E : Env) (chunk : Chunk) (_startDate _finishDate : Time) : ProcessedChunk :=
  let r := chunk.items.foldl (chunkStep E) ([], [])
  { events := r.1, losses := r.2, index := chunk.index }

/-! ## The collecting loop of `processDataParallel` -/

/-- The loop `for code, events := range result.Events`. -/
def mergeEvents (E : Env) (allEvents : GoMap (List StockEvent)) (result : ProcessedChunk) :
    GoMap (List StockEvent) :=
  (E.rangeKeys result.events.keys).foldl
    (fun all code => all.set code (all.getD code [] ++ result.events.getD code [])) allEvents

/-- The loop `for code, loss := range result.Losses`. -/
def mergeLosses (E : Env) (allLosses : GoMap ℚ) (result : ProcessedChunk) : GoMap ℚ :=
  (E.rangeKeys result.losses.keys).foldl
    (fun all code => all.set code (E.rnd (all.getD code 0 + result.losses.getD code 0)))
    allLosses

/-- The loop `for result := range results`, over the results in the order
in which they are received. -/
def collect (E : Env) (results : List ProcessedChunk) : GoMap (List StockEvent) × GoMap ℚ :=
  results.foldl (fun acc result => (mergeEvents E acc.1 result, mergeLosses E acc.2 result))
    ([], [])

/-! ## `calculateOSA` -/

/-- The comparison given to `sort.Slice` in `calculateOSA`. -/
def eventLess (a b : StockEvent) : Bool := decide (a.time < b.time)

/-- The state of the loop of `calculateOSA`. -/
structure OsaState where
  balance : ℚ
  current : Time
  availHours : ℚ

/-- The loop of `calculateOSA` over the sorted events. -/
def osaLoop (E : Env) (startDate finishDate : Time) : List StockEvent → OsaState → OsaState
  | [], st => st
  | event :: rest, st =>
    if event.time < startDate then
      osaLoop E startDate finishDate rest { st with balance := event.end_ }
    else if event.time > finishDate then st
    else
      osaLoop E startDate finishDate rest
        { balance := event.end_
          current := event.time
          availHours :=
            if st.balance > 0 then
              E.rnd (st.availHours + hoursOf E.rnd (timeSub event.time st.current))
            else st.availHours }

/-- `calculateOSA`. -/
def calculateOSA (E : Env) (events : List StockEvent) (startDate finishDate : Time) : ℚ :=
  if events.length = 0 then 0
  else
    let sorted := E.sortSlice StockEvent eventLess events
    match sorted with
    | [] => 0
    | first :: _ =>
      let st := osaLoop E startDate finishDate sorted
        { balance := first.start, current := startDate, availHours := 0 }
      let availHours :=
        if st.current < finishDate ∧ st.balance > 0 then
          E.rnd (st.availHours + hoursOf E.rnd (timeSub finishDate st.current))
        else st.availHours
      let totalHours := hoursOf E.rnd (timeSub finishDate startDate)
      if totalHours ≤ 0 then 0
      else E.rnd (mathRound (E.rnd (E.rnd (availHours / totalHours) * 10000)) / 100)

/-! ## `calculateABCClassification` -/

/-- The label for a cumulative share. -/
def abcLabel (share : ℚ) : String :=
  if share ≤ 80 then "A" else if share ≤ 95 then "B" else "C"

/-- The second loop of `calculateABCClassification`, entered with the running
sum `cumulative`. -/
def abcLoop (E : Env) (totalSales : ℚ) : ℚ → List ItemAnalyticsResult → List ItemAnalyticsResult
  | _, [] => []
  | cumulative, item :: rest =>
    let cumulative' := E.rnd (cumulative + item.sales)
    let share := E.rnd (E.rnd (cumulative' / totalSales) * 100)
    { item with abc := abcLabel share } :: abcLoop E totalSales cumulative' rest

/-- The first loop of `calculateABCClassification`: the total of the sales. -/
def abcTotal (E : Env) (items : List ItemAnalyticsResult) : ℚ :=
  items.foldl (fun total item => E.rnd (total + item.sales)) 0

/-- `calculateABCClassification`; the slice after the call is returned. -/
def calculateABCClassification (E : Env) (items : List ItemAnalyticsResult) :
    List ItemAnalyticsResult :=
  if items.length = 0 then items
  else if abcTotal E items ≤ 0 then items
  else abcLoop E (abcTotal E items) 0 items

/-! ## `processDataParallel` -/

/-- The sentinel group of an item without group. -/
def noGroup : String := "Без группы 🤔"

/-- The maps filled by the loop over the sales records. -/
structure SalesMaps where
  salesByCode : GoMap ℚ
  salesQtyByCode : GoMap ℚ
  nameByCode : GoMap String

/-- The body of the loop `for _, item := range salesData`. -/
def salesStep (E : Env) (m : SalesMaps) (item : SalesItem) : SalesMaps :=
  let code := TrimSpace item.code
  if code = "" then m
  else
    { salesByCode := m.salesByCode.set code (E.rnd (m.salesByCode.getD code 0 + item.amount))
      salesQtyByCode :=
        m.salesQtyByCode.set code (E.rnd (m.salesQtyByCode.getD code 0 + item.quantity))
      nameByCode := m.nameByCode.set code item.name }

/-- The body of the loop `for _, item := range stockData` that fills
`groupByCode`. -/
def groupStep (groupByCode : GoMap String) (item : StockItem) : GoMap String :=
  let code := TrimSpace item.code
  if code ≠ "" then groupByCode.set code item.parent else groupByCode

/-- The loop `for code, qty := range salesQtyByCode` that fills `priceByCode`. -/
def priceMap (E : Env) (m : SalesMaps) : GoMap ℚ :=
  (E.rangeKeys m.salesQtyByCode.keys).foldl
    (fun priceByCode code =>
      let qty := m.salesQtyByCode.getD code 0
      if qty > 0 then priceByCode.set code (E.rnd (m.salesByCode.getD code 0 / qty))
      else priceByCode)
    []

/-- The body of the loop `for code, totalSales := range salesByCode`: the item
appended for one code. -/
def makeItem (E : Env) (allEvents : GoMap (List StockEvent)) (allLosses : GoMap ℚ)
    (m : SalesMaps) (groupByCode : GoMap String) (priceByCode : GoMap ℚ)
    (startDate finishDate : Time) (code : String) : ItemAnalyticsResult :=
  let totalSales := m.salesByCode.getD code 0
  let price := priceByCode.getD code 0
  let lossQty := allLosses.getD code 0
  let lossAmount := E.rnd (lossQty * price)
  let osa := calculateOSA E (allEvents.getD code []) startDate finishDate
  let name := if m.nameByCode.getD code "" = "" then code else m.nameByCode.getD code ""
  let group := if groupByCode.getD code "" = "" then noGroup else groupByCode.getD code ""
  let lossPercent := if totalSales > 0 then E.rnd (E.rnd (lossAmount / totalSales) * 100) else 0
  { name := name
    code := code
    group := group
    sales := E.rnd (mathRound (E.rnd (totalSales * 100)) / 100)
    loss := E.rnd (mathRound (E.rnd (lossAmount * 100)) / 100)
    lossOfProfit := E.rnd (mathRound (E.rnd (lossPercent * 1000)) / 1000)
    osa := osa
    abc := "" }

/-- The results that reach the collecting loop: every chunk is processed by
one of the `s.workers` workers (none is when there is no worker) and the
results are received in the order of the environment. -/
def workerResults (E : Env) (s : Service) (chunks : List Chunk) (startDate finishDate : Time) :
    List ProcessedChunk :=
  if s.workers ≤ 0 then []
  else E.arrival (chunks.map (fun chunk => processChunk E chunk startDate finishDate))

/-- `processDataParallel`; a panic of `splitIntoChunks` ends the run. -/
def processDataParallel (E : Env) (s : Service) (stockData : List StockItem)
    (salesData : List SalesItem) (startDate finishDate : Time) :
    Except Fault (List ItemAnalyticsResult) :=
  match splitIntoChunks s stockData with
  | .error f => .error f
  | .ok chunks =>
    let all := collect E (workerResults E s chunks startDate finishDate)
    let m := salesData.foldl (salesStep E) { salesByCode := [], salesQtyByCode := [], nameByCode := [] }
    let groupByCode := stockData.foldl groupStep []
    let priceByCode := priceMap E m
    .ok ((E.rangeKeys m.salesByCode.keys).map
      (makeItem E all.1 all.2 m groupByCode priceByCode startDate finishDate))

/-! ## `GetItemAnalytics` -/

/-- The `ItemAnalyticsRequest` of `models.go`. -/
structure ItemAnalyticsRequest where
  token : String
  startDate : String
  finishDate : String
  deriving DecidableEq

/-- The `AnalyticsResponse` of `models.go`. -/
structure AnalyticsResponse where
  items : List ItemAnalyticsResult
  total : Int
  deriving DecidableEq

/-- The errors returned by `GetItemAnalytics`, and a panic of the run. -/
inductive AnalyticsError where
  | invalidStartDate
  | invalidFinishDate
  | loadStockData
  | loadSalesData
  | fault (f : Fault)
  deriving DecidableEq

/-- The comparison given to `sort.Slice` in `GetItemAnalytics`. -/
def salesGreater (a b : ItemAnalyticsResult) : Bool := decide (a.sales > b.sales)

/-- The duration `24 * time.Hour`. -/
def dayNs : Duration := 24 * hourNs

/-- `GetItemAnalytics`; `stockFile` and `salesFile` are what `loadStockData`
and `loadSalesData` return (`none` for an error). -/
def GetItemAnalytics (E : Env) (s : Service) (stockFile : Option (List StockItem))
    (salesFile : Option (List SalesItem)) (req : ItemAnalyticsRequest) :
    Except AnalyticsError AnalyticsResponse :=
  match timeParse layoutDate req.startDate with
  | none => .error .invalidStartDate
  | some startDate =>
    match timeParse layoutDate req.finishDate with
    | none => .error .invalidFinishDate
    | some finishDate0 =>
      let finishDate := timeAdd finishDate0 dayNs
      match stockFile with
      | none => .error .loadStockData
      | some stockData =>
        match salesFile with
        | none => .error .loadSalesData
        | some salesData =>
          match processDataParallel E s stockData salesData startDate finishDate with
          | .error f => .error (.fault f)
          | .ok items =>
            let classified := calculateABCClassification E items
            let sorted := E.sortSlice ItemAnalyticsResult salesGreater classified
            .ok { items := sorted, total := sorted.length }

/-! ## Quantities named in the statements -/

/-- The loss total of code `c` after the collecting loop: the chunk losses of
`c` are added, in the order of arrival, to the total so far. -/
def lossFold (E : Env) (c : String) (results : List ProcessedChunk) (init : ℚ) : ℚ :=
  results.foldl
    (fun x r => if c ∈ GoMap.keys r.losses then E.rnd (x + GoMap.getD r.losses c 0) else x) init

/-- The cumulative share of item `i` as the code computes it: the running
sum of the sales of items `0..i`, divided by the total and multiplied by 100,
every operation rounded. -/
def shareOf (E : Env) (items : List ItemAnalyticsResult) (i : Nat) : ℚ :=
  E.rnd (E.rnd (abcTotal E (items.take (i + 1)) / abcTotal E items) * 100)

/-- The cumulative share of item `i` in the words of the specification:
`(sum of Sales of items 0..i) / total * 100`. -/
def shareOfSpec (items : List ItemAnalyticsResult) (i : Nat) : ℚ :=
  ((items.take (i + 1)).map (fun it => it.sales)).sum / (items.map (fun it => it.sales)).sum * 100

/-- The loss quantity of code `c` in the words of the specification: the sum,
over the records of the chunk whose trimmed code is `c` and whose expense
category is the shrinkage marker, of the positive differences
opening - closing. -/
def lossOfSpec (chunk : Chunk) (c : String) : ℚ :=
  ((chunk.items.filter
      (fun it => decide (TrimSpace it.code = c ∧ it.expenseItem = shrinkageMarker))).map
    (fun it => max (it.startBalance - it.endBalance) 0)).sum

/-- Whether `processChunk` adds the difference of the record to the loss of
code `c`: the trimmed code is `c` and is not empty, the period parses, the
expense category is the shrinkage marker and the difference is positive. -/
def countsForLoss (E : Env) (c : String) (it : StockItem) : Bool :=
  decide (TrimSpace it.code = c ∧ c ≠ "" ∧ (parseDateTime it.period).isSome = true ∧
    it.expenseItem = shrinkageMarker ∧ 0 < E.rnd (it.startBalance - it.endBalance))

/-- The differences that `processChunk` adds up for code `c`, in chunk order. -/
def lossTerms (E : Env) (items : List StockItem) (c : String) : List ℚ :=
  (items.filter (countsForLoss E c)).map (fun it => E.rnd (it.startBalance - it.endBalance))

/-- A sum in `float64`, taken from left to right. -/
def floatSum (E : Env) (init : ℚ) (terms : List ℚ) : ℚ :=
  terms.foldl (fun acc d => E.rnd (acc + d)) init

/-- The event that `processChunk` appends to the list of code `c` for one
record: none when the trimmed code is not `c`, is empty, or the period does
not parse. -/
def eventOf (c : String) (it : StockItem) : Option StockEvent :=
  if TrimSpace it.code = c ∧ c ≠ "" then
    (parseDateTime it.period).map
      (fun dt => { time := dt, start := it.startBalance, end_ := it.endBalance })
  else none

/-- The events of code `c` in a list of records, in the order of the records. -/
def eventsOf (items : List StockItem) (c : String) : List StockEvent :=
  items.filterMap (eventOf c)

/-- Chunk `j` of the partition of `data` into pieces of `size` records:
the records `j * size, ..., j * size + size - 1` that exist, with index `j`. -/
def chunkAt (data : List StockItem) (size j : Nat) : Chunk :=
  { items := (data.drop (j * size)).take size, index := (j : Int) }

/-- The ceiling of `n / size` (and `0` when `size = 0`). -/
def ceilDiv (n size : Nat) : Nat := (n + size - 1) / size

/-- The name of the last sales record, in input order, whose trimmed code is
`c`. -/
def lastSalesName (salesData : List SalesItem) (c : String) : Option String :=
  ((salesData.filter (fun s => decide (TrimSpace s.code = c))).getLast?).map (fun s => s.name)

/-- The name of the first sales record, in input order, whose trimmed code is
`c`: the name of the item in the words of the specification. -/
def firstSalesName (salesData : List SalesItem) (c : String) : Option String :=
  ((salesData.filter (fun s => decide (TrimSpace s.code = c))).head?).map (fun s => s.name)

/-- The parent group of the last ledger record, in input order, whose trimmed
code is `c`. -/
def lastParent (stockData : List StockItem) (c : String) : Option String :=
  ((stockData.filter (fun s => decide (TrimSpace s.code = c))).getLast?).map (fun s => s.parent)

/-- The total sales amount of code `c`: the amounts of the sales records whose
trimmed code is `c`, added in `float64` in input order. -/
def totalAmount (E : Env) (salesData : List SalesItem) (c : String) : ℚ :=
  floatSum E 0 ((salesData.filter (fun s => decide (TrimSpace s.code = c))).map
    (fun s => s.amount))

/-- The total sales quantity of code `c`: the quantities of the sales records
whose trimmed code is `c`, added in `float64` in input order. -/
def totalQuantity (E : Env) (salesData : List SalesItem) (c : String) : ℚ :=
  floatSum E 0 ((salesData.filter (fun s => decide (TrimSpace s.code = c))).map
    (fun s => s.quantity))

/-- The average price of code `c`: total amount divided by total quantity when
the quantity is positive, and `0` otherwise. -/
def avgPrice (E : Env) (salesData : List SalesItem) (c : String) : ℚ :=
  if totalQuantity E salesData c > 0 then
    E.rnd (totalAmount E salesData c / totalQuantity E salesData c)
  else 0

/-- The expression `math.Round(x * scale) / scale` of the source: `x` rounded
to the decimals of `scale` (`100` for two decimals, `1000` for three). -/
def roundTo (E : Env) (scale x : ℚ) : ℚ :=
  E.rnd (mathRound (E.rnd (x * scale)) / scale)

/-- Whether an event is before the window end. -/
def beforeEnd (finishDate : Time) (e : StockEvent) : Bool := decide (e.time < finishDate)

/-- The available hours of `calculateOSA` after the step that follows its
loop, from the state the loop leaves. -/
def osaTail (E : Env) (finishDate : Time) (st : OsaState) : ℚ :=
  if st.current < finishDate ∧ st.balance > 0 then
    E.rnd (st.availHours + hoursOf E.rnd (timeSub finishDate st.current))
  else st.availHours

/-- The last statements of `calculateOSA`, from the available hours. -/
def osaRatio (E : Env) (startDate finishDate : Time) (availHours : ℚ) : ℚ :=
  let totalHours := hoursOf E.rnd (timeSub finishDate startDate)
  if totalHours ≤ 0 then 0
  else E.rnd (mathRound (E.rnd (E.rnd (availHours / totalHours) * 10000)) / 100)

/-- The calendar day after the day `d` of month `m` of year `y`, as year,
month and day. -/
def dayAfter (y m d : Nat) : Nat × Nat × Nat :=
  if d < daysIn m y then (y, m, d + 1)
  else if m < 12 then (y, m + 1, 1)
  else (y + 1, 1, 1)

/-- Midnight (UTC) of the day `d` of month `m` of year `y`. -/
def midnight (y m d : Nat) : Time := dateToTime ⟨y, m, d, 0, 0, 0, 0⟩

/-! ## Package `userdb`: the token store -/

namespace Userdb

/-- The `TokenStore` of `token_store.go`: the map from token to user id. The
mutex is not modelled: the calls are taken one at a time. -/
structure TokenStore where
  tokens : GoMap Int
  deriving DecidableEq

/-- `NewTokenStore`. -/
def NewTokenStore : TokenStore := { tokens := [] }

/-- `AddToken`. -/
def TokenStore.AddToken (ts : TokenStore) (token : String) (userID : Int) : TokenStore :=
  { tokens := ts.tokens.set token userID }

/-- `ValidateToken` of the store: the lookup `userID, exists := ts.tokens[token]`. -/
def TokenStore.ValidateToken (ts : TokenStore) (token : String) : Int × Bool :=
  match ts.tokens.get? token with
  | some userID => (userID, true)
  | none => (0, false)

/-- `GetTokenCount`. -/
def TokenStore.GetTokenCount (ts : TokenStore) : Int := (GoMap.keys ts.tokens).length

end Userdb

/-! ## Package `auth` -/

namespace Auth

/-- The `Service` of package `auth`; the store it points to is held in the
value, and a call that writes to the store returns the service after the
call. -/
structure Service where
  secretKey : String
  tokenStore : Userdb.TokenStore
  deriving DecidableEq

/-- The `AuthRequest` of package `auth`. -/
structure AuthRequest where
  email : String
  password : String
  deriving DecidableEq

/-- The `AuthResponse` of package `auth`. -/
structure AuthResponse where
  token : String
  deriving DecidableEq

/-- The `ValidateResponse` of package `auth`. -/
structure ValidateResponse where
  valid : Bool
  deriving DecidableEq

/-- `NewService` of package `auth`. -/
def NewService (secretKey : String) (tokenStore : Userdb.TokenStore) : Service :=
  { secretKey := secretKey, tokenStore := tokenStore }

/-- The library functions called by `createJWTToken`, on byte slices held as
lists of numbers: `json.Marshal` of a `map[string]string` (given as its
entries), HMAC-SHA256 of a message under a key, and
`base64.StdEncoding.EncodeToString`. -/
structure Lib where
  jsonMarshal : List (String × String) → Except String (List Nat)
  hmacSha256 : List Nat → List Nat → List Nat
  encodeToString : List Nat → String

/-- The conversion `[]byte(s)`. -/
def bytesOf (s : String) : List Nat := s.toUTF8.toList.map (fun b => b.toNat)

/-- `base64URLEncode`. -/
def base64URLEncode (L : Lib) (data : List Nat) : String :=
  let encoded := L.encodeToString data
  let encoded := encoded.map (fun c => if c = '+' then '-' else c)
  let encoded := encoded.map (fun c => if c = '/' then '_' else c)
  String.mk (encoded.data.reverse.dropWhile (fun c => c = '=')).reverse

/-- `createJWTToken`. -/
def createJWTToken (L : Lib) (s : Service) (email password : String) : Except String String :=
  match L.jsonMarshal [("alg", "HS256"), ("typ", "JWT")] with
  | .error e => .error e
  | .ok headerJSON =>
    let headerB64 := base64URLEncode L headerJSON
    match L.jsonMarshal [("email", email), ("password", password)] with
    | .error e => .error e
    | .ok payloadJSON =>
      let payloadB64 := base64URLEncode L payloadJSON
      let message := headerB64 ++ "." ++ payloadB64
      let signature := L.hmacSha256 (bytesOf s.secretKey) (bytesOf message)
      let signatureB64 := base64URLEncode L signature
      .ok (message ++ "." ++ signatureB64)

/-- `GenerateToken`: the response or the error, and the service after the
call. -/
def GenerateToken (L : Lib) (s : Service) (req : AuthRequest) :
    Except String AuthResponse × Service :=
  match createJWTToken L s req.email req.password with
  | .error e => (.error ("failed to create token: " ++ e), s)
  | .ok token =>
    (.ok { token := token }, { s with tokenStore := s.tokenStore.AddToken token 1 })

/-- `ValidateToken` of package `auth`. -/
def ValidateToken (s : Service) (token : String) : Except String ValidateResponse :=
  let r := s.tokenStore.ValidateToken token
  if !r.2 then .ok { valid := false }
  else if r.1 ≠ 1 then .ok { valid := false }
  else .ok { valid := true }

end Auth

/-- Rounding of `x` to a multiple of `1 / scale`, halves away from zero: the
rounding "at the decimal boundary" of the specification (`scale` is `100` for
two decimals and `1000` for three). -/
def roundHalfAway (scale x : ℚ) : ℚ :=
  if 0 ≤ x then (⌊x * scale + 1 / 2⌋ : ℚ) / scale else -((⌊-(x * scale) + 1 / 2⌋ : ℚ) / scale)

/-- The arithmetic in which an availability sweep is carried out: the hours
from the instant `u` to the instant `t` (`hours t u`), the sum of two numbers
of hours, and the ratio of the available to the total hours as a percentage
rounded to 2 decimals. -/
structure SweepArith where
  hours : Time → Time → ℚ
  add : ℚ → ℚ → ℚ
  percent : ℚ → ℚ → ℚ

/-- The arithmetic of real numbers: the words of the specification taken
literally. -/
def realArith : SweepArith :=
  { hours := fun t u => ((t - u : Int) : ℚ) / 3600000000000
    add := fun a b => a + b
    percent := fun avail total => roundHalfAway 100 (avail / total * 100) }

/-- The arithmetic of the code: `t.Sub(u).Hours()`, the `float64` sum, and
`math.Round((avail / total) * 10000) / 100`. -/
def floatArith (E : Env) : SweepArith :=
  { hours := fun t u => hoursOf E.rnd (timeSub t u)
    add := fun a b => E.rnd (a + b)
    percent := fun avail total =>
      E.rnd (mathRound (E.rnd (E.rnd (avail / total) * 10000)) / 100) }

/-- Step 4 of the availability sweep of the specification: an event before
the window start only sets the balance; the walk stops at the first event at
or after the window end; any other event adds the hours since the cursor time
when the held balance is positive, and then moves the cursor. -/
def sweepWalk (A : SweepArith) (startDate finishDate : Time) :
    List StockEvent → OsaState → OsaState
  | [], st => st
  | event :: rest, st =>
    if event.time < startDate then
      sweepWalk A startDate finishDate rest { st with balance := event.end_ }
    else if finishDate ≤ event.time then st
    else
      sweepWalk A startDate finishDate rest
        { balance := event.end_
          current := event.time
          availHours :=
            if st.balance > 0 then A.add st.availHours (A.hours event.time st.current)
            else st.availHours }

/-- The availability sweep of the specification, steps 1 to 6, in the
arithmetic `A` and with the events sorted by `sorted`: 0 for the empty list;
the cursor starts with the opening balance of the first sorted event at the
window start; after the walk the tail to the window end is added when the
balance is positive; the result is 0 when the window hours are not positive,
and the percentage of available hours otherwise. -/
def availabilitySweep (A : SweepArith) (sorted : List StockEvent → List StockEvent)
    (events : List StockEvent) (startDate finishDate : Time) : ℚ :=
  match events with
  | [] => 0
  | _ :: _ =>
    match sorted events with
    | [] => 0
    | first :: rest =>
      let st := sweepWalk A startDate finishDate (first :: rest)
        { balance := first.start, current := startDate, availHours := 0 }
      let availHours :=
        if st.current < finishDate ∧ st.balance > 0 then
          A.add st.availHours (A.hours finishDate st.current)
        else st.availHours
      let totalHours := A.hours finishDate startDate
      if totalHours ≤ 0 then 0 else A.percent availHours totalHours

/-- The unrounded loss amount of code `c`: the loss quantity multiplied by the
average price, in `float64`. -/
def lossAmountOf (E : Env) (lossQty : ℚ) (salesData : List SalesItem) (c : String) : ℚ :=
  E.rnd (lossQty * avgPrice E salesData c)

/-- The unrounded loss percent of code `c`: the loss amount divided by the
total sales amount and multiplied by 100 when the total is positive, and `0`
otherwise. -/
def lossPercentOf (E : Env) (lossQty : ℚ) (salesData : List SalesItem) (c : String) : ℚ :=
  if totalAmount E salesData c > 0 then
    E.rnd (E.rnd (lossAmountOf E lossQty salesData c / totalAmount E salesData c) * 100)
  else 0

/-! ## `splitIntoChunks` with 64-bit `int` -/

/-- The value that a 64-bit `int` holds after an operation whose exact result
is `x`: the result wraps around in two's complement. -/
def wrap64 (x : Int) : Int :=
  (x + 9223372036854775808) % 18446744073709551616 - 9223372036854775808

/-- The chunk size `(len(data) + s.workers - 1) / s.workers` in 64-bit `int`
arithmetic (for `s.workers ≠ 0`). -/
def chunkSize64 (s : Service) (data : List StockItem) : Int :=
  wrap64 (Int.tdiv (wrap64 (wrap64 (data.length + s.workers) - 1)) s.workers)

/-- The loop of `splitIntoChunks` in 64-bit `int` arithmetic: as `splitLoop`,
with `i + chunkSize` and `i / chunkSize` wrapped. -/
def splitLoop64 (data : List StockItem) (chunkSize : Int) :
    Nat → Int → List Chunk → Except Fault (List Chunk)
  | 0, i, chunks => if i < data.length then .error .outOfFuel else .ok chunks
  | fuel + 1, i, chunks =>
    if i < data.length then
      let end0 := wrap64 (i + chunkSize)
      let end1 := if end0 > data.length then (data.length : Int) else end0
      if i < 0 ∨ end1 < i then .error .sliceBounds
      else if chunkSize = 0 then .error .divideByZero
      else
        splitLoop64 data chunkSize fuel (wrap64 (i + chunkSize))
          (chunks ++ [{ items := slice data i end1, index := wrap64 (Int.tdiv i chunkSize) }])
    else .ok chunks

/-- `splitIntoChunks` in 64-bit `int` arithmetic, for a worker count in the
range of `int`; the loop is granted `len(data) + 1` iterations. -/
def splitIntoChunks64 (s : Service) (data : List StockItem) : Except Fault (List Chunk) :=
  if s.workers = 0 then .error .divideByZero
  else splitLoop64 data (chunkSize64 s data) (data.length + 1) 0 []

/-- A whole number: a non-negative rational number with denominator 1. -/
def isWhole (x : ℚ) : Prop := x.den = 1 ∧ 0 ≤ x

instance isWholeDecidable (x : ℚ) : Decidable (isWhole x) := by
  unfold isWhole
  infer_instance

/-- A list of whole numbers whose sum is below `2 ^ 53`: the `float64` additions
of such numbers are exact in every order and grouping, since every partial
sum is an integer below `2 ^ 53`. -/
def wholeSum (terms : List ℚ) : Prop := (∀ x ∈ terms, isWhole x) ∧ terms.sum < 2 ^ 53

instance wholeSumDecidable (terms : List ℚ) : Decidable (wholeSum terms) := by
  unfold wholeSum
  infer_instance

/-- Whether `processChunk` adds the difference of the record to the loss of the
code of the record: the trimmed code is not empty, the period parses, the
expense category is the shrinkage marker and the difference is positive. -/
def countsForSomeLoss (E : Env) (it : StockItem) : Bool :=
  decide (TrimSpace it.code ≠ "" ∧ (parseDateTime it.period).isSome = true ∧
    it.expenseItem = shrinkageMarker ∧ 0 < E.rnd (it.startBalance - it.endBalance))

/-- The differences that `processChunk` adds to the loss of some code, for the
records of a ledger in ledger order. -/
def allLossTerms (E : Env) (items : List StockItem) : List ℚ :=
  (items.filter (countsForSomeLoss E)).map (fun it => E.rnd (it.startBalance - it.endBalance))

/-! ## The range of `float64` -/

/-- The largest finite binary64 number, `(2 ^ 53 - 1) * 2 ^ 971`. -/
def maxFloat64 : ℚ := (2 ^ 53 - 1) * 2 ^ 971

/-- The rounded result `x` of an operation is a finite binary64 number: the
operation has not overflowed. A binary64 operation whose rounded result is
above `maxFloat64` in magnitude returns an infinity, which `roundF64` does not
represent, and later operations on it can return NaN. -/
def finite64 (x : ℚ) : Prop := |x| ≤ maxFloat64

instance finite64Decidable (x : ℚ) : Decidable (finite64 x) := by
  unfold finite64
  infer_instance

/-- No addition of the first loop of `calculateABCClassification` and no
operation of its second loop overflows: for every item, the running sum of the
sales up to it, the quotient of that sum by the total, and the share are
finite. -/
def abcFinite (E : Env) (items : List ItemAnalyticsResult) : Prop :=
  ∀ i, i < items.length →
    finite64 (abcTotal E (items.take (i + 1))) ∧
    finite64 (E.rnd (abcTotal E (items.take (i + 1)) / abcTotal E items)) ∧
    finite64 (E.rnd (E.rnd (abcTotal E (items.take (i + 1)) / abcTotal E items) * 100))

instance abcFiniteDecidable (E : Env) (items : List ItemAnalyticsResult) :
    Decidable (abcFinite E items) := by
  unfold abcFinite
  infer_instance

/-- No addition of the loop over the sales records overflows for code `c`: the
running totals of the amount and of the quantity of `c` are finite after every
record. -/
def sumsFinite (E : Env) (salesData : List SalesItem) (c : String) : Prop :=
  ∀ k, k ≤ salesData.length →
    finite64 (totalAmount E (salesData.take k) c) ∧
    finite64 (totalQuantity E (salesData.take k) c)

instance sumsFiniteDecidable (E : Env) (salesData : List SalesItem) (c : String) :
    Decidable (sumsFinite E salesData c) := by
  unfold sumsFinite
  infer_instance

/-- No operation that leads to `Sales` of the item of code `c` overflows: the
running totals and the product of the total amount by 100 are finite. -/
def salesFinite (E : Env) (salesData : List SalesItem) (c : String) : Prop :=
  sumsFinite E salesData c ∧ finite64 (E.rnd (totalAmount E salesData c * 100))

instance salesFiniteDecidable (E : Env) (salesData : List SalesItem) (c : String) :
    Decidable (salesFinite E salesData c) := by
  unfold salesFinite
  infer_instance

/-- No operation that leads to `Loss` of the item of code `c` overflows: the
running totals of the sales, the merged loss quantity `lossQty` (the losses
added are positive, so none of their additions overflows when the merged total
is finite), the average price, the loss amount and its product by 100 are
finite. -/
def lossFinite (E : Env) (lossQty : ℚ) (salesData : List SalesItem) (c : String) : Prop :=
  sumsFinite E salesData c ∧ finite64 lossQty ∧ finite64 (avgPrice E salesData c) ∧
    finite64 (lossAmountOf E lossQty salesData c) ∧
    finite64 (E.rnd (lossAmountOf E lossQty salesData c * 100))

instance lossFiniteDecidable (E : Env) (lossQty : ℚ) (salesData : List SalesItem) (c : String) :
    Decidable (lossFinite E lossQty salesData c) := by
  unfold lossFinite
  infer_instance

/-- No operation that leads to `LossOfProfit` of the item of code `c`
overflows: the running totals of the sales, the merged loss quantity, the
average price and the loss amount are finite, and so are, when the total
amount is positive, the quotient of the loss amount by it, the loss percent,
and the product of the loss percent by 1000. -/
def percentFinite (E : Env) (lossQty : ℚ) (salesData : List SalesItem) (c : String) : Prop :=
  sumsFinite E salesData c ∧ finite64 lossQty ∧ finite64 (avgPrice E salesData c) ∧
    finite64 (lossAmountOf E lossQty salesData c) ∧
    (0 < totalAmount E salesData c →
      finite64 (E.rnd (lossAmountOf E lossQty salesData c / totalAmount E salesData c)) ∧
      finite64 (lossPercentOf E lossQty salesData c) ∧
      finite64 (E.rnd (lossPercentOf E lossQty salesData c * 1000)))

instance percentFiniteDecidable (E : Env) (lossQty : ℚ) (salesData : List SalesItem)
    (c : String) : Decidable (percentFinite E lossQty salesData c) := by
  unfold percentFinite
  infer_instance

/-- The arithmetic of the code inside a window that fits a `Duration`: the
hours from `u` to `t` are `Duration.Hours()` of the difference `t - u`, sums
are `float64` sums, and the percentage is
`math.Round((avail / total) * 10000) / 100`. -/
def windowArith (E : Env) : SweepArith :=
  { hours := fun t u => hoursOf E.rnd (t - u)
    add := fun a b => E.rnd (a + b)
    percent := fun avail total =>
      E.rnd (mathRound (E.rnd (E.rnd (avail / total) * 10000)) / 100) }

/-! ## Partition lemmas -/

theorem chunkItems_append (xs ys : List Chunk) :
    chunkItems (xs ++ ys) = chunkItems xs ++ chunkItems ys := by
  simp [chunkItems]

theorem slice_append_drop (data : List StockItem) (k c : Nat) :
    slice data (k : Int) (if ((k : Int) + (c : Int)) > (data.length : Int)
        then (data.length : Int) else (k : Int) + (c : Int))
      ++ data.drop (k + c) = data.drop k := by
  unfold slice
  split_ifs with h
  · have h1 : data.length < k + c := by omega
    have h2 : data.drop (k + c) = [] := List.drop_eq_nil_of_le (by omega)
    rw [h2, List.append_nil, Int.toNat_ofNat]
    apply List.take_of_length_le
    rw [List.length_drop]
    omega
  · have h1 : (((k : Int) + (c : Int) - (k : Int)).toNat) = c := by omega
    have h2 : data.drop (k + c) = (data.drop k).drop c := by
      rw [List.drop_drop, Nat.add_comm]
    rw [h1, Int.toNat_ofNat, h2]
    exact List.take_append_drop c (data.drop k)

theorem splitLoop_spec (data : List StockItem) (c : Nat) (hc : 1 ≤ c) :
    ∀ (fuel k : Nat) (chunks : List Chunk), data.length - k < fuel →
      ∃ out, splitLoop data (c : Int) fuel (k : Int) chunks = .ok out ∧
        chunkItems out = chunkItems chunks ++ data.drop k := by
  intro fuel
  induction fuel with
  | zero => intro k chunks h; omega
  | succ fuel ih =>
    intro k chunks h
    unfold splitLoop
    by_cases hk : (k : Int) < (data.length : Int)
    · have hk2 : k < data.length := by omega
      rw [if_pos hk]
      simp only
      have hb : ¬ ((k : Int) < 0 ∨
          (if (k : Int) + (c : Int) > (data.length : Int) then (data.length : Int)
            else (k : Int) + (c : Int)) < (k : Int)) := by
        split_ifs <;> omega
      rw [if_neg hb, if_neg (by omega : ¬ ((c : Int) = 0))]
      have hcast : (k : Int) + (c : Int) = ((k + c : Nat) : Int) := by push_cast; rfl
      obtain ⟨out, h1, h2⟩ := ih (k + c)
        (chunks ++ [Chunk.mk (slice data (k : Int)
            (if (k : Int) + (c : Int) > (data.length : Int) then (data.length : Int)
              else (k : Int) + (c : Int))) (Int.tdiv (k : Int) (c : Int))]) (by omega)
      refine ⟨out, ?_, ?_⟩
      · rw [← h1, hcast]
      · rw [h2, chunkItems_append, List.append_assoc]
        congr 1
        simp only [chunkItems, List.map_cons, List.map_nil, List.flatten_cons, List.flatten_nil,
          List.append_nil]
        exact slice_append_drop data k c
    · rw [if_neg hk]
      refine ⟨chunks, rfl, ?_⟩
      have : data.drop k = [] := List.drop_eq_nil_of_le (by omega)
      rw [this, List.append_nil]

/-- The chunk size computed by `splitIntoChunks` for `W ≥ 1`, as a natural
number: the ceiling of `N / W`. -/
theorem chunkSize_eq (n : Nat) (W : Int) (hW : 1 ≤ W) :
    Int.tdiv ((n : Int) + W - 1) W = (((n + W.toNat - 1) / W.toNat : Nat) : Int) := by
  obtain ⟨w, rfl⟩ := Int.eq_ofNat_of_zero_le (by omega : 0 ≤ W)
  have hw : 1 ≤ w := by omega
  rw [Int.toNat_ofNat]
  have h1 : (n : Int) + (w : Int) - 1 = ((n + w - 1 : Nat) : Int) := by omega
  rw [h1]
  rfl

/-! ## Map lemmas -/

theorem GoMap.get?_set {V : Type} (m : GoMap V) (k k' : String) (v : V) :
    GoMap.get? (GoMap.set m k v) k' = if k = k' then some v else GoMap.get? m k' := by
  induction m with
  | nil =>
    simp only [GoMap.set, GoMap.get?]
  | cons e t ih =>
    obtain ⟨k0, v0⟩ := e
    simp only [GoMap.set]
    by_cases h0 : k0 = k
    · subst h0
      by_cases h1 : k0 = k' <;> simp [GoMap.get?, h1]
    · rw [if_neg h0]
      simp only [GoMap.get?, ih]
      by_cases h1 : k0 = k'
      · subst h1
        simp [Ne.symm h0]
      · simp [h1]

theorem GoMap.getD_set {V : Type} (m : GoMap V) (k k' : String) (v d : V) :
    GoMap.getD (GoMap.set m k v) k' d = if k = k' then v else GoMap.getD m k' d := by
  unfold GoMap.getD
  rw [GoMap.get?_set]
  split_ifs <;> rfl

theorem GoMap.mem_keys {V : Type} (m : GoMap V) (k : String) :
    k ∈ GoMap.keys m ↔ GoMap.get? m k ≠ none := by
  unfold GoMap.keys
  rw [List.mem_dedup]
  induction m with
  | nil => simp [GoMap.get?]
  | cons e t ih =>
    obtain ⟨k0, v0⟩ := e
    simp only [List.map_cons, List.mem_cons, GoMap.get?]
    by_cases h0 : k0 = k
    · simp [h0]
    · simp only [if_neg h0]
      rw [← ih]
      constructor
      · rintro (h | h)
        · exact absurd h.symm h0
        · exact h
      · exact fun h => Or.inr h

theorem GoMap.nodup_keys {V : Type} (m : GoMap V) : (GoMap.keys m).Nodup :=
  List.nodup_dedup _

theorem GoMap.mem_keys_set {V : Type} (m : GoMap V) (k k' : String) (v : V) :
    k' ∈ GoMap.keys (GoMap.set m k v) ↔ k' = k ∨ k' ∈ GoMap.keys m := by
  rw [GoMap.mem_keys, GoMap.mem_keys, GoMap.get?_set]
  by_cases h : k = k'
  · simp [h]
  · simp [h, Ne.symm h]

theorem GoMap.getD_of_not_mem {V : Type} (m : GoMap V) (k : String) (d : V)
    (h : k ∉ GoMap.keys m) : GoMap.getD m k d = d := by
  rw [GoMap.mem_keys, not_not] at h
  simp [GoMap.getD, h]

/-! ## Sorting lemmas -/

theorem StrictWeak.asymm {α : Type} {less : α → α → Bool} (h : StrictWeak less) (a b : α)
    (hab : less a b = true) : less b a = false := by
  by_contra hba
  have hba' : less b a = true := by simpa using hba
  have := h.trans a b a hab hba'
  rw [h.irrefl] at this
  exact Bool.noConfusion this

theorem insertRev_perm {α : Type} (less : α → α → Bool) (x : α) (l : List α) :
    (insertRev less x l).Perm (x :: l) := by
  induction l with
  | nil => exact List.Perm.refl _
  | cons y ys ih =>
    unfold insertRev
    split_ifs
    · exact (List.Perm.cons y ih).trans (List.Perm.swap x y ys)
    · exact List.Perm.refl _

theorem insertRev_pairwise {α : Type} {less : α → α → Bool} (h : StrictWeak less) (x : α)
    (l : List α) (hl : l.Pairwise (fun a b => less a b = false)) :
    (insertRev less x l).Pairwise (fun a b => less a b = false) := by
  induction l with
  | nil => simp [insertRev]
  | cons y ys ih =>
    unfold insertRev
    rw [List.pairwise_cons] at hl
    by_cases hxy : less x y = true
    · rw [if_pos hxy, List.pairwise_cons]
      refine ⟨?_, ih hl.2⟩
      intro z hz
      have hz' := (List.Perm.mem_iff (insertRev_perm less x ys)).mp hz
      rw [List.mem_cons] at hz'
      rcases hz' with rfl | hz'
      · exact h.asymm _ _ hxy
      · exact hl.1 z hz'
    · rw [if_neg hxy]
      have hxy' : less x y = false := by simpa using hxy
      rw [List.pairwise_cons]
      refine ⟨?_, List.pairwise_cons.mpr hl⟩
      intro z hz
      rw [List.mem_cons] at hz
      rcases hz with rfl | hz
      · exact hxy'
      · exact h.incomp x y z hxy' (hl.1 z hz)

theorem insertionSort_perm {α : Type} (less : α → α → Bool) (l : List α) :
    (insertionSort less l).Perm l := by
  unfold insertionSort
  refine (List.reverse_perm _).trans ?_
  have key : ∀ (l acc : List α),
      (l.foldl (fun sortedRev x => insertRev less x sortedRev) acc).Perm (l.reverse ++ acc) := by
    intro l
    induction l with
    | nil => intro acc; exact List.Perm.refl _
    | cons x xs ih =>
      intro acc
      rw [List.foldl_cons, List.reverse_cons, List.append_assoc]
      refine (ih _).trans ?_
      exact List.Perm.append_left _ (insertRev_perm less x acc)
  have := key l []
  rw [List.append_nil] at this
  exact this.trans (List.reverse_perm l)

theorem insertionSort_sorted {α : Type} {less : α → α → Bool} (h : StrictWeak less)
    (l : List α) : (insertionSort less l).Pairwise (fun a b => less b a = false) := by
  unfold insertionSort
  rw [List.pairwise_reverse]
  have key : ∀ (l acc : List α), acc.Pairwise (fun a b => less a b = false) →
      (l.foldl (fun sortedRev x => insertRev less x sortedRev) acc).Pairwise
        (fun a b => less a b = false) := by
    intro l
    induction l with
    | nil => intro acc hacc; exact hacc
    | cons x xs ih =>
      intro acc hacc
      rw [List.foldl_cons]
      exact ih _ (insertRev_pairwise h x acc hacc)
  exact key l [] List.Pairwise.nil

theorem exactEnv_sound : exactEnv.Sound where
  sort_perm := fun _ less l => insertionSort_perm less l
  sort_sorted := fun _ _ l h => insertionSort_sorted h l
  range_perm := fun ks => List.Perm.refl ks
  arrival_perm := fun rs => List.Perm.refl rs

theorem f64Env_sound : f64Env.Sound where
  sort_perm := fun _ less l => insertionSort_perm less l
  sort_sorted := fun _ _ l h => insertionSort_sorted h l
  range_perm := fun ks => List.Perm.refl ks
  arrival_perm := fun rs => List.Perm.refl rs

theorem reversedEnv_sound : reversedEnv.Sound where
  sort_perm := fun _ less l => insertionSort_perm less l
  sort_sorted := fun _ _ l h => insertionSort_sorted h l
  range_perm := fun ks => List.Perm.refl ks
  arrival_perm := fun rs => List.reverse_perm rs

theorem eventLess_strictWeak : StrictWeak eventLess where
  irrefl := fun a => by simp [eventLess]
  trans := fun a b c h1 h2 => by
    simp only [eventLess, decide_eq_true_eq] at h1 h2 ⊢
    exact lt_trans h1 h2
  incomp := fun a b c h1 h2 => by
    simp only [eventLess, decide_eq_false_iff_not, not_lt] at h1 h2 ⊢
    exact le_trans h2 h1

theorem salesGreater_strictWeak : StrictWeak salesGreater where
  irrefl := fun a => by simp [salesGreater]
  trans := fun a b c h1 h2 => by
    simp only [salesGreater, decide_eq_true_eq] at h1 h2 ⊢
    exact lt_trans h2 h1
  incomp := fun a b c h1 h2 => by
    simp only [salesGreater, decide_eq_false_iff_not, not_lt, gt_iff_lt] at h1 h2 ⊢
    exact le_trans h1 h2

/-! ## The collecting loop, key by key -/

theorem GoMap.getD_nil {V : Type} (k : String) (d : V) : GoMap.getD ([] : GoMap V) k d = d := rfl

/-- A loop that updates the entry of every key of a duplicate-free list once:
the entry of `c` is updated if `c` is in the list, and kept otherwise. -/
theorem GoMap.foldl_update_getD {V : Type} (f : V → String → V) (d : V) (c : String) :
    ∀ (ks : List String) (all : GoMap V), ks.Nodup →
      GoMap.getD (ks.foldl (fun all code => GoMap.set all code (f (GoMap.getD all code d) code)) all)
          c d =
        if c ∈ ks then f (GoMap.getD all c d) c else GoMap.getD all c d := by
  intro ks
  induction ks with
  | nil => intro all _; simp
  | cons k ks ih =>
    intro all hnd
    rw [List.nodup_cons] at hnd
    rw [List.foldl_cons, ih _ hnd.2]
    by_cases hck : k = c
    · subst hck
      simp [GoMap.getD_set, hnd.1]
    · have hck' : ¬ c = k := fun h => hck h.symm
      simp [GoMap.getD_set, hck, hck']

theorem rangeKeys_nodup {E : Env} (hE : E.Sound) {V : Type} (m : GoMap V) :
    (E.rangeKeys (GoMap.keys m)).Nodup :=
  (List.Perm.nodup_iff (hE.range_perm _)).mpr (GoMap.nodup_keys m)

theorem mem_rangeKeys {E : Env} (hE : E.Sound) {V : Type} (m : GoMap V) (c : String) :
    c ∈ E.rangeKeys (GoMap.keys m) ↔ c ∈ GoMap.keys m :=
  List.Perm.mem_iff (hE.range_perm _)

theorem mergeEvents_getD {E : Env} (hE : E.Sound) (all : GoMap (List StockEvent))
    (r : ProcessedChunk) (c : String) :
    GoMap.getD (mergeEvents E all r) c [] = GoMap.getD all c [] ++ GoMap.getD r.events c [] := by
  unfold mergeEvents
  rw [GoMap.foldl_update_getD (fun old code => old ++ GoMap.getD r.events code []) [] c _ all
    (rangeKeys_nodup hE r.events)]
  have hm := mem_rangeKeys hE r.events c
  by_cases h : c ∈ GoMap.keys r.events
  · rw [if_pos (hm.mpr h)]
  · rw [if_neg (mt hm.mp h), GoMap.getD_of_not_mem _ _ _ h, List.append_nil]

theorem mergeLosses_getD {E : Env} (hE : E.Sound) (all : GoMap ℚ) (r : ProcessedChunk)
    (c : String) :
    GoMap.getD (mergeLosses E all r) c 0 =
      if c ∈ GoMap.keys r.losses then E.rnd (GoMap.getD all c 0 + GoMap.getD r.losses c 0)
      else GoMap.getD all c 0 := by
  unfold mergeLosses
  rw [GoMap.foldl_update_getD (fun old code => E.rnd (old + GoMap.getD r.losses code 0)) 0 c _ all
    (rangeKeys_nodup hE r.losses)]
  have hm := mem_rangeKeys hE r.losses c
  by_cases h : c ∈ GoMap.keys r.losses
  · rw [if_pos (hm.mpr h), if_pos h]
  · rw [if_neg (mt hm.mp h), if_neg h]

theorem collect_foldl_events {E : Env} (hE : E.Sound) (c : String) :
    ∀ (results : List ProcessedChunk) (acc : GoMap (List StockEvent) × GoMap ℚ),
      GoMap.getD (results.foldl
          (fun acc result => (mergeEvents E acc.1 result, mergeLosses E acc.2 result)) acc).1 c [] =
        GoMap.getD acc.1 c [] ++ (results.map (fun r => GoMap.getD r.events c [])).flatten := by
  intro results
  induction results with
  | nil => intro acc; simp
  | cons r rs ih =>
    intro acc
    rw [List.foldl_cons, ih, mergeEvents_getD hE]
    simp

theorem collect_foldl_losses {E : Env} (hE : E.Sound) (c : String) :
    ∀ (results : List ProcessedChunk) (acc : GoMap (List StockEvent) × GoMap ℚ),
      GoMap.getD (results.foldl
          (fun acc result => (mergeEvents E acc.1 result, mergeLosses E acc.2 result)) acc).2 c 0 =
        lossFold E c results (GoMap.getD acc.2 c 0) := by
  intro results
  induction results with
  | nil => intro acc; simp [lossFold]
  | cons r rs ih =>
    intro acc
    rw [List.foldl_cons, ih, mergeLosses_getD hE]
    simp [lossFold]

theorem collect_events {E : Env} (hE : E.Sound) (results : List ProcessedChunk) (c : String) :
    GoMap.getD (collect E results).1 c [] =
      (results.map (fun r => GoMap.getD r.events c [])).flatten := by
  unfold collect
  rw [collect_foldl_events hE]
  simp [GoMap.getD_nil]

theorem collect_losses {E : Env} (hE : E.Sound) (results : List ProcessedChunk) (c : String) :
    GoMap.getD (collect E results).2 c 0 = lossFold E c results 0 := by
  unfold collect
  rw [collect_foldl_losses hE]
  simp [GoMap.getD_nil]

theorem lossFold_exact {E : Env} (hx : ∀ x, E.rnd x = x) (c : String) :
    ∀ (results : List ProcessedChunk) (init : ℚ),
      lossFold E c results init = init + (results.map (fun r => GoMap.getD r.losses c 0)).sum := by
  intro results
  induction results with
  | nil => intro init; simp [lossFold]
  | cons r rs ih =>
    intro init
    have h := ih (if c ∈ GoMap.keys r.losses then E.rnd (init + GoMap.getD r.losses c 0) else init)
    unfold lossFold at h ⊢
    rw [List.foldl_cons, h, List.map_cons, List.sum_cons]
    split_ifs with hc
    · rw [hx]; ring
    · rw [GoMap.getD_of_not_mem _ _ _ hc]; ring

/-- For `W ≥ 1` the call of `splitIntoChunks` returns, and the chunks cover the
ledger in order. -/
theorem splitIntoChunks_spec (data : List StockItem) (W : Int) (hW : 1 ≤ W) :
    ∃ chunks, splitIntoChunks { workers := W } data = .ok chunks ∧
      (chunks.map (fun c => c.items)).flatten = data := by
  unfold splitIntoChunks
  rw [if_neg (by simp only; omega)]
  simp only
  rw [chunkSize_eq data.length W hW]
  by_cases hn : data.length = 0
  · have hnil : data = [] := List.length_eq_zero.mp hn
    subst hnil
    refine ⟨[], ?_, rfl⟩
    simp [splitLoop]
  · have hc : 1 ≤ (data.length + W.toNat - 1) / W.toNat := by
      have hw : 1 ≤ W.toNat := by omega
      rw [Nat.le_div_iff_mul_le (by omega)]
      omega
    obtain ⟨out, h1, h2⟩ := splitLoop_spec data _ hc (data.length + 1) 0 [] (by omega)
    refine ⟨out, ?_, ?_⟩
    · simpa using h1
    · simpa [chunkItems] using h2

/-! ## Binary64 is exact on the integers below `2^53` -/

theorem bitLenAux_le (k : Nat) : ∀ (fuel m : Nat), m < 2 ^ k → bitLenAux fuel m ≤ k := by
  induction k with
  | zero =>
    intro fuel m hm
    have : m = 0 := by simpa using hm
    subst this
    cases fuel <;> simp [bitLenAux]
  | succ k ih =>
    intro fuel m hm
    cases fuel with
    | zero => simp [bitLenAux]
    | succ fuel =>
      unfold bitLenAux
      split_ifs with h0
      · omega
      · have : m / 2 < 2 ^ k := by
          rw [Nat.div_lt_iff_lt_mul (by norm_num)]
          rw [pow_succ] at hm
          exact hm
        have := ih fuel (m / 2) this
        omega

theorem roundHalfEven_one (x : Nat) : roundHalfEven x 1 = x := by
  simp [roundHalfEven, Nat.mod_one]

theorem roundF64_nat (n : Nat) (hn : n < 2 ^ 53) : roundF64 (n : ℚ) = n := by
  unfold roundF64
  by_cases h0 : n = 0
  · subst h0; simp
  · have hnum : ((n : ℚ)).num = (n : Int) := Rat.num_natCast n
    have hden : ((n : ℚ)).den = 1 := Rat.den_natCast n
    rw [hnum, hden]
    rw [if_neg (by exact_mod_cast h0)]
    simp only [Int.natAbs_ofNat]
    have hb : bitLen n ≤ 53 := bitLenAux_le 53 n n hn
    have hb1 : bitLen 1 = 1 := by decide
    have he : binExp n 1 ≤ 52 := by
      unfold binExp
      simp only [hb1]
      split_ifs <;> omega
    have hs : 0 ≤ (f64Parts n 1).2 := by
      unfold f64Parts
      simp only
      omega
    have hk : (f64Parts n 1).1 = n * 2 ^ (f64Parts n 1).2.toNat := by
      unfold f64Parts at hs ⊢
      simp only at hs ⊢
      rw [if_pos hs, roundHalfEven_one]
    rw [if_pos hs, if_neg (by omega), hk]
    push_cast
    field_simp

theorem f64Env_small (n : ℕ) (hn : n < 2 ^ 53) : f64Env.rnd (n : ℚ) = n :=
  roundF64_nat n hn

/-! ## The binary64 model: exponent and significand -/

theorem bitLenAux_spec : ∀ (fuel m : Nat), m ≤ fuel → 0 < m →
    2 ^ bitLenAux fuel m ≤ 2 * m ∧ m < 2 ^ bitLenAux fuel m := by
  intro fuel
  induction fuel with
  | zero => intro m h1 h2; omega
  | succ fuel ih =>
    intro m h1 h2
    unfold bitLenAux
    rw [if_neg (by omega)]
    by_cases hm : m / 2 = 0
    · have h1 : m = 1 := by omega
      subst h1
      have hz : bitLenAux fuel (1 / 2) = 0 := by cases fuel <;> simp [bitLenAux]
      rw [hz]
      norm_num
    · have h3 := ih (m / 2) (by omega) (by omega)
      rw [pow_add, pow_one]
      omega

theorem bitLen_spec (n : Nat) (h : 0 < n) : 2 ^ bitLen n ≤ 2 * n ∧ n < 2 ^ bitLen n :=
  bitLenAux_spec n n le_rfl h

theorem binExp_spec (n d : Nat) (hn : 0 < n) (hd : 0 < d) :
    (2 : ℚ) ^ binExp n d ≤ (n : ℚ) / d ∧ (n : ℚ) / d < (2 : ℚ) ^ (binExp n d + 1) := by
  obtain ⟨hn1, hn2⟩ := bitLen_spec n hn
  obtain ⟨hd1, hd2⟩ := bitLen_spec d hd
  have hn1q : (2 : ℚ) ^ bitLen n ≤ 2 * n := by exact_mod_cast hn1
  have hn2q : (n : ℚ) < 2 ^ bitLen n := by exact_mod_cast hn2
  have hd1q : (2 : ℚ) ^ bitLen d ≤ 2 * d := by exact_mod_cast hd1
  have hd2q : (d : ℚ) < 2 ^ bitLen d := by exact_mod_cast hd2
  have hdq : (0 : ℚ) < d := by exact_mod_cast hd
  have hnq : (0 : ℚ) < n := by exact_mod_cast hn
  have hpn : (0 : ℚ) < 2 ^ bitLen n := by positivity
  have hpd : (0 : ℚ) < 2 ^ bitLen d := by positivity
  have he0 : (2 : ℚ) ^ ((bitLen n : Int) - (bitLen d : Int))
      = (2 : ℚ) ^ bitLen n / (2 : ℚ) ^ bitLen d := by
    rw [zpow_sub₀ (by norm_num), zpow_natCast, zpow_natCast]
  have hup : (n : ℚ) / d < 2 * ((2 : ℚ) ^ bitLen n / (2 : ℚ) ^ bitLen d) := by
    rw [div_lt_iff₀ hdq]
    have : (2 : ℚ) ^ bitLen n ≤ 2 * ((2 : ℚ) ^ bitLen n / (2 : ℚ) ^ bitLen d) * d := by
      have h2 : 2 * ((2 : ℚ) ^ bitLen n / (2 : ℚ) ^ bitLen d) * d
          = (2 : ℚ) ^ bitLen n * ((2 * d) / (2 : ℚ) ^ bitLen d) := by ring
      rw [h2]
      have h3 : (1 : ℚ) ≤ (2 * d) / (2 : ℚ) ^ bitLen d := by
        rw [le_div_iff₀ hpd]
        linarith
      nlinarith
    linarith
  have hlo : ((2 : ℚ) ^ bitLen n / (2 : ℚ) ^ bitLen d) / 2 ≤ (n : ℚ) / d := by
    rw [le_div_iff₀ hdq, div_div, div_mul_eq_mul_div, div_le_iff₀ (by positivity)]
    nlinarith
  have htest : (if 0 ≤ (bitLen n : Int) - (bitLen d : Int) then
        d * 2 ^ ((bitLen n : Int) - (bitLen d : Int)).toNat ≤ n
      else d ≤ n * 2 ^ (-((bitLen n : Int) - (bitLen d : Int))).toNat) ↔
      (2 : ℚ) ^ ((bitLen n : Int) - (bitLen d : Int)) ≤ (n : ℚ) / d := by
    split_ifs with h
    · obtain ⟨t, ht⟩ := Int.eq_ofNat_of_zero_le h
      rw [ht, Int.toNat_ofNat, zpow_natCast, le_div_iff₀ hdq]
      constructor
      · intro h1
        have : ((d * 2 ^ t : ℕ) : ℚ) ≤ n := by exact_mod_cast h1
        push_cast at this
        linarith
      · intro h1
        have : ((d * 2 ^ t : ℕ) : ℚ) ≤ n := by
          push_cast
          linarith
        exact_mod_cast this
    · obtain ⟨t, ht⟩ := Int.eq_ofNat_of_zero_le (by omega :
        0 ≤ -((bitLen n : Int) - (bitLen d : Int)))
      have ht2 : (bitLen n : Int) - (bitLen d : Int) = -(t : Int) := by omega
      rw [ht, Int.toNat_ofNat, ht2, zpow_neg, zpow_natCast, le_div_iff₀ hdq,
        inv_mul_le_iff₀ (by positivity)]
      constructor
      · intro h1
        have : ((d : ℕ) : ℚ) ≤ ((n * 2 ^ t : ℕ) : ℚ) := by exact_mod_cast h1
        push_cast at this
        linarith
      · intro h1
        have : ((d : ℕ) : ℚ) ≤ ((n * 2 ^ t : ℕ) : ℚ) := by
          push_cast
          linarith
        exact_mod_cast this
  have key : ∀ (c : Prop) [Decidable c],
      (c ↔ (2 : ℚ) ^ ((bitLen n : Int) - (bitLen d : Int)) ≤ (n : ℚ) / d) →
      (2 : ℚ) ^ (if c then (bitLen n : Int) - (bitLen d : Int)
          else (bitLen n : Int) - (bitLen d : Int) - 1) ≤ (n : ℚ) / d ∧
        (n : ℚ) / d < (2 : ℚ) ^ ((if c then (bitLen n : Int) - (bitLen d : Int)
          else (bitLen n : Int) - (bitLen d : Int) - 1) + 1) := by
    intro c _ hc
    by_cases h : c
    · rw [if_pos h]
      refine ⟨hc.mp h, ?_⟩
      rw [zpow_add_one₀ (by norm_num), he0]
      linarith
    · rw [if_neg h]
      have h2 := mt hc.mpr h
      constructor
      · rw [zpow_sub_one₀ (by norm_num), he0]
        have : (2 : ℚ) ^ bitLen n / (2 : ℚ) ^ bitLen d * 2⁻¹
            = ((2 : ℚ) ^ bitLen n / (2 : ℚ) ^ bitLen d) / 2 := by ring
        rw [this]
        exact hlo
      · rw [sub_add_cancel]
        exact not_le.mp h2
  exact key _ htest

theorem roundHalfEven_ge (N D A : Nat) (hD : 0 < D) (h : A * D ≤ N) : A ≤ roundHalfEven N D := by
  have h1 : A ≤ N / D := (Nat.le_div_iff_mul_le hD).mpr h
  unfold roundHalfEven
  simp only
  split_ifs <;> omega

theorem roundHalfEven_le (N D B : Nat) (hD : 0 < D) (h : N ≤ B * D) : roundHalfEven N D ≤ B := by
  have hdm := Nat.div_add_mod N D
  have hml := Nat.mod_lt N hD
  by_cases he : N = B * D
  · have hq : N / D = B := by rw [he]; exact Nat.mul_div_cancel _ hD
    have hr : N % D = 0 := by rw [he]; exact Nat.mul_mod_left _ _
    unfold roundHalfEven
    simp only [hq, hr]
    rw [if_pos (by omega)]
  · have hlt : N < B * D := lt_of_le_of_ne h he
    have hq : N / D < B := (Nat.div_lt_iff_lt_mul hD).mpr hlt
    unfold roundHalfEven
    simp only
    split_ifs <;> omega



theorem f64Parts_scale (n d : Nat) : (f64Parts n d).2 = 52 - max (binExp n d) (-1022) := rfl

theorem f64Parts_ge (n d A : Nat) (hd : 0 < d)
    (h : (A : ℚ) ≤ (n : ℚ) / d * (2 : ℚ) ^ (f64Parts n d).2) : A ≤ (f64Parts n d).1 := by
  have hdq : (0 : ℚ) < d := by exact_mod_cast hd
  rw [f64Parts_scale] at h
  unfold f64Parts
  simp only
  by_cases hs : 0 ≤ 52 - max (binExp n d) (-1022)
  · rw [if_pos hs]
    obtain ⟨t, ht⟩ := Int.eq_ofNat_of_zero_le hs
    rw [ht, zpow_natCast] at h
    rw [ht, Int.toNat_ofNat]
    apply roundHalfEven_ge _ _ _ hd
    have h2 : (A : ℚ) * d ≤ n * 2 ^ t := by
      have h3 : (n : ℚ) / d * 2 ^ t = n * 2 ^ t / d := by ring
      rw [h3, le_div_iff₀ hdq] at h
      exact h
    exact_mod_cast h2
  · rw [if_neg hs]
    obtain ⟨t, ht⟩ := Int.eq_ofNat_of_zero_le (by omega :
      0 ≤ -(52 - max (binExp n d) (-1022)))
    have ht2 : 52 - max (binExp n d) (-1022) = -(t : Int) := by omega
    rw [ht2, zpow_neg, zpow_natCast] at h
    rw [ht, Int.toNat_ofNat]
    apply roundHalfEven_ge _ _ _ (Nat.mul_pos hd (by positivity))
    have h2 : (A : ℚ) * (d * 2 ^ t) ≤ n := by
      have h3 : (n : ℚ) / d * (2 ^ t)⁻¹ = n / (d * 2 ^ t) := by
        field_simp
      rw [h3, le_div_iff₀ (by positivity)] at h
      exact h
    exact_mod_cast h2

theorem f64Parts_le (n d B : Nat) (hd : 0 < d)
    (h : (n : ℚ) / d * (2 : ℚ) ^ (f64Parts n d).2 ≤ B) : (f64Parts n d).1 ≤ B := by
  have hdq : (0 : ℚ) < d := by exact_mod_cast hd
  rw [f64Parts_scale] at h
  unfold f64Parts
  simp only
  by_cases hs : 0 ≤ 52 - max (binExp n d) (-1022)
  · rw [if_pos hs]
    obtain ⟨t, ht⟩ := Int.eq_ofNat_of_zero_le hs
    rw [ht, zpow_natCast] at h
    rw [ht, Int.toNat_ofNat]
    apply roundHalfEven_le _ _ _ hd
    have h2 : (n : ℚ) * 2 ^ t ≤ B * d := by
      have h3 : (n : ℚ) / d * 2 ^ t = n * 2 ^ t / d := by ring
      rw [h3, div_le_iff₀ hdq] at h
      exact h
    exact_mod_cast h2
  · rw [if_neg hs]
    obtain ⟨t, ht⟩ := Int.eq_ofNat_of_zero_le (by omega :
      0 ≤ -(52 - max (binExp n d) (-1022)))
    have ht2 : 52 - max (binExp n d) (-1022) = -(t : Int) := by omega
    rw [ht2, zpow_neg, zpow_natCast] at h
    rw [ht, Int.toNat_ofNat]
    apply roundHalfEven_le _ _ _ (Nat.mul_pos hd (by positivity))
    have h2 : (n : ℚ) ≤ B * (d * 2 ^ t) := by
      have h3 : (n : ℚ) / d * (2 ^ t)⁻¹ = n / (d * 2 ^ t) := by
        field_simp
      rw [h3, div_le_iff₀ (by positivity)] at h
      exact h
    exact_mod_cast h2

theorem rat_natAbs_div (q : ℚ) (hq : 0 < q) :
    ((q.num.natAbs : ℕ) : ℚ) / (q.den : ℚ) = q ∧ 0 < q.num.natAbs ∧ 0 < q.den := by
  have hnum : 0 < q.num := Rat.num_pos.mpr hq
  refine ⟨?_, Int.natAbs_pos.mpr (ne_of_gt hnum), q.den_pos⟩
  rw [Nat.cast_natAbs, abs_of_pos hnum]
  exact Rat.num_div_den q

theorem roundF64_zero : roundF64 0 = 0 := by
  simp [roundF64]

theorem roundF64_of_pos (q : ℚ) (hq : 0 < q) :
    roundF64 q = ((f64Parts q.num.natAbs q.den).1 : ℚ)
      * (2 : ℚ) ^ (-(f64Parts q.num.natAbs q.den).2) := by
  have hnum : 0 < q.num := Rat.num_pos.mpr hq
  unfold roundF64
  rw [if_neg (ne_of_gt hnum)]
  simp only
  rw [if_neg (not_lt.mpr (le_of_lt hnum))]
  by_cases hs : 0 ≤ (f64Parts q.num.natAbs q.den).2
  · rw [if_pos hs]
    obtain ⟨t, ht⟩ := Int.eq_ofNat_of_zero_le hs
    rw [ht, Int.toNat_ofNat, zpow_neg, zpow_natCast]
    rfl
  · rw [if_neg hs]
    obtain ⟨t, ht⟩ := Int.eq_ofNat_of_zero_le (by omega :
      0 ≤ -(f64Parts q.num.natAbs q.den).2)
    rw [ht, Int.toNat_ofNat, zpow_natCast]

theorem roundF64_neg (x : ℚ) : roundF64 (-x) = -roundF64 x := by
  unfold roundF64
  rw [Rat.neg_num, Rat.neg_den, Int.natAbs_neg]
  by_cases h0 : x.num = 0
  · rw [if_pos h0, if_pos (by omega), neg_zero]
  · rw [if_neg h0, if_neg (by omega)]
    simp only
    by_cases hneg : x.num < 0
    · rw [if_pos hneg, if_neg (by omega), neg_neg]
    · rw [if_neg hneg, if_pos (by omega)]

/-- The shape of a rounded positive number: a significand of at most
`2 ^ 53` at a scale of at most 1074, not zero for a number from `2 ^ (-1074)`
upwards. -/
theorem roundF64_form (q : ℚ) (hq : 0 < q) :
    ∃ (k : ℕ) (s : Int), roundF64 q = (k : ℚ) * (2 : ℚ) ^ (-s) ∧ k ≤ 2 ^ 53 ∧ s ≤ 1074 ∧
      ((2 : ℚ) ^ (-1074 : Int) ≤ q → 1 ≤ k) := by
  obtain ⟨hval, hn, hd⟩ := rat_natAbs_div q hq
  obtain ⟨he1, he2⟩ := binExp_spec q.num.natAbs q.den hn hd
  rw [hval] at he1 he2
  refine ⟨(f64Parts q.num.natAbs q.den).1, (f64Parts q.num.natAbs q.den).2,
    roundF64_of_pos q hq, ?_, ?_, ?_⟩
  · have h := f64Parts_le q.num.natAbs q.den (2 ^ 53) hd
    apply h
    have hc : ((2 ^ 53 : ℕ) : ℚ) = (2 : ℚ) ^ (53 : Int) := by norm_num
    rw [hval, f64Parts_scale, hc]
    have h1 : q * (2 : ℚ) ^ (52 - max (binExp q.num.natAbs q.den) (-1022))
        ≤ (2 : ℚ) ^ (binExp q.num.natAbs q.den + 1)
          * (2 : ℚ) ^ (52 - max (binExp q.num.natAbs q.den) (-1022)) :=
      mul_le_mul_of_nonneg_right (le_of_lt he2) (by positivity)
    refine le_trans h1 ?_
    rw [← zpow_add₀ (by norm_num)]
    exact zpow_le_zpow_right₀ (by norm_num) (by omega)
  · rw [f64Parts_scale]
    omega
  · intro hsmall
    have h := f64Parts_ge q.num.natAbs q.den 1 hd
    apply h
    rw [hval, f64Parts_scale, Nat.cast_one]
    by_cases hc : -1022 ≤ binExp q.num.natAbs q.den
    · rw [max_eq_left hc]
      have h1 : (2 : ℚ) ^ binExp q.num.natAbs q.den
          * (2 : ℚ) ^ (52 - binExp q.num.natAbs q.den)
          ≤ q * (2 : ℚ) ^ (52 - binExp q.num.natAbs q.den) :=
        mul_le_mul_of_nonneg_right he1 (by positivity)
      refine le_trans ?_ h1
      rw [← zpow_add₀ (by norm_num)]
      have h2 : (1 : ℚ) = (2 : ℚ) ^ (0 : Int) := by norm_num
      rw [h2]
      exact zpow_le_zpow_right₀ (by norm_num) (by omega)
    · rw [max_eq_right (by omega)]
      have h1 : (2 : ℚ) ^ (-1074 : Int) * (2 : ℚ) ^ (52 - (-1022) : Int)
          ≤ q * (2 : ℚ) ^ (52 - (-1022) : Int) :=
        mul_le_mul_of_nonneg_right hsmall (by positivity)
      refine le_trans ?_ h1
      rw [← zpow_add₀ (by norm_num)]
      norm_num

/-- A number with a significand below `2 ^ 53` at a scale of at most 1074 is
its own rounding. -/
theorem roundF64_representable (k : ℕ) (s : Int) (hk : k < 2 ^ 53) (hs : s ≤ 1074) :
    roundF64 ((k : ℚ) * (2 : ℚ) ^ (-s)) = (k : ℚ) * (2 : ℚ) ^ (-s) := by
  by_cases hk0 : k = 0
  · subst hk0
    simp [roundF64_zero]
  have hkq : (0 : ℚ) < k := by exact_mod_cast Nat.pos_of_ne_zero hk0
  have hy : 0 < (k : ℚ) * (2 : ℚ) ^ (-s) := mul_pos hkq (by positivity)
  obtain ⟨hval, hn, hd⟩ := rat_natAbs_div _ hy
  obtain ⟨he1, he2⟩ := binExp_spec _ _ hn hd
  rw [hval] at he1 he2
  rw [roundF64_of_pos _ hy]
  generalize hn' : ((k : ℚ) * (2 : ℚ) ^ (-s)).num.natAbs = n at *
  generalize hd' : ((k : ℚ) * (2 : ℚ) ^ (-s)).den = d at *
  have hlt : (k : ℚ) * (2 : ℚ) ^ (-s) < (2 : ℚ) ^ (53 - s) := by
    have h1 : (k : ℚ) < (2 : ℚ) ^ (53 : Int) := by
      have hc : ((2 ^ 53 : ℕ) : ℚ) = (2 : ℚ) ^ (53 : Int) := by norm_num
      have : (k : ℚ) < ((2 ^ 53 : ℕ) : ℚ) := by exact_mod_cast hk
      rw [hc] at this
      exact this
    have h2 : (2 : ℚ) ^ (53 - s) = (2 : ℚ) ^ (53 : Int) * (2 : ℚ) ^ (-s) := by
      rw [← zpow_add₀ (by norm_num)]
      congr 1
    rw [h2]
    exact mul_lt_mul_of_pos_right h1 (by positivity)
  have hexp : binExp n d < 53 - s :=
    (zpow_lt_zpow_iff_right₀ (by norm_num : (1 : ℚ) < 2)).mp (lt_of_le_of_lt he1 hlt)
  have hscale : s ≤ (f64Parts n d).2 := by
    rw [f64Parts_scale]
    omega
  obtain ⟨t, ht⟩ := Int.eq_ofNat_of_zero_le (sub_nonneg.mpr hscale)
  have h3 : (f64Parts n d).2 = s + (t : Int) := by omega
  have hp : (2 : ℚ) ^ s ≠ 0 := by positivity
  have hm : (n : ℚ) / d * (2 : ℚ) ^ (f64Parts n d).2 = ((k * 2 ^ t : ℕ) : ℚ) := by
    rw [hval, h3, zpow_add₀ (by norm_num), zpow_natCast, zpow_neg]
    push_cast
    field_simp
    ring
  have hk2 : (f64Parts n d).1 = k * 2 ^ t :=
    le_antisymm (f64Parts_le n d _ hd (le_of_eq hm)) (f64Parts_ge n d _ hd (le_of_eq hm.symm))
  rw [hk2, h3, neg_add, zpow_add₀ (by norm_num), zpow_neg, zpow_neg, zpow_natCast]
  push_cast
  field_simp
  ring

theorem roundF64_idem (x : ℚ) : roundF64 (roundF64 x) = roundF64 x := by
  have hpos : ∀ q : ℚ, 0 < q → roundF64 (roundF64 q) = roundF64 q := by
    intro q hq
    obtain ⟨k, s, hform, hk, hs, _⟩ := roundF64_form q hq
    rw [hform]
    by_cases hk2 : k < 2 ^ 53
    · exact roundF64_representable k s hk2 hs
    · have hk3 : k = 2 ^ 53 := le_antisymm hk (not_lt.mp hk2)
      have h1 : (k : ℚ) * (2 : ℚ) ^ (-s) = ((2 ^ 52 : ℕ) : ℚ) * (2 : ℚ) ^ (-(s - 1)) := by
        rw [hk3, neg_sub, zpow_sub₀ (by norm_num), zpow_neg]
        have hp : (2 : ℚ) ^ s ≠ 0 := by positivity
        push_cast
        field_simp
        norm_num
      rw [h1]
      exact roundF64_representable (2 ^ 52) (s - 1) (by norm_num) (by omega)
  rcases lt_trichotomy x 0 with h | h | h
  · have h2 := hpos (-x) (neg_pos.mpr h)
    rw [roundF64_neg, roundF64_neg, neg_inj] at h2
    exact h2
  · subst h
    rw [roundF64_zero, roundF64_zero]
  · exact hpos x h

theorem roundF64_pos (x : ℚ) (h : (1 : ℚ) / 3600000000000 ≤ x) : 0 < roundF64 x := by
  have hx : 0 < x := lt_of_lt_of_le (by norm_num) h
  obtain ⟨k, s, hform, _, _, hk⟩ := roundF64_form x hx
  have h1 : (2 : ℚ) ^ (-1074 : Int) ≤ (1 : ℚ) / 3600000000000 := by
    have h2 : (2 : ℚ) ^ (-1074 : Int) ≤ (2 : ℚ) ^ (-42 : Int) :=
      zpow_le_zpow_right₀ (by norm_num) (by norm_num)
    refine le_trans h2 ?_
    norm_num
  have hk1 : 1 ≤ k := hk (le_trans h1 h)
  rw [hform]
  have : (0 : ℚ) < k := by exact_mod_cast hk1
  positivity

/-! ## Claims -/

/-- C3 fails as stated: in binary64 the loss total depends on the order in
which the chunk results arrive. Chunk losses `2^53, 1, 1` give `2^53` in that
order and `2^53 + 2` when the two small losses arrive first; chunk losses
`0.1, 0.2, 0.3` (the nearest binary64 values) give two different totals as
well. -/
theorem collect_losses_order_dependent :
    GoMap.getD (collect f64Env
        [⟨[], [("1001", 9007199254740992)], 0⟩, ⟨[], [("1001", 1)], 1⟩, ⟨[], [("1001", 1)], 2⟩]).2
        "1001" 0 = 9007199254740992 ∧
      GoMap.getD (collect f64Env
        [⟨[], [("1001", 1)], 1⟩, ⟨[], [("1001", 1)], 2⟩, ⟨[], [("1001", 9007199254740992)], 0⟩]).2
        "1001" 0 = 9007199254740994 ∧
      GoMap.getD (collect f64Env
        [⟨[], [("1001", roundF64 (1 / 10))], 0⟩, ⟨[], [("1001", roundF64 (2 / 10))], 1⟩,
          ⟨[], [("1001", roundF64 (3 / 10))], 2⟩]).2 "1001" 0 ≠
      GoMap.getD (collect f64Env
        [⟨[], [("1001", roundF64 (3 / 10))], 2⟩, ⟨[], [("1001", roundF64 (2 / 10))], 1⟩,
          ⟨[], [("1001", roundF64 (1 / 10))], 0⟩]).2 "1001" 0 := by
  decide!

theorem sorted_eq_of_perm_of_nodup {E : Env} (hE : E.Sound) (l1 l2 : List StockEvent)
    (hp : l1.Perm l2) (hnd : (l1.map (fun e => e.time)).Nodup) :
    E.sortSlice StockEvent eventLess l1 = E.sortSlice StockEvent eventLess l2 := by
  have key : ∀ l : List StockEvent, l.Perm l1 →
      (E.sortSlice StockEvent eventLess l).Pairwise (fun a b => a.time < b.time) := by
    intro l hl
    have hs := hE.sort_sorted StockEvent eventLess l eventLess_strictWeak
    have hperm : (E.sortSlice StockEvent eventLess l).Perm l1 :=
      (hE.sort_perm StockEvent eventLess l).trans hl
    have hnd' : ((E.sortSlice StockEvent eventLess l).map (fun e => e.time)).Nodup :=
      (List.Perm.nodup_iff (List.Perm.map _ hperm)).mpr hnd
    rw [List.Nodup, List.pairwise_map] at hnd'
    refine (hs.and hnd').imp ?_
    intro a b hab
    have h1 : ¬ b.time < a.time := by simpa [eventLess] using hab.1
    exact lt_of_le_of_ne (not_lt.mp h1) hab.2
  haveI : IsAntisymm StockEvent (fun a b => a.time < b.time) :=
    ⟨fun a b h1 h2 => absurd h1 (lt_asymm h2)⟩
  refine List.eq_of_perm_of_sorted ?_ (key l1 (List.Perm.refl _)) (key l2 hp.symm)
  exact (hE.sort_perm _ _ l1).trans (hp.trans (hE.sort_perm _ _ l2).symm)

/-- Reordering an event list with pairwise distinct timestamps does not change
the value of `calculateOSA`. -/
theorem calculateOSA_eq_of_perm (E : Env) (hE : E.Sound) (l1 l2 : List StockEvent)
    (hp : l1.Perm l2) (hnd : (l1.map (fun e => e.time)).Nodup) (startDate finishDate : Time) :
    calculateOSA E l1 startDate finishDate = calculateOSA E l2 startDate finishDate := by
  unfold calculateOSA
  rw [sorted_eq_of_perm_of_nodup hE l1 l2 hp hnd, hp.length_eq]

/-- C5, as amended: for every window, `calculateOSA` returns the same value
for every reordering of an event list whose timestamps are pairwise
distinct. -/
theorem calculateOSA_perm (E : Env) (hE : E.Sound) (l1 l2 : List StockEvent)
    (hp : l1.Perm l2) (hnd : (l1.map (fun e => e.time)).Nodup) (startDate finishDate : Time) :
    calculateOSA E l1 startDate finishDate = calculateOSA E l2 startDate finishDate :=
  calculateOSA_eq_of_perm E hE l1 l2 hp hnd startDate finishDate

/-- C5, as amended, at two events given in both orders. -/
theorem calculateOSA_perm_witness :
    calculateOSA exactEnv [⟨43200000000000, 10, 8⟩, ⟨64800000000000, 8, 0⟩] 0 86400000000000 =
      calculateOSA exactEnv [⟨64800000000000, 8, 0⟩, ⟨43200000000000, 10, 8⟩] 0 86400000000000 :=
  calculateOSA_perm exactEnv exactEnv_sound _ _ (List.Perm.swap _ _ []) (by decide) _ _

/-- C5 fails as stated: two events with the same timestamp (the window start
of a 24-hour window), one closing at `0` and one closing at `5`, give 100 in
one input order and 0 in the other. -/
theorem calculateOSA_tie_order_dependent :
    calculateOSA f64Env [⟨0, 5, 0⟩, ⟨0, 0, 5⟩] 0 86400000000000 = 100 ∧
      calculateOSA f64Env [⟨0, 0, 5⟩, ⟨0, 5, 0⟩] 0 86400000000000 = 0 := by
  decide!

/-- C4 fails on the code: for the window from `01.01.1700` to `31.12.2024`
(end of day) and one event on `01.06.2024` with positive balances, the
interval from the window start to the event and the window itself exceed the
largest `Duration`, so both `Sub` calls return that largest duration, the
tail of 214 days is added on top, and the availability is 100.2 percent. -/
theorem calculateOSA_above_100 :
    timeParse layoutDate "01.01.1700" = some 53615260800000000000 ∧
      (timeParse layoutDate "31.12.2024").map (fun t => timeAdd t dayNs)
        = some 63871286400000000000 ∧
      parseDateTime "01.06.2024 00:00:00" = some 63852796800000000000 ∧
      calculateOSA exactEnv [⟨63852796800000000000, 1, 1⟩]
        53615260800000000000 63871286400000000000 = 501 / 5 ∧
      calculateOSA f64Env [⟨63852796800000000000, 1, 1⟩]
        53615260800000000000 63871286400000000000 = 7050948166601933 / 70368744177664 ∧
      (100 : ℚ) < 7050948166601933 / 70368744177664 := by
  decide!

/-! ## ABC classification -/

theorem abcLoop_length (E : Env) (total : ℚ) :
    ∀ (items : List ItemAnalyticsResult) (cum : ℚ),
      (abcLoop E total cum items).length = items.length := by
  intro items
  induction items with
  | nil => intro cum; rfl
  | cons it rest ih => intro cum; simp [abcLoop, ih]

theorem abcLoop_get (E : Env) (total : ℚ) :
    ∀ (items : List ItemAnalyticsResult) (cum : ℚ) (i : Nat),
      (abcLoop E total cum items)[i]? =
        (items[i]?).map (fun it => { it with abc := abcLabel (E.rnd (E.rnd
          ((items.take (i + 1)).foldl (fun t x => E.rnd (t + x.sales)) cum / total) * 100)) }) := by
  intro items
  induction items with
  | nil => intro cum i; simp [abcLoop]
  | cons it rest ih =>
    intro cum i
    cases i with
    | zero => simp [abcLoop]
    | succ j =>
      simp only [abcLoop, List.getElem?_cons_succ, ih, List.take_succ_cons, List.foldl_cons]

theorem abcLabel_mem (share : ℚ) :
    abcLabel share = "A" ∨ abcLabel share = "B" ∨ abcLabel share = "C" := by
  unfold abcLabel
  split_ifs <;> simp

theorem abcLoop_labels (E : Env) (total : ℚ) :
    ∀ (items : List ItemAnalyticsResult) (cum : ℚ),
      ∀ it ∈ abcLoop E total cum items, it.abc = "A" ∨ it.abc = "B" ∨ it.abc = "C" := by
  intro items
  induction items with
  | nil => intro cum it h; simp [abcLoop] at h
  | cons x rest ih =>
    intro cum it h
    simp only [abcLoop, List.mem_cons] at h
    rcases h with rfl | h
    · exact abcLabel_mem _
    · exact ih _ it h

theorem abcTotal_exact {E : Env} (hx : ∀ x, E.rnd x = x) (items : List ItemAnalyticsResult) :
    abcTotal E items = (items.map (fun it => it.sales)).sum := by
  unfold abcTotal
  have key : ∀ (l : List ItemAnalyticsResult) (init : ℚ),
      l.foldl (fun total item => E.rnd (total + item.sales)) init =
        init + (l.map (fun it => it.sales)).sum := by
    intro l
    induction l with
    | nil => intro init; simp
    | cons a l ih => intro init; rw [List.foldl_cons, ih, hx]; simp; ring
  rw [key]; simp

/-! ## `processChunk`, key by key -/

theorem chunkStep_losses (E : Env) (acc : GoMap (List StockEvent) × GoMap ℚ) (it : StockItem)
    (c : String) :
    GoMap.getD (chunkStep E acc it).2 c 0 =
      if countsForLoss E c it = true then
        E.rnd (GoMap.getD acc.2 c 0 + E.rnd (it.startBalance - it.endBalance))
      else GoMap.getD acc.2 c 0 := by
  unfold chunkStep countsForLoss
  simp only
  by_cases h1 : TrimSpace it.code = ""
  · rw [if_pos h1]
    have : ¬ (TrimSpace it.code = c ∧ c ≠ "" ∧ (parseDateTime it.period).isSome = true ∧
        it.expenseItem = shrinkageMarker ∧ 0 < E.rnd (it.startBalance - it.endBalance)) := by
      rintro ⟨h, h', -⟩
      exact h' (h ▸ h1)
    simp [this]
  · rw [if_neg h1]
    cases hp : parseDateTime it.period with
    | none => simp
    | some dt =>
      simp only [Option.isSome_some, true_and]
      by_cases h2 : it.expenseItem = shrinkageMarker
      · rw [if_pos h2]
        by_cases h3 : E.rnd (it.startBalance - it.endBalance) > 0
        · rw [if_pos h3]
          simp only [GoMap.getD_set]
          by_cases h4 : TrimSpace it.code = c
          · subst h4
            simp [h1, h2, h3, gt_iff_lt.mp h3]
          · simp [h4]
        · rw [if_neg h3]
          have h3' : ¬ 0 < E.rnd (it.startBalance - it.endBalance) := h3
          simp [h3']
      · rw [if_neg h2]
        simp [h2]

theorem chunkFold_losses (E : Env) (c : String) :
    ∀ (items : List StockItem) (acc : GoMap (List StockEvent) × GoMap ℚ),
      GoMap.getD (items.foldl (chunkStep E) acc).2 c 0 =
        floatSum E (GoMap.getD acc.2 c 0) (lossTerms E items c) := by
  intro items
  induction items with
  | nil => intro acc; rfl
  | cons it rest ih =>
    intro acc
    rw [List.foldl_cons, ih, chunkStep_losses]
    unfold lossTerms floatSum
    by_cases h : countsForLoss E c it = true
    · rw [if_pos h, List.filter_cons_of_pos h, List.map_cons, List.foldl_cons]
    · rw [if_neg h, List.filter_cons_of_neg h]

theorem floatSum_exact {E : Env} (hx : ∀ x, E.rnd x = x) :
    ∀ (terms : List ℚ) (init : ℚ), floatSum E init terms = init + terms.sum := by
  intro terms
  induction terms with
  | nil => intro init; simp [floatSum]
  | cons d rest ih =>
    intro init
    have := ih (E.rnd (init + d))
    unfold floatSum at this ⊢
    rw [List.foldl_cons, this, hx, List.sum_cons]
    ring

/-- C7, as amended: for every chunk and every code `c`, the loss quantity that
`processChunk` reports for `c` is the sum (taken in `float64`, in chunk order;
the plain sum in exact arithmetic) of the positive differences
opening - closing over the records whose trimmed code is `c` and not empty,
whose period parses, and whose expense category is exactly the shrinkage
marker. A record with opening 10 and closing 8 contributes 2, and a record
with opening 8 and closing 10 contributes 0. -/
theorem processChunk_losses (E : Env) (chunk : Chunk) (startDate finishDate : Time)
    (c : String) :
    GoMap.getD (processChunk E chunk startDate finishDate).losses c 0 =
        floatSum E 0 (lossTerms E chunk.items c) ∧
      ((∀ x, E.rnd x = x) →
        GoMap.getD (processChunk E chunk startDate finishDate).losses c 0 =
          (lossTerms E chunk.items c).sum) ∧
      GoMap.getD (processChunk f64Env
        ⟨[⟨"1001", "", "", "01.01.2024 12:00:00", 10, 8, shrinkageMarker⟩], 0⟩
        startDate finishDate).losses "1001" 0 = 2 ∧
      GoMap.getD (processChunk f64Env
        ⟨[⟨"1001", "", "", "01.01.2024 12:00:00", 8, 10, shrinkageMarker⟩], 0⟩
        startDate finishDate).losses "1001" 0 = 0 := by
  have h : GoMap.getD (processChunk E chunk startDate finishDate).losses c 0 =
      floatSum E 0 (lossTerms E chunk.items c) := by
    unfold processChunk
    simp only
    rw [chunkFold_losses]
    rfl
  refine ⟨h, ?_, ?_, ?_⟩
  · intro hx
    rw [h, floatSum_exact hx]
    simp
  · unfold processChunk
    decide!
  · unfold processChunk
    decide!

/-- C7, as amended, in exact arithmetic at a chunk of three shrinkage records
of which two count: the reported loss is the sum of their differences. -/
theorem processChunk_losses_witness :
    GoMap.getD (processChunk exactEnv
        ⟨[⟨"1001", "", "", "01.01.2024 12:00:00", 10, 8, shrinkageMarker⟩,
          ⟨" 1001", "", "", "02.01.2024", 8, 10, shrinkageMarker⟩,
          ⟨"1001", "", "", "03.01.2024", 7, 4, shrinkageMarker⟩], 0⟩ 0 0).losses "1001" 0 =
      (lossTerms exactEnv
        [⟨"1001", "", "", "01.01.2024 12:00:00", 10, 8, shrinkageMarker⟩,
          ⟨" 1001", "", "", "02.01.2024", 8, 10, shrinkageMarker⟩,
          ⟨"1001", "", "", "03.01.2024", 7, 4, shrinkageMarker⟩] "1001").sum :=
  (processChunk_losses exactEnv _ 0 0 "1001").2.1 (fun _ => rfl)

/-- C7 fails as stated: a record with the shrinkage marker, opening 10 and
closing 8, whose period does not parse contributes nothing in the code, while
the sum of the claim counts 2; the same holds for the empty code and a record
whose code is blank. -/
theorem processChunk_skips_unparsed_loss :
    GoMap.getD (processChunk f64Env
        ⟨[⟨"1001", "", "", "", 10, 8, shrinkageMarker⟩], 0⟩ 0 0).losses "1001" 0 = 0 ∧
      lossOfSpec ⟨[⟨"1001", "", "", "", 10, 8, shrinkageMarker⟩], 0⟩ "1001" = 2 ∧
      GoMap.getD (processChunk f64Env
        ⟨[⟨"  ", "", "", "01.01.2024 12:00:00", 10, 8, shrinkageMarker⟩], 0⟩ 0 0).losses "" 0 = 0 ∧
      lossOfSpec ⟨[⟨"  ", "", "", "01.01.2024 12:00:00", 10, 8, shrinkageMarker⟩], 0⟩ "" = 2 := by
  decide!

/-! ## The sales maps -/

theorem GoMap.keys_nil {V : Type} : GoMap.keys ([] : GoMap V) = [] := rfl

theorem salesFold_keys (E : Env) (c : String) :
    ∀ (sales : List SalesItem) (m : SalesMaps),
      c ∈ GoMap.keys (sales.foldl (salesStep E) m).salesByCode ↔
        c ∈ GoMap.keys m.salesByCode ∨ (c ≠ "" ∧ ∃ it ∈ sales, TrimSpace it.code = c) := by
  intro sales
  induction sales with
  | nil => intro m; simp
  | cons it rest ih =>
    intro m
    rw [List.foldl_cons, ih]
    unfold salesStep
    simp only
    by_cases h : TrimSpace it.code = ""
    · rw [if_pos h]
      constructor
      · rintro (h1 | ⟨h1, x, hx, hxc⟩)
        · exact Or.inl h1
        · exact Or.inr ⟨h1, x, List.mem_cons_of_mem _ hx, hxc⟩
      · rintro (h1 | ⟨h1, x, hx, hxc⟩)
        · exact Or.inl h1
        · rw [List.mem_cons] at hx
          rcases hx with rfl | hx
          · exact absurd (hxc ▸ h) h1
          · exact Or.inr ⟨h1, x, hx, hxc⟩
    · rw [if_neg h]
      simp only [GoMap.mem_keys_set]
      constructor
      · rintro ((h1 | h1) | ⟨h1, x, hx, hxc⟩)
        · exact Or.inr ⟨h1 ▸ h, it, List.mem_cons_self _ _, h1.symm⟩
        · exact Or.inl h1
        · exact Or.inr ⟨h1, x, List.mem_cons_of_mem _ hx, hxc⟩
      · rintro (h1 | ⟨h1, x, hx, hxc⟩)
        · exact Or.inl (Or.inr h1)
        · rw [List.mem_cons] at hx
          rcases hx with rfl | hx
          · exact Or.inl (Or.inl hxc.symm)
          · exact Or.inr ⟨h1, x, hx, hxc⟩

theorem makeItem_code (E : Env) (allEvents : GoMap (List StockEvent)) (allLosses : GoMap ℚ)
    (m : SalesMaps) (groupByCode : GoMap String) (priceByCode : GoMap ℚ)
    (startDate finishDate : Time) (code : String) :
    (makeItem E allEvents allLosses m groupByCode priceByCode startDate finishDate code).code
      = code := rfl

/-- The run of `processDataParallel` for `W ≥ 1`: the call returns the items
made for the keys of `salesByCode`, in the order of the `range` statement. -/
theorem processDataParallel_ok (E : Env) (W : Int) (hW : 1 ≤ W) (stockData : List StockItem)
    (salesData : List SalesItem) (startDate finishDate : Time) :
    ∃ chunks, splitIntoChunks { workers := W } stockData = .ok chunks ∧
      chunkItems chunks = stockData ∧
      processDataParallel E { workers := W } stockData salesData startDate finishDate =
        .ok ((E.rangeKeys (GoMap.keys (salesData.foldl (salesStep E)
            { salesByCode := [], salesQtyByCode := [], nameByCode := [] }).salesByCode)).map
          (makeItem E
            (collect E (workerResults E { workers := W } chunks startDate finishDate)).1
            (collect E (workerResults E { workers := W } chunks startDate finishDate)).2
            (salesData.foldl (salesStep E)
              { salesByCode := [], salesQtyByCode := [], nameByCode := [] })
            (stockData.foldl groupStep [])
            (priceMap E (salesData.foldl (salesStep E)
              { salesByCode := [], salesQtyByCode := [], nameByCode := [] }))
            startDate finishDate)) := by
  obtain ⟨chunks, h1, h2⟩ := splitIntoChunks_spec stockData W hW
  refine ⟨chunks, h1, h2, ?_⟩
  unfold processDataParallel
  rw [h1]

/-- C8: for every ledger and sales collection (and every `W ≥ 1`),
`processDataParallel` returns a list with exactly one item for each distinct
non-blank trimmed sales code and no item for any other code. -/
theorem processDataParallel_codes (E : Env) (hE : E.Sound) (W : Int) (hW : 1 ≤ W)
    (stockData : List StockItem) (salesData : List SalesItem) (startDate finishDate : Time) :
    ∃ items,
      processDataParallel E { workers := W } stockData salesData startDate finishDate = .ok items ∧
      (items.map (fun it => it.code)).Nodup ∧
      ∀ c : String, c ∈ items.map (fun it => it.code) ↔
        (c ≠ "" ∧ ∃ sale ∈ salesData, TrimSpace sale.code = c) := by
  obtain ⟨chunks, -, -, h⟩ :=
    processDataParallel_ok E W hW stockData salesData startDate finishDate
  refine ⟨_, h, ?_, ?_⟩
  · rw [List.map_map]
    have : ((fun it : ItemAnalyticsResult => it.code) ∘
        makeItem E
          (collect E (workerResults E { workers := W } chunks startDate finishDate)).1
          (collect E (workerResults E { workers := W } chunks startDate finishDate)).2
          (salesData.foldl (salesStep E)
            { salesByCode := [], salesQtyByCode := [], nameByCode := [] })
          (stockData.foldl groupStep [])
          (priceMap E (salesData.foldl (salesStep E)
            { salesByCode := [], salesQtyByCode := [], nameByCode := [] }))
          startDate finishDate) = id := by
      funext code; rfl
    rw [this, List.map_id]
    exact rangeKeys_nodup hE _
  · intro c
    rw [List.map_map]
    have : ((fun it : ItemAnalyticsResult => it.code) ∘
        makeItem E
          (collect E (workerResults E { workers := W } chunks startDate finishDate)).1
          (collect E (workerResults E { workers := W } chunks startDate finishDate)).2
          (salesData.foldl (salesStep E)
            { salesByCode := [], salesQtyByCode := [], nameByCode := [] })
          (stockData.foldl groupStep [])
          (priceMap E (salesData.foldl (salesStep E)
            { salesByCode := [], salesQtyByCode := [], nameByCode := [] }))
          startDate finishDate) = id := by
      funext code; rfl
    rw [this, List.map_id, mem_rangeKeys hE, salesFold_keys]
    simp [GoMap.keys_nil]

/-- C8, at a ledger with code `2002` only and sales with the codes `1001`
(twice, once padded) and a blank code. -/
theorem processDataParallel_codes_witness :
    ∃ items,
      processDataParallel exactEnv { workers := 2 }
        [⟨"2002", "", "", "01.01.2024", 1, 1, ""⟩]
        [⟨"1001", "a", 1, 10⟩, ⟨"  ", "b", 1, 10⟩, ⟨" 1001 ", "c", 2, 20⟩] 0 86400000000000
        = .ok items ∧
      (items.map (fun it => it.code)).Nodup ∧
      ∀ c : String, c ∈ items.map (fun it => it.code) ↔
        (c ≠ "" ∧ ∃ sale ∈ ([⟨"1001", "a", 1, 10⟩, ⟨"  ", "b", 1, 10⟩, ⟨" 1001 ", "c", 2, 20⟩] :
          List SalesItem), TrimSpace sale.code = c) :=
  processDataParallel_codes exactEnv exactEnv_sound 2 (by decide) _ _ _ _

/-- The shape of a successful run of `GetItemAnalytics`. -/
theorem GetItemAnalytics_ok (E : Env) (s : Service) (stockFile : Option (List StockItem))
    (salesFile : Option (List SalesItem)) (req : ItemAnalyticsRequest) (resp : AnalyticsResponse)
    (h : GetItemAnalytics E s stockFile salesFile req = .ok resp) :
    ∃ startDate finishDate stockData salesData items,
      timeParse layoutDate req.startDate = some startDate ∧
      timeParse layoutDate req.finishDate = some finishDate ∧
      stockFile = some stockData ∧ salesFile = some salesData ∧
      processDataParallel E s stockData salesData startDate (timeAdd finishDate dayNs)
        = .ok items ∧
      resp.items = E.sortSlice ItemAnalyticsResult salesGreater
        (calculateABCClassification E items) ∧
      resp.total = resp.items.length := by
  unfold GetItemAnalytics at h
  cases h1 : timeParse layoutDate req.startDate with
  | none => rw [h1] at h; cases h
  | some startDate =>
    cases h2 : timeParse layoutDate req.finishDate with
    | none => rw [h1, h2] at h; cases h
    | some finishDate =>
      cases stockFile with
      | none => rw [h1, h2] at h; cases h
      | some stockData =>
        cases salesFile with
        | none => rw [h1, h2] at h; cases h
        | some salesData =>
          rw [h1, h2] at h
          simp only at h
          cases h3 : processDataParallel E s stockData salesData startDate
              (timeAdd finishDate dayNs) with
          | error f => rw [h3] at h; cases h
          | ok items =>
            rw [h3] at h
            simp only [Except.ok.injEq] at h
            subst h
            exact ⟨startDate, finishDate, stockData, salesData, items, rfl, rfl, rfl, rfl,
              h3, rfl, rfl⟩

/-- C9: for every successful aggregation, the returned item list is in
non-increasing order of `Sales`, it is a permutation of the list left by the
ABC classifier (so every item keeps all its fields, the label included), and
`Total` is the number of items. -/
theorem GetItemAnalytics_sorted (E : Env) (hE : E.Sound) (s : Service)
    (stockFile : Option (List StockItem)) (salesFile : Option (List SalesItem))
    (req : ItemAnalyticsRequest) (resp : AnalyticsResponse)
    (h : GetItemAnalytics E s stockFile salesFile req = .ok resp) :
    resp.items.Pairwise (fun a b => a.sales ≥ b.sales) ∧
      (∃ startDate finishDate stockData salesData items,
        stockFile = some stockData ∧ salesFile = some salesData ∧
        processDataParallel E s stockData salesData startDate finishDate = .ok items ∧
        resp.items.Perm (calculateABCClassification E items)) ∧
      resp.total = resp.items.length := by
  obtain ⟨startDate, finishDate, stockData, salesData, items, -, -, h3, h4, h5, h6, h7⟩ :=
    GetItemAnalytics_ok E s stockFile salesFile req resp h
  refine ⟨?_, ⟨startDate, _, stockData, salesData, items, h3, h4, h5, ?_⟩, h7⟩
  · rw [h6]
    refine (hE.sort_sorted ItemAnalyticsResult salesGreater _ salesGreater_strictWeak).imp ?_
    intro a b hab
    simpa [salesGreater] using hab
  · rw [h6]
    exact hE.sort_perm _ _ _

/-- C9, at a run with two sales codes. -/
theorem GetItemAnalytics_sorted_witness :
    (([⟨"2002", "2002", noGroup, 300, 0, 0, 0, "C"⟩, ⟨"1001", "1001", noGroup, 100, 0, 0, 0, "A"⟩] :
        List ItemAnalyticsResult).Pairwise (fun a b => a.sales ≥ b.sales)) ∧
      (∃ startDate finishDate stockData salesData items,
        (some [] : Option (List StockItem)) = some stockData ∧
        (some [⟨"1001", "", 1, 100⟩, ⟨"2002", "", 1, 300⟩] : Option (List SalesItem))
          = some salesData ∧
        processDataParallel exactEnv { workers := 2 } stockData salesData startDate finishDate
          = .ok items ∧
        ([⟨"2002", "2002", noGroup, 300, 0, 0, 0, "C"⟩,
            ⟨"1001", "1001", noGroup, 100, 0, 0, 0, "A"⟩] : List ItemAnalyticsResult).Perm
          (calculateABCClassification exactEnv items)) ∧
      ((2 : Int) = ([⟨"2002", "2002", noGroup, 300, 0, 0, 0, "C"⟩,
        ⟨"1001", "1001", noGroup, 100, 0, 0, 0, "A"⟩] : List ItemAnalyticsResult).length) :=
  GetItemAnalytics_sorted exactEnv exactEnv_sound { workers := 2 } (some [])
    (some [⟨"1001", "", 1, 100⟩, ⟨"2002", "", 1, 300⟩]) ⟨"t", "01.01.2024", "31.01.2024"⟩
    ⟨[⟨"2002", "2002", noGroup, 300, 0, 0, 0, "C"⟩, ⟨"1001", "1001", noGroup, 100, 0, 0, 0, "A"⟩], 2⟩
    (by decide!)

/-! ## The end-to-end example -/

theorem sortSlice_singleton {E : Env} (hE : E.Sound) {α : Type} (less : α → α → Bool) (a : α) :
    E.sortSlice α less [a] = [a] :=
  List.perm_singleton.mp (hE.sort_perm α less [a])

theorem rangeKeys_singleton {E : Env} (hE : E.Sound) (k : String) : E.rangeKeys [k] = [k] :=
  List.perm_singleton.mp (hE.range_perm [k])

theorem rangeKeys_nil {E : Env} (hE : E.Sound) : E.rangeKeys [] = [] :=
  List.perm_nil.mp (hE.range_perm [])

theorem arrival_singleton {E : Env} (hE : E.Sound) (r : ProcessedChunk) : E.arrival [r] = [r] :=
  List.perm_singleton.mp (hE.arrival_perm [r])

theorem splitIntoChunks_singleton (W : Int) (hW : 1 ≤ W) (r : StockItem) :
    splitIntoChunks { workers := W } [r] = .ok [{ items := [r], index := 0 }] := by
  have h1 : Int.tdiv (((1 : Nat) : Int) + W - 1) W = 1 := by
    have : ((1 : Nat) : Int) + W - 1 = W := by omega
    rw [this]
    exact Int.tdiv_self (by omega)
  unfold splitIntoChunks
  rw [if_neg (by simp only; omega)]
  simp only [List.length_singleton]
  rw [h1]
  simp [splitLoop, slice]

theorem osa_example (E : Env) (hE : E.Sound)
    (hsmall : ∀ n : ℕ, n < 2 ^ 53 → E.rnd (n : ℚ) = n) :
    calculateOSA E [⟨63839664000000000000, 10, 8⟩] 63839664000000000000 63842342400000000000
      = 100 := by
  have h0 : E.rnd 0 = 0 := by simpa using hsmall 0 (by norm_num)
  have h1 : E.rnd 1 = 1 := by simpa using hsmall 1 (by norm_num)
  have h744 : E.rnd 744 = 744 := by simpa using hsmall 744 (by norm_num)
  have h100 : E.rnd 100 = 100 := by simpa using hsmall 100 (by norm_num)
  have h10000 : E.rnd 10000 = 10000 := by simpa using hsmall 10000 (by norm_num)
  have hs1 : timeSub 63839664000000000000 63839664000000000000 = 0 := by decide
  have hs2 : timeSub 63842342400000000000 63839664000000000000 = 2678400000000000 := by decide
  have hh0 : hoursOf E.rnd 0 = 0 := by
    simp [hoursOf, hourNs, h0]
  have hd : Int.tdiv 2678400000000000 hourNs = 744 := by decide
  have hm : Int.tmod 2678400000000000 hourNs = 0 := by decide
  have hh1 : hoursOf E.rnd 2678400000000000 = 744 := by
    simp [hoursOf, hd, hm, h0, h744]
  have hr : mathRound 10000 = 10000 := by norm_num [mathRound]
  unfold calculateOSA
  rw [sortSlice_singleton hE]
  simp [osaLoop, hs1, hs2, hh0, hh1, h0, h744, h1, h10000, hr, h100]
  norm_num [h100]

theorem processChunk_example (E : Env) (stockName : String) (startDate finishDate : Time) :
    processChunk E
        ⟨[⟨"1001", stockName, "", "01.01.2024 00:00:00", 10, 8, ""⟩], 0⟩ startDate finishDate =
      { events := [("1001", [⟨63839664000000000000, 10, 8⟩])], losses := [], index := 0 } := by
  have ht : TrimSpace "1001" = "1001" := by decide
  have hp : parseDateTime "01.01.2024 00:00:00" = some 63839664000000000000 := by decide
  have hm : ¬ ("" = shrinkageMarker) := by decide
  have hne : ¬ ("1001" = "") := by decide
  simp [processChunk, chunkStep, ht, hp, hm, hne, GoMap.set, GoMap.getD, GoMap.get?]

/-- C10: for the ledger of one record (code `1001`, period
`01.01.2024 00:00:00`, opening 10, closing 8, no group, no expense category),
the sales of one record (code `1001`, quantity 5, amount 500) and the window
from `01.01.2024` to `31.01.2024`, the aggregation succeeds and returns exactly
one item: code `1001`, sales 500, loss 0, the sentinel group, and availability
100. This holds for every worker count `W ≥ 1`, every order of map iteration
and arrival, and every rounding that is exact on the integers below `2^53`. -/
theorem GetItemAnalytics_example (E : Env) (hE : E.Sound)
    (hsmall : ∀ n : ℕ, n < 2 ^ 53 → E.rnd (n : ℚ) = n) (W : Int) (hW : 1 ≤ W)
    (token stockName salesName : String) :
    GetItemAnalytics E { workers := W }
        (some [⟨"1001", stockName, "", "01.01.2024 00:00:00", 10, 8, ""⟩])
        (some [⟨"1001", salesName, 5, 500⟩]) ⟨token, "01.01.2024", "31.01.2024"⟩ =
      .ok ⟨[⟨if salesName = "" then "1001" else salesName, "1001", noGroup, 500, 0, 0, 100, "C"⟩],
        1⟩ := by
  have h0 : E.rnd 0 = 0 := by simpa using hsmall 0 (by norm_num)
  have h1 : E.rnd 1 = 1 := by simpa using hsmall 1 (by norm_num)
  have h5 : E.rnd 5 = 5 := by simpa using hsmall 5 (by norm_num)
  have h100 : E.rnd 100 = 100 := by simpa using hsmall 100 (by norm_num)
  have h500 : E.rnd 500 = 500 := by simpa using hsmall 500 (by norm_num)
  have h50000 : E.rnd 50000 = 50000 := by simpa using hsmall 50000 (by norm_num)
  have hd1 : timeParse layoutDate "01.01.2024" = some 63839664000000000000 := by decide
  have hd2 : timeParse layoutDate "31.01.2024" = some 63842256000000000000 := by decide
  have hadd : timeAdd 63842256000000000000 dayNs = 63842342400000000000 := by decide
  have ht : TrimSpace "1001" = "1001" := by decide
  have hne : ¬ ("1001" = "") := by decide
  have hr : mathRound 50000 = 50000 := by norm_num [mathRound]
  have hr0 : mathRound 0 = 0 := by norm_num [mathRound]
  have hW' : ¬ W ≤ 0 := by omega
  have hkeys : GoMap.keys [("1001", (500 : ℚ))] = ["1001"] := by decide
  have hkeys5 : GoMap.keys [("1001", (5 : ℚ))] = ["1001"] := by decide
  have hkeysE : GoMap.keys [("1001", [(⟨63839664000000000000, 10, 8⟩ : StockEvent)])]
      = ["1001"] := by decide
  have hkeysN : GoMap.keys ([] : GoMap ℚ) = [] := rfl
  unfold GetItemAnalytics
  simp only [hd1, hd2, hadd]
  unfold processDataParallel
  rw [splitIntoChunks_singleton W hW]
  simp only [workerResults, if_neg hW', List.map_cons, List.map_nil, processChunk_example,
    arrival_singleton hE]
  simp [collect, mergeEvents, mergeLosses, salesStep, priceMap, groupStep, makeItem, ht, hne,
    hkeys, hkeys5, hkeysE, hkeysN, rangeKeys_singleton hE, rangeKeys_nil hE, GoMap.set,
    GoMap.getD, GoMap.get?, h0, h5, h500, osa_example E hE hsmall]
  have hs : E.rnd (mathRound (E.rnd (500 * 100)) / 100) = 500 := by
    norm_num [h50000, hr, h500]
  have hl : E.rnd (mathRound 0 / 100) = 0 := by norm_num [hr0, h0]
  have hl' : E.rnd (mathRound 0 / 1000) = 0 := by norm_num [hr0, h0]
  have hlab : abcLabel 100 = "C" := by norm_num [abcLabel]
  rw [hs, hl, hl']
  have habc : calculateABCClassification E
      [{ name := if salesName = "" then "1001" else salesName, code := "1001", group := noGroup,
          sales := 500, loss := 0, lossOfProfit := 0, osa := 100, abc := "" }] =
      [{ name := if salesName = "" then "1001" else salesName, code := "1001", group := noGroup,
          sales := 500, loss := 0, lossOfProfit := 0, osa := 100, abc := "C" }] := by
    simp [calculateABCClassification, abcTotal, abcLoop, h500, h1, h100, hlab]
  rw [habc, sortSlice_singleton hE]
  simp

/-- C10, in binary64 with four workers. -/
theorem GetItemAnalytics_example_witness :
    GetItemAnalytics f64Env { workers := 4 }
        (some [⟨"1001", "", "", "01.01.2024 00:00:00", 10, 8, ""⟩])
        (some [⟨"1001", "", 5, 500⟩]) ⟨"test-token", "01.01.2024", "31.01.2024"⟩ =
      .ok ⟨[⟨if "" = "" then "1001" else "", "1001", noGroup, 500, 0, 0, 100, "C"⟩], 1⟩ :=
  GetItemAnalytics_example f64Env f64Env_sound f64Env_small 4 (by decide)
    "test-token" "" ""

/-! ## Chunked and unchunked processing -/

theorem chunkStep_events (E : Env) (acc : GoMap (List StockEvent) × GoMap ℚ) (it : StockItem)
    (c : String) :
    GoMap.getD (chunkStep E acc it).1 c [] = GoMap.getD acc.1 c [] ++ (eventOf c it).toList := by
  unfold chunkStep eventOf
  simp only
  by_cases h1 : TrimSpace it.code = ""
  · rw [if_pos h1]
    have : ¬ (TrimSpace it.code = c ∧ c ≠ "") := by
      rintro ⟨h, h'⟩
      exact h' (h ▸ h1)
    simp [this]
  · rw [if_neg h1]
    cases hp : parseDateTime it.period with
    | none => simp
    | some dt =>
      have hev : GoMap.getD (GoMap.set acc.1 (TrimSpace it.code)
            (GoMap.getD acc.1 (TrimSpace it.code) [] ++
              [StockEvent.mk dt it.startBalance it.endBalance])) c [] =
          GoMap.getD acc.1 c [] ++
            (if TrimSpace it.code = c ∧ c ≠ "" then
              Option.map (fun dt => StockEvent.mk dt it.startBalance it.endBalance) (some dt)
            else none).toList := by
        rw [GoMap.getD_set]
        by_cases h4 : TrimSpace it.code = c
        · subst h4
          simp [h1]
        · simp [h4]
      simp only
      rw [← hev]
      split_ifs <;> rfl

theorem chunkItems_cons (ch : Chunk) (rest : List Chunk) :
    chunkItems (ch :: rest) = ch.items ++ chunkItems rest := rfl

theorem eventsOf_append (xs ys : List StockItem) (c : String) :
    eventsOf (xs ++ ys) c = eventsOf xs c ++ eventsOf ys c := by
  simp [eventsOf, List.filterMap_append]

theorem lossTerms_append (E : Env) (xs ys : List StockItem) (c : String) :
    lossTerms E (xs ++ ys) c = lossTerms E xs c ++ lossTerms E ys c := by
  simp [lossTerms, List.filter_append]

theorem chunkFold_events (E : Env) (c : String) :
    ∀ (items : List StockItem) (acc : GoMap (List StockEvent) × GoMap ℚ),
      GoMap.getD (items.foldl (chunkStep E) acc).1 c [] =
        GoMap.getD acc.1 c [] ++ eventsOf items c := by
  intro items
  induction items with
  | nil => intro acc; simp [eventsOf]
  | cons it rest ih =>
    intro acc
    rw [List.foldl_cons, ih, chunkStep_events, List.append_assoc]
    congr 1
    unfold eventsOf
    rw [List.filterMap_cons]
    cases eventOf c it <;> simp

theorem processChunk_events (E : Env) (chunk : Chunk) (startDate finishDate : Time)
    (c : String) :
    GoMap.getD (processChunk E chunk startDate finishDate).events c [] =
      eventsOf chunk.items c := by
  unfold processChunk
  simp only
  rw [chunkFold_events]
  simp [GoMap.getD_nil]

theorem processChunk_losses_exact {E : Env} (hx : ∀ x, E.rnd x = x) (chunk : Chunk)
    (startDate finishDate : Time) (c : String) :
    GoMap.getD (processChunk E chunk startDate finishDate).losses c 0 =
      (lossTerms E chunk.items c).sum := by
  unfold processChunk
  simp only
  rw [chunkFold_losses, floatSum_exact hx]
  simp [GoMap.getD_nil]

theorem eventsOf_chunkItems (chunks : List Chunk) (c : String) :
    (chunks.map (fun ch => eventsOf ch.items c)).flatten = eventsOf (chunkItems chunks) c := by
  induction chunks with
  | nil => rfl
  | cons ch rest ih =>
    rw [List.map_cons, List.flatten_cons, ih, chunkItems_cons, eventsOf_append]

theorem lossTerms_chunkItems (E : Env) (chunks : List Chunk) (c : String) :
    ((chunks.map (fun ch => (lossTerms E ch.items c).sum)).sum : ℚ) =
      (lossTerms E (chunkItems chunks) c).sum := by
  induction chunks with
  | nil => rfl
  | cons ch rest ih =>
    rw [List.map_cons, List.sum_cons, ih, chunkItems_cons, lossTerms_append, List.sum_append]

/-- The merged events of code `c` are, up to the order in which the chunk
results arrive, the events of `c` in the whole ledger. -/
theorem collect_workerResults_events {E : Env} (hE : E.Sound) (W : Int) (hW : 1 ≤ W)
    (chunks : List Chunk) (startDate finishDate : Time) (c : String) :
    (GoMap.getD (collect E (workerResults E { workers := W } chunks startDate finishDate)).1
      c []).Perm (eventsOf (chunkItems chunks) c) ∧
    ((∀ rs, E.arrival rs = rs) →
      GoMap.getD (collect E (workerResults E { workers := W } chunks startDate finishDate)).1
        c [] = eventsOf (chunkItems chunks) c) := by
  have hW' : ¬ W ≤ 0 := by omega
  have hflat : ((chunks.map (fun chunk => processChunk E chunk startDate finishDate)).map
      (fun r => GoMap.getD r.events c [])).flatten = eventsOf (chunkItems chunks) c := by
    rw [List.map_map, ← eventsOf_chunkItems]
    congr 1
    apply List.map_congr_left
    intro ch _
    exact processChunk_events E ch startDate finishDate c
  constructor
  · rw [collect_events hE]
    unfold workerResults
    simp only [if_neg hW']
    rw [← hflat]
    exact List.Perm.flatten (List.Perm.map _ (hE.arrival_perm _))
  · intro hin
    rw [collect_events hE]
    unfold workerResults
    simp only [if_neg hW']
    rw [hin, hflat]

/-- In exact arithmetic the merged loss of code `c` is the loss of `c` in the
whole ledger. -/
theorem collect_workerResults_losses {E : Env} (hE : E.Sound) (hx : ∀ x, E.rnd x = x)
    (W : Int) (hW : 1 ≤ W) (chunks : List Chunk) (startDate finishDate : Time) (c : String) :
    GoMap.getD (collect E (workerResults E { workers := W } chunks startDate finishDate)).2
      c 0 = (lossTerms E (chunkItems chunks) c).sum := by
  have hW' : ¬ W ≤ 0 := by omega
  rw [collect_losses hE, lossFold_exact hx, zero_add]
  unfold workerResults
  simp only [if_neg hW']
  rw [List.Perm.sum_eq (List.Perm.map _ (hE.arrival_perm _)), List.map_map,
    ← lossTerms_chunkItems]
  congr 1
  apply List.map_congr_left
  intro ch _
  exact processChunk_losses_exact hx ch startDate finishDate c

/-! ## Independence of the worker count -/

theorem makeItem_congr (E : Env) (a1 a2 : GoMap (List StockEvent)) (l1 l2 : GoMap ℚ)
    (m : SalesMaps) (groupByCode : GoMap String) (priceByCode : GoMap ℚ)
    (startDate finishDate : Time) (code : String)
    (hosa : calculateOSA E (GoMap.getD a1 code []) startDate finishDate =
      calculateOSA E (GoMap.getD a2 code []) startDate finishDate)
    (hl : GoMap.getD l1 code 0 = GoMap.getD l2 code 0) :
    makeItem E a1 l1 m groupByCode priceByCode startDate finishDate code =
      makeItem E a2 l2 m groupByCode priceByCode startDate finishDate code := by
  unfold makeItem
  simp only [hosa, hl]

theorem processDataParallel_eq (E : Env) (hE : E.Sound) (hx : ∀ x, E.rnd x = x)
    (stockData : List StockItem) (salesData : List SalesItem)
    (hord : (∀ rs, E.arrival rs = rs) ∨
      ∀ c, ((eventsOf stockData c).map (fun e => e.time)).Nodup)
    (W1 W2 : Int) (h1 : 1 ≤ W1) (h2 : 1 ≤ W2) (startDate finishDate : Time) :
    ∃ items,
      processDataParallel E { workers := W1 } stockData salesData startDate finishDate
        = .ok items ∧
      processDataParallel E { workers := W2 } stockData salesData startDate finishDate
        = .ok items := by
  obtain ⟨ch1, -, hc1, hp1⟩ :=
    processDataParallel_ok E W1 h1 stockData salesData startDate finishDate
  obtain ⟨ch2, -, hc2, hp2⟩ :=
    processDataParallel_ok E W2 h2 stockData salesData startDate finishDate
  refine ⟨_, hp1, ?_⟩
  rw [hp2]
  congr 1
  apply List.map_congr_left
  intro code _
  apply makeItem_congr
  · have e1 := collect_workerResults_events hE W1 h1 ch1 startDate finishDate code
    have e2 := collect_workerResults_events hE W2 h2 ch2 startDate finishDate code
    rw [hc1] at e1
    rw [hc2] at e2
    rcases hord with hin | hnd
    · rw [e1.2 hin, e2.2 hin]
    · have hperm := e2.1.trans e1.1.symm
      have hnd2 : ((GoMap.getD (collect E (workerResults E { workers := W2 } ch2 startDate
          finishDate)).1 code []).map (fun e => e.time)).Nodup :=
        (List.Perm.nodup_iff (List.Perm.map _ e2.1)).mpr (hnd code)
      exact calculateOSA_eq_of_perm E hE _ _ hperm hnd2 startDate finishDate
  · rw [collect_workerResults_losses hE hx W2 h2 ch2, collect_workerResults_losses hE hx W1 h1 ch1,
      hc1, hc2]

/-- C2 fails as stated, for two reasons. With two events of one item at the
same timestamp and the result of the second chunk received first, one worker
gives availability 100 and two workers give 0. With the chunk results received
in chunk order, the shrinkage losses `3.8, 3.8, 2.6, 1.1` (binary64) and the
price `5 / 4`, one worker gives the loss 14.12 and two workers give 14.13,
because the four losses are added in a different grouping. -/
theorem aggregation_depends_on_workers :
    GetItemAnalytics reversedEnv { workers := 1 }
        (some [⟨"1001", "", "", "01.01.2024 00:00:00", 5, 0, ""⟩,
          ⟨"1001", "", "", "01.01.2024 00:00:00", 0, 5, ""⟩])
        (some [⟨"1001", "", 1, 100⟩]) ⟨"t", "01.01.2024", "01.01.2024"⟩ =
      .ok ⟨[⟨"1001", "1001", noGroup, 100, 0, 0, 100, "C"⟩], 1⟩ ∧
    GetItemAnalytics reversedEnv { workers := 2 }
        (some [⟨"1001", "", "", "01.01.2024 00:00:00", 5, 0, ""⟩,
          ⟨"1001", "", "", "01.01.2024 00:00:00", 0, 5, ""⟩])
        (some [⟨"1001", "", 1, 100⟩]) ⟨"t", "01.01.2024", "01.01.2024"⟩ =
      .ok ⟨[⟨"1001", "1001", noGroup, 100, 0, 0, 0, "C"⟩], 1⟩ ∧
    GetItemAnalytics f64Env { workers := 1 }
        (some [⟨"1001", "", "", "01.01.2024", roundF64 (38 / 10), 0, shrinkageMarker⟩,
          ⟨"1001", "", "", "02.01.2024", roundF64 (38 / 10), 0, shrinkageMarker⟩,
          ⟨"1001", "", "", "03.01.2024", roundF64 (26 / 10), 0, shrinkageMarker⟩,
          ⟨"1001", "", "", "04.01.2024", roundF64 (11 / 10), 0, shrinkageMarker⟩])
        (some [⟨"1001", "", 4, 5⟩]) ⟨"t", "01.01.2024", "31.01.2024"⟩ =
      .ok ⟨[⟨"1001", "1001", noGroup, 5, roundF64 (1412 / 100), 565 / 2, 0, "C"⟩], 1⟩ ∧
    GetItemAnalytics f64Env { workers := 2 }
        (some [⟨"1001", "", "", "01.01.2024", roundF64 (38 / 10), 0, shrinkageMarker⟩,
          ⟨"1001", "", "", "02.01.2024", roundF64 (38 / 10), 0, shrinkageMarker⟩,
          ⟨"1001", "", "", "03.01.2024", roundF64 (26 / 10), 0, shrinkageMarker⟩,
          ⟨"1001", "", "", "04.01.2024", roundF64 (11 / 10), 0, shrinkageMarker⟩])
        (some [⟨"1001", "", 4, 5⟩]) ⟨"t", "01.01.2024", "31.01.2024"⟩ =
      .ok ⟨[⟨"1001", "1001", noGroup, 5, roundF64 (1413 / 100), 565 / 2, 0, "C"⟩], 1⟩ ∧
    roundF64 (1412 / 100) ≠ roundF64 (1413 / 100) := by
  decide!

/-! ## The range of `calculateOSA` for windows that fit a `Duration` -/

theorem hoursOf_exact {rnd : ℚ → ℚ} (hx : ∀ x, rnd x = x) (d : Duration) :
    hoursOf rnd d = (d : ℚ) / 3600000000000 := by
  unfold hoursOf
  simp only [hx]
  have h := Int.tdiv_add_tmod' d hourNs
  have h' : ((Int.tdiv d hourNs : Int) : ℚ) * 3600000000000 + ((Int.tmod d hourNs : Int) : ℚ)
      = (d : ℚ) := by
    have := congrArg (fun z : Int => (z : ℚ)) h
    simpa [hourNs] using this
  rw [← h']
  field_simp

theorem timeSub_of_fit (t u : Time) (h0 : 0 ≤ t - u) (h1 : t - u ≤ maxDuration) :
    timeSub t u = t - u := by
  have hmin : minDuration ≤ 0 := by decide
  unfold timeSub
  rw [if_neg (not_lt.mpr h1), if_neg (not_lt.mpr (le_trans hmin h0))]

theorem mathRound_bounds (x : ℚ) (h0 : 0 ≤ x) (h1 : x ≤ 10000) :
    0 ≤ mathRound x ∧ mathRound x ≤ 10000 := by
  unfold mathRound
  rw [if_pos h0]
  constructor
  · have : (0 : Int) ≤ ⌊x + 1 / 2⌋ := Int.floor_nonneg.mpr (by linarith)
    exact_mod_cast this
  · have : ⌊x + 1 / 2⌋ < (10001 : Int) := by
      rw [Int.floor_lt]
      push_cast
      linarith
    have h2 : ⌊x + 1 / 2⌋ ≤ (10000 : Int) := by omega
    exact_mod_cast h2

theorem osaLoop_bounds {E : Env} (hx : ∀ x, E.rnd x = x) (startDate finishDate : Time)
    (hfit : finishDate - startDate ≤ maxDuration) :
    ∀ (l : List StockEvent) (st : OsaState),
      l.Pairwise (fun a b => a.time ≤ b.time) →
      (∀ e ∈ l, e.time < startDate ∨ st.current ≤ e.time) →
      startDate ≤ st.current → st.current ≤ finishDate → 0 ≤ st.availHours →
      st.availHours ≤ ((st.current - startDate : Int) : ℚ) / 3600000000000 →
      startDate ≤ (osaLoop E startDate finishDate l st).current ∧
        (osaLoop E startDate finishDate l st).current ≤ finishDate ∧
        0 ≤ (osaLoop E startDate finishDate l st).availHours ∧
        (osaLoop E startDate finishDate l st).availHours ≤
          (((osaLoop E startDate finishDate l st).current - startDate : Int) : ℚ)
            / 3600000000000 := by
  intro l
  induction l with
  | nil => intro st _ _ h1 h2 h3 h4; exact ⟨h1, h2, h3, h4⟩
  | cons e rest ih =>
    intro st hs hm h1 h2 h3 h4
    rw [List.pairwise_cons] at hs
    unfold osaLoop
    by_cases hb : e.time < startDate
    · rw [if_pos hb]
      exact ih _ hs.2 (fun e' he' => hm e' (List.mem_cons_of_mem _ he')) h1 h2 h3 h4
    · rw [if_neg hb]
      by_cases ha : e.time > finishDate
      · rw [if_pos ha]
        exact ⟨h1, h2, h3, h4⟩
      · rw [if_neg ha]
        have hce : st.current ≤ e.time := by
          rcases hm e (List.mem_cons_self _ _) with h | h
          · exact absurd h hb
          · exact h
        have hts : timeSub e.time st.current = e.time - st.current :=
          timeSub_of_fit _ _ (sub_nonneg.mpr hce) (by linarith [not_lt.mp ha])
        have hnn : (0 : ℚ) ≤ ((e.time - st.current : Int) : ℚ) / 3600000000000 := by
          apply div_nonneg
          · exact_mod_cast (sub_nonneg.mpr hce)
          · norm_num
        have hmono : ((st.current - startDate : Int) : ℚ) / 3600000000000 ≤
            ((e.time - startDate : Int) : ℚ) / 3600000000000 := by
          apply div_le_div_of_nonneg_right _ (by norm_num)
          exact_mod_cast (sub_le_sub_right hce startDate)
        have hsum : ((st.current - startDate : Int) : ℚ) / 3600000000000 +
            ((e.time - st.current : Int) : ℚ) / 3600000000000 =
            ((e.time - startDate : Int) : ℚ) / 3600000000000 := by
          push_cast
          ring
        apply ih
        · exact hs.2
        · intro e' he'
          exact Or.inr (hs.1 e' he')
        · exact not_lt.mp hb
        · exact not_lt.mp ha
        · show (0 : ℚ) ≤ if st.balance > 0 then _ else _
          split_ifs
          · rw [hx, hoursOf_exact hx, hts]
            linarith
          · exact h3
        · show (if st.balance > 0 then _ else _) ≤ _
          split_ifs
          · rw [hx, hoursOf_exact hx, hts]
            linarith
          · linarith

/-- In exact arithmetic and for a window that fits a `Duration` (or is empty
or inverted), the value of `calculateOSA` lies between 0 and 100. -/
theorem calculateOSA_bounds (E : Env) (hE : E.Sound) (hx : ∀ x, E.rnd x = x)
    (events : List StockEvent) (startDate finishDate : Time)
    (hfit : finishDate - startDate ≤ maxDuration) :
    0 ≤ calculateOSA E events startDate finishDate ∧
      calculateOSA E events startDate finishDate ≤ 100 := by
  unfold calculateOSA
  split_ifs with hlen
  · norm_num
  · cases hsort : E.sortSlice StockEvent eventLess events with
    | nil => simp
    | cons first rest =>
      simp only
      by_cases hwin : finishDate ≤ startDate
      · have hneg : hoursOf E.rnd (timeSub finishDate startDate) ≤ 0 := by
          rw [hoursOf_exact hx]
          apply div_nonpos_of_nonpos_of_nonneg _ (by norm_num)
          have hmin : minDuration ≤ 0 := by decide
          have : timeSub finishDate startDate ≤ 0 := by
            unfold timeSub
            split_ifs with h1 h2
            · exact absurd h1 (not_lt.mpr hfit)
            · exact hmin
            · exact sub_nonpos.mpr hwin
          exact_mod_cast this
        rw [if_pos hneg]
        norm_num
      · have hwin' : startDate ≤ finishDate := le_of_lt (not_le.mp hwin)
        have hsorted : (first :: rest).Pairwise (fun a b => a.time ≤ b.time) := by
          rw [← hsort]
          refine (hE.sort_sorted StockEvent eventLess events eventLess_strictWeak).imp ?_
          intro a b hab
          simpa [eventLess] using hab
        obtain ⟨b1, b2, b3, b4⟩ := osaLoop_bounds hx startDate finishDate hfit (first :: rest)
          { balance := first.start, current := startDate, availHours := 0 } hsorted
          (fun e _ => by
            by_cases h : e.time < startDate
            · exact Or.inl h
            · exact Or.inr (not_lt.mp h))
          (le_refl _) hwin' (le_refl _) (by simp)
        have htot : hoursOf E.rnd (timeSub finishDate startDate) =
            ((finishDate - startDate : Int) : ℚ) / 3600000000000 := by
          rw [hoursOf_exact hx, timeSub_of_fit _ _ (sub_nonneg.mpr hwin') hfit]
        have htpos : (0 : ℚ) < ((finishDate - startDate : Int) : ℚ) / 3600000000000 := by
          apply div_pos _ (by norm_num)
          exact_mod_cast (sub_pos.mpr (not_le.mp hwin))
        rw [htot, if_neg (not_le.mpr htpos)]
        generalize hst : osaLoop E startDate finishDate (first :: rest)
          { balance := first.start, current := startDate, availHours := 0 } = st at b1 b2 b3 b4
        have hav : 0 ≤ (if st.current < finishDate ∧ st.balance > 0 then
              E.rnd (st.availHours + hoursOf E.rnd (timeSub finishDate st.current))
            else st.availHours) ∧
            (if st.current < finishDate ∧ st.balance > 0 then
              E.rnd (st.availHours + hoursOf E.rnd (timeSub finishDate st.current))
            else st.availHours) ≤ ((finishDate - startDate : Int) : ℚ) / 3600000000000 := by
          have hmono : ((st.current - startDate : Int) : ℚ) / 3600000000000 ≤
              ((finishDate - startDate : Int) : ℚ) / 3600000000000 := by
            apply div_le_div_of_nonneg_right _ (by norm_num)
            exact_mod_cast (sub_le_sub_right b2 startDate)
          split_ifs with htail
          · rw [hx, hoursOf_exact hx, timeSub_of_fit _ _ (sub_nonneg.mpr b2)
              (le_trans (sub_le_sub_left b1 finishDate) hfit)]
            have hnn : (0 : ℚ) ≤ ((finishDate - st.current : Int) : ℚ) / 3600000000000 := by
              apply div_nonneg _ (by norm_num)
              exact_mod_cast (sub_nonneg.mpr b2)
            have hsum : ((st.current - startDate : Int) : ℚ) / 3600000000000 +
                ((finishDate - st.current : Int) : ℚ) / 3600000000000 =
                ((finishDate - startDate : Int) : ℚ) / 3600000000000 := by
              push_cast
              ring
            constructor <;> linarith
          · exact ⟨b3, le_trans b4 hmono⟩
        generalize (if st.current < finishDate ∧ st.balance > 0 then
              E.rnd (st.availHours + hoursOf E.rnd (timeSub finishDate st.current))
            else st.availHours) = avail at hav
        generalize ((finishDate - startDate : Int) : ℚ) / 3600000000000 = total at hav htpos
        simp only [hx]
        have hr0 : 0 ≤ avail / total * 10000 := by
          apply mul_nonneg (div_nonneg hav.1 htpos.le) (by norm_num)
        have hr1 : avail / total * 10000 ≤ 10000 := by
          have : avail / total ≤ 1 := (div_le_one htpos).mpr hav.2
          linarith
        obtain ⟨m0, m1⟩ := mathRound_bounds _ hr0 hr1
        constructor
        · apply div_nonneg m0 (by norm_num)
        · rw [div_le_iff₀ (by norm_num)]
          linarith

/-! ## The chunks in closed form -/

theorem ceilDiv_gt {n c j : Nat} (hc : 1 ≤ c) (h : j * c < n) : j < ceilDiv n c := by
  unfold ceilDiv
  rw [Nat.lt_iff_add_one_le, Nat.le_div_iff_mul_le (by omega)]
  have : (j + 1) * c = j * c + c := by ring
  omega

theorem ceilDiv_le {n c j : Nat} (hc : 1 ≤ c) (h : n ≤ j * c) : ceilDiv n c ≤ j := by
  unfold ceilDiv
  rw [← Nat.lt_add_one_iff, Nat.div_lt_iff_lt_mul (by omega)]
  have : (j + 1) * c = j * c + c := by ring
  omega

theorem mul_lt_of_lt_ceilDiv {n c j : Nat} (hc : 1 ≤ c) (h : j < ceilDiv n c) : j * c < n := by
  by_contra hn
  have := ceilDiv_le hc (not_lt.mp hn)
  omega

theorem ceilDiv_zero_left (w : Nat) : ceilDiv 0 w = 0 := by
  unfold ceilDiv
  cases w with
  | zero => simp
  | succ k =>
    show (0 + (k + 1) - 1) / (k + 1) = 0
    rw [Nat.zero_add, Nat.add_sub_cancel]
    exact Nat.div_eq_of_lt (Nat.lt_succ_self k)

theorem slice_eq_chunkAt (data : List StockItem) (c j : Nat) :
    slice data ((j * c : Nat) : Int)
        (if ((j * c : Nat) : Int) + (c : Int) > (data.length : Int) then (data.length : Int)
          else ((j * c : Nat) : Int) + (c : Int)) = (chunkAt data c j).items := by
  unfold slice chunkAt
  simp only [Int.toNat_ofNat]
  split_ifs with h
  · have h1 : ((data.length : Int) - ((j * c : Nat) : Int)).toNat = data.length - j * c := by
      omega
    rw [h1]
    have hlen : (data.drop (j * c)).length = data.length - j * c := List.length_drop _ _
    rw [List.take_of_length_le (by omega), List.take_of_length_le (by omega)]
  · have h1 : (((j * c : Nat) : Int) + (c : Int) - ((j * c : Nat) : Int)).toNat = c := by omega
    rw [h1]

theorem splitLoop_closed (data : List StockItem) (c : Nat) (hc : 1 ≤ c) :
    ∀ (fuel j : Nat) (chunks : List Chunk), data.length - j * c < fuel →
      splitLoop data (c : Int) fuel ((j * c : Nat) : Int) chunks =
        .ok (chunks ++
          (List.range' j (ceilDiv data.length c - j)).map (chunkAt data c)) := by
  intro fuel
  induction fuel with
  | zero => intro j chunks h; omega
  | succ fuel ih =>
    intro j chunks h
    unfold splitLoop
    by_cases hk : ((j * c : Nat) : Int) < (data.length : Int)
    · have hk2 : j * c < data.length := by omega
      have hjm : j < ceilDiv data.length c := ceilDiv_gt hc hk2
      rw [if_pos hk]
      simp only
      have hb : ¬ (((j * c : Nat) : Int) < 0 ∨
          (if ((j * c : Nat) : Int) + (c : Int) > (data.length : Int) then (data.length : Int)
            else ((j * c : Nat) : Int) + (c : Int)) < ((j * c : Nat) : Int)) := by
        split_ifs <;> omega
      rw [if_neg hb, if_neg (by omega : ¬ ((c : Int) = 0))]
      have hcast : ((j * c : Nat) : Int) + (c : Int) = (((j + 1) * c : Nat) : Int) := by
        push_cast; ring
      have hidx : Int.tdiv ((j * c : Nat) : Int) (c : Int) = (j : Int) := by
        rw [Nat.cast_mul]
        exact Int.mul_tdiv_cancel _ (by omega)
      have hstep : (j + 1) * c = j * c + c := by ring
      rw [slice_eq_chunkAt, hidx, hcast, ih (j + 1) _ (by omega)]
      have hr : ceilDiv data.length c - j = (ceilDiv data.length c - (j + 1)) + 1 := by omega
      rw [hr, List.range'_succ, List.map_cons, List.append_assoc]
      rfl
    · rw [if_neg hk]
      have hk2 : data.length ≤ j * c := by omega
      have : ceilDiv data.length c - j = 0 := by
        have := ceilDiv_le hc hk2
        omega
      rw [this]
      simp

/-- For `W ≥ 1` the chunks returned by `splitIntoChunks` are the pieces
`0, ..., ceil(N / S) - 1` of `S = ceil(N / W)` records. -/
theorem splitIntoChunks_closed (data : List StockItem) (w : Nat) (hw : 1 ≤ w) :
    splitIntoChunks { workers := (w : Int) } data =
      .ok ((List.range (ceilDiv data.length (ceilDiv data.length w))).map
        (chunkAt data (ceilDiv data.length w))) := by
  unfold splitIntoChunks
  rw [if_neg (by simp only; omega)]
  simp only
  have hsize : Int.tdiv ((data.length : Int) + (w : Int) - 1) (w : Int) =
      ((ceilDiv data.length w : Nat) : Int) := by
    have := chunkSize_eq data.length (w : Int) (by omega)
    rw [this, Int.toNat_ofNat]
    rfl
  rw [hsize]
  by_cases hn : data.length = 0
  · have hnil : data = [] := List.length_eq_zero.mp hn
    subst hnil
    simp [splitLoop, ceilDiv_zero_left]
  · have hc : 1 ≤ ceilDiv data.length w := by
      unfold ceilDiv
      rw [Nat.le_div_iff_mul_le (by omega)]
      omega
    have := splitLoop_closed data _ hc (data.length + 1) 0 [] (by omega)
    simp only [Nat.zero_mul, Nat.cast_zero, Nat.sub_zero, List.nil_append] at this
    rw [this, List.range_eq_range']

theorem ceilDiv_ceilDiv_le (n w : Nat) (hw : 1 ≤ w) : ceilDiv n (ceilDiv n w) ≤ w := by
  by_cases hn : n = 0
  · subst hn
    simp [ceilDiv_zero_left]
  · have hc : 1 ≤ ceilDiv n w := by
      unfold ceilDiv
      rw [Nat.le_div_iff_mul_le (by omega)]
      omega
    apply ceilDiv_le hc
    have h1 := Nat.div_add_mod (n + w - 1) w
    have h2 := Nat.mod_lt (n + w - 1) (by omega : w > 0)
    unfold ceilDiv
    omega


theorem splitIntoChunks_closed_int (data : List StockItem) (W : Int) (hW : 1 ≤ W) :
    splitIntoChunks { workers := W } data =
      .ok ((List.range (ceilDiv data.length (ceilDiv data.length W.toNat))).map
        (chunkAt data (ceilDiv data.length W.toNat))) := by
  obtain ⟨w, rfl⟩ := Int.eq_ofNat_of_zero_le (by omega : 0 ≤ W)
  rw [Int.toNat_ofNat]
  exact splitIntoChunks_closed data w (by omega)

theorem chunkAt_length (data : List StockItem) (c j : Nat) :
    (chunkAt data c j).items.length = min c (data.length - j * c) := by
  simp [chunkAt, List.length_take, List.length_drop]

/-- C15 fails as stated: five records and four workers give the chunk size
`ceil(5 / 4) = 2` and therefore three chunks, not `ceil(5 / 4) = 2` chunks. -/
theorem splitIntoChunks_count_not_ceil :
    (splitIntoChunks { workers := 4 }
        [⟨"1", "", "", "", 0, 0, ""⟩, ⟨"2", "", "", "", 0, 0, ""⟩, ⟨"3", "", "", "", 0, 0, ""⟩,
          ⟨"4", "", "", "", 0, 0, ""⟩, ⟨"5", "", "", "", 0, 0, ""⟩]).map (fun chunks => chunks.length)
        = .ok 3 ∧
      ceilDiv 5 4 = 2 := by
  decide!

/-! ## Names and groups -/

theorem salesStep_name (E : Env) (m : SalesMaps) (it : SalesItem) (c : String) (hc : c ≠ "") :
    GoMap.getD (salesStep E m it).nameByCode c "" =
      if TrimSpace it.code = c then it.name else GoMap.getD m.nameByCode c "" := by
  unfold salesStep
  simp only
  by_cases h : TrimSpace it.code = ""
  · rw [if_pos h, if_neg (fun h' : TrimSpace it.code = c => hc (h' ▸ h))]
  · rw [if_neg h]
    simp only [GoMap.getD_set]

theorem salesFold_name (E : Env) (c : String) (hc : c ≠ "") (m : SalesMaps) :
    ∀ salesData : List SalesItem,
      GoMap.getD (salesData.foldl (salesStep E) m).nameByCode c "" =
        (lastSalesName salesData c).getD (GoMap.getD m.nameByCode c "") := by
  intro salesData
  induction salesData using List.reverseRecOn with
  | nil => simp [lastSalesName]
  | append_singleton init x ih =>
    rw [List.foldl_append, List.foldl_cons, List.foldl_nil, salesStep_name E _ x c hc, ih]
    unfold lastSalesName
    rw [List.filter_append]
    by_cases h : TrimSpace x.code = c
    · simp [h]
    · simp [h]

theorem groupFold_parent (c : String) (hc : c ≠ "") (g : GoMap String) :
    ∀ stockData : List StockItem,
      GoMap.getD (stockData.foldl groupStep g) c "" =
        (lastParent stockData c).getD (GoMap.getD g c "") := by
  intro stockData
  induction stockData using List.reverseRecOn with
  | nil => simp [lastParent]
  | append_singleton init x ih =>
    rw [List.foldl_append, List.foldl_cons, List.foldl_nil]
    have hstep : GoMap.getD (groupStep (init.foldl groupStep g) x) c "" =
        if TrimSpace x.code = c then x.parent
        else GoMap.getD (init.foldl groupStep g) c "" := by
      unfold groupStep
      simp only
      by_cases h : TrimSpace x.code = ""
      · rw [if_neg (not_not.mpr h), if_neg (fun h' : TrimSpace x.code = c => hc (h' ▸ h))]
      · rw [if_pos h]
        simp only [GoMap.getD_set]
    rw [hstep, ih]
    unfold lastParent
    rw [List.filter_append]
    by_cases h : TrimSpace x.code = c
    · simp [h]
    · simp [h]

/-- The items returned by `processDataParallel` for `W ≥ 1`: each is made by
the loop body for a non-empty trimmed sales code. -/
theorem processDataParallel_items (E : Env) (hE : E.Sound) (W : Int) (hW : 1 ≤ W)
    (stockData : List StockItem) (salesData : List SalesItem) (startDate finishDate : Time) :
    ∃ chunks items,
      splitIntoChunks { workers := W } stockData = .ok chunks ∧
      processDataParallel E { workers := W } stockData salesData startDate finishDate
        = .ok items ∧
      ∀ it ∈ items, it.code ≠ "" ∧
        it = makeItem E
          (collect E (workerResults E { workers := W } chunks startDate finishDate)).1
          (collect E (workerResults E { workers := W } chunks startDate finishDate)).2
          (salesData.foldl (salesStep E)
            { salesByCode := [], salesQtyByCode := [], nameByCode := [] })
          (stockData.foldl groupStep [])
          (priceMap E (salesData.foldl (salesStep E)
            { salesByCode := [], salesQtyByCode := [], nameByCode := [] }))
          startDate finishDate it.code := by
  obtain ⟨chunks, h1, -, h⟩ :=
    processDataParallel_ok E W hW stockData salesData startDate finishDate
  refine ⟨chunks, _, h1, h, ?_⟩
  intro it hit
  rw [List.mem_map] at hit
  obtain ⟨code, hcode, rfl⟩ := hit
  rw [mem_rangeKeys hE, salesFold_keys] at hcode
  simp only [GoMap.keys_nil, List.not_mem_nil, false_or] at hcode
  exact ⟨hcode.1, rfl⟩

/-- C17, as amended: for every sales collection and every item of the
output, the `Name` is the item name of the last sales record (in input order)
whose trimmed code is the code of the item, and is the code itself when that
name is empty. -/
theorem processDataParallel_names (E : Env) (hE : E.Sound) (W : Int) (hW : 1 ≤ W)
    (stockData : List StockItem) (salesData : List SalesItem) (startDate finishDate : Time) :
    ∃ items,
      processDataParallel E { workers := W } stockData salesData startDate finishDate
        = .ok items ∧
      ∀ it ∈ items,
        (∃ n, lastSalesName salesData it.code = some n ∧
          it.name = if n = "" then it.code else n) := by
  obtain ⟨chunks, items, -, h, hall⟩ :=
    processDataParallel_items E hE W hW stockData salesData startDate finishDate
  refine ⟨items, h, ?_⟩
  intro it hit
  obtain ⟨hne, heq⟩ := hall it hit
  have hname := salesFold_name E it.code hne
    { salesByCode := [], salesQtyByCode := [], nameByCode := [] } salesData
  simp only [GoMap.getD_nil] at hname
  have hkey : it.code ∈ GoMap.keys (salesData.foldl (salesStep E)
      { salesByCode := [], salesQtyByCode := [], nameByCode := [] }).salesByCode := by
    obtain ⟨chunks', -, -, h'⟩ :=
      processDataParallel_ok E W hW stockData salesData startDate finishDate
    rw [h] at h'
    simp only [Except.ok.injEq] at h'
    rw [h'] at hit
    rw [List.mem_map] at hit
    obtain ⟨code, hcode, hc⟩ := hit
    rw [mem_rangeKeys hE] at hcode
    rw [← hc]
    exact hcode
  rw [salesFold_keys] at hkey
  simp only [GoMap.keys_nil, List.not_mem_nil, false_or] at hkey
  obtain ⟨-, sale, hsale, hsc⟩ := hkey
  have hsome : ∃ n, lastSalesName salesData it.code = some n := by
    unfold lastSalesName
    have hmem : sale ∈ salesData.filter (fun s => decide (TrimSpace s.code = it.code)) := by
      rw [List.mem_filter]
      exact ⟨hsale, by simpa using hsc⟩
    cases hl : (salesData.filter (fun s => decide (TrimSpace s.code = it.code))).getLast? with
    | none =>
      rw [List.getLast?_eq_none_iff] at hl
      rw [hl] at hmem
      exact absurd hmem (List.not_mem_nil _)
    | some x => exact ⟨x.name, rfl⟩
  obtain ⟨n, hn⟩ := hsome
  refine ⟨n, hn, ?_⟩
  rw [hn] at hname
  simp only [Option.getD_some] at hname
  have : it.name = if GoMap.getD (salesData.foldl (salesStep E)
      { salesByCode := [], salesQtyByCode := [], nameByCode := [] }).nameByCode it.code "" = ""
      then it.code
      else GoMap.getD (salesData.foldl (salesStep E)
        { salesByCode := [], salesQtyByCode := [], nameByCode := [] }).nameByCode it.code "" := by
    conv_lhs => rw [heq]
    rfl
  rw [this, hname]

/-- C17, as amended, at two sales records with the same code. -/
theorem processDataParallel_names_witness :
    ∃ items,
      processDataParallel exactEnv { workers := 2 } []
        [⟨"1001", "A", 1, 1⟩, ⟨" 1001", "B", 1, 1⟩, ⟨"2002", "", 1, 1⟩] 0 86400000000000
        = .ok items ∧
      ∀ it ∈ items,
        (∃ n, lastSalesName [⟨"1001", "A", 1, 1⟩, ⟨" 1001", "B", 1, 1⟩, ⟨"2002", "", 1, 1⟩]
            it.code = some n ∧
          it.name = if n = "" then it.code else n) :=
  processDataParallel_names exactEnv exactEnv_sound 2 (by decide) _ _ _ _

/-- C17 fails as stated: of two sales records with the code `1001` and the
names `A` and `B`, in this order, the item gets the name `B`, while the first
record has the name `A`. -/
theorem processDataParallel_name_is_last :
    (processDataParallel f64Env { workers := 2 } []
        [⟨"1001", "A", 1, 1⟩, ⟨"1001", "B", 1, 1⟩] 0 86400000000000).map
        (fun items => items.map (fun it => it.name)) = .ok ["B"] ∧
      firstSalesName [⟨"1001", "A", 1, 1⟩, ⟨"1001", "B", 1, 1⟩] "1001" = some "A" := by
  decide!

/-- C18: for every ledger and every item of the output, the `Group` is the
parent group of the last ledger record (in input order) whose trimmed code is
the code of the item, and is the sentinel when there is no such record or that
group is empty. -/
theorem processDataParallel_groups (E : Env) (hE : E.Sound) (W : Int) (hW : 1 ≤ W)
    (stockData : List StockItem) (salesData : List SalesItem) (startDate finishDate : Time) :
    ∃ items,
      processDataParallel E { workers := W } stockData salesData startDate finishDate
        = .ok items ∧
      ∀ it ∈ items,
        it.group =
          if (lastParent stockData it.code).getD "" = "" then noGroup
          else (lastParent stockData it.code).getD "" := by
  obtain ⟨chunks, items, -, h, hall⟩ :=
    processDataParallel_items E hE W hW stockData salesData startDate finishDate
  refine ⟨items, h, ?_⟩
  intro it hit
  obtain ⟨hne, heq⟩ := hall it hit
  have hg := groupFold_parent it.code hne [] stockData
  simp only [GoMap.getD_nil] at hg
  have : it.group = if GoMap.getD (stockData.foldl groupStep []) it.code "" = "" then noGroup
      else GoMap.getD (stockData.foldl groupStep []) it.code "" := by
    conv_lhs => rw [heq]
    rfl
  rw [this, hg]

/-- C18, at a ledger with two records for one code and none for another. -/
theorem processDataParallel_groups_witness :
    ∃ items,
      processDataParallel exactEnv { workers := 2 }
        [⟨"1001", "", "G1", "01.01.2024", 1, 1, ""⟩, ⟨"1001 ", "", "G2", "02.01.2024", 1, 1, ""⟩]
        [⟨"1001", "A", 1, 1⟩, ⟨"2002", "", 1, 1⟩] 0 86400000000000 = .ok items ∧
      ∀ it ∈ items,
        it.group =
          if (lastParent
              [⟨"1001", "", "G1", "01.01.2024", 1, 1, ""⟩,
                ⟨"1001 ", "", "G2", "02.01.2024", 1, 1, ""⟩] it.code).getD "" = "" then noGroup
          else (lastParent
              [⟨"1001", "", "G1", "01.01.2024", 1, 1, ""⟩,
                ⟨"1001 ", "", "G2", "02.01.2024", 1, 1, ""⟩] it.code).getD "" :=
  processDataParallel_groups exactEnv exactEnv_sound 2 (by decide) _ _ _ _

/-! ## Amounts, prices and losses of the items -/

theorem salesStep_amount (E : Env) (m : SalesMaps) (it : SalesItem) (c : String) (hc : c ≠ "") :
    GoMap.getD (salesStep E m it).salesByCode c 0 =
      if TrimSpace it.code = c then E.rnd (GoMap.getD m.salesByCode c 0 + it.amount)
      else GoMap.getD m.salesByCode c 0 := by
  unfold salesStep
  simp only
  by_cases h : TrimSpace it.code = ""
  · rw [if_pos h, if_neg (fun h' : TrimSpace it.code = c => hc (h' ▸ h))]
  · rw [if_neg h]
    simp only [GoMap.getD_set]
    by_cases h2 : TrimSpace it.code = c
    · subst h2; simp
    · simp [h2]

theorem salesStep_quantity (E : Env) (m : SalesMaps) (it : SalesItem) (c : String)
    (hc : c ≠ "") :
    GoMap.getD (salesStep E m it).salesQtyByCode c 0 =
      if TrimSpace it.code = c then E.rnd (GoMap.getD m.salesQtyByCode c 0 + it.quantity)
      else GoMap.getD m.salesQtyByCode c 0 := by
  unfold salesStep
  simp only
  by_cases h : TrimSpace it.code = ""
  · rw [if_pos h, if_neg (fun h' : TrimSpace it.code = c => hc (h' ▸ h))]
  · rw [if_neg h]
    simp only [GoMap.getD_set]
    by_cases h2 : TrimSpace it.code = c
    · subst h2; simp
    · simp [h2]

theorem salesFold_amount (E : Env) (c : String) (hc : c ≠ "") :
    ∀ (salesData : List SalesItem) (m : SalesMaps),
      GoMap.getD (salesData.foldl (salesStep E) m).salesByCode c 0 =
        floatSum E (GoMap.getD m.salesByCode c 0)
          ((salesData.filter (fun s => decide (TrimSpace s.code = c))).map (fun s => s.amount)) := by
  intro salesData
  induction salesData with
  | nil => intro m; rfl
  | cons it rest ih =>
    intro m
    rw [List.foldl_cons, ih, salesStep_amount E m it c hc]
    by_cases h : TrimSpace it.code = c
    · simp [h, floatSum]
    · simp [h, floatSum]

theorem salesFold_quantity (E : Env) (c : String) (hc : c ≠ "") :
    ∀ (salesData : List SalesItem) (m : SalesMaps),
      GoMap.getD (salesData.foldl (salesStep E) m).salesQtyByCode c 0 =
        floatSum E (GoMap.getD m.salesQtyByCode c 0)
          ((salesData.filter (fun s => decide (TrimSpace s.code = c))).map
            (fun s => s.quantity)) := by
  intro salesData
  induction salesData with
  | nil => intro m; rfl
  | cons it rest ih =>
    intro m
    rw [List.foldl_cons, ih, salesStep_quantity E m it c hc]
    by_cases h : TrimSpace it.code = c
    · simp [h, floatSum]
    · simp [h, floatSum]

/-- A loop that sets the entry of some keys of a duplicate-free list and skips
the others. -/
theorem GoMap.foldl_setIf_getD {V : Type} (p : String → Prop) [DecidablePred p]
    (v : String → V) (d : V) (c : String) :
    ∀ (ks : List String) (all : GoMap V), ks.Nodup →
      GoMap.getD (ks.foldl (fun all code => if p code then GoMap.set all code (v code) else all)
          all) c d =
        if c ∈ ks ∧ p c then v c else GoMap.getD all c d := by
  intro ks
  induction ks with
  | nil => intro all _; simp
  | cons k ks ih =>
    intro all hnd
    rw [List.nodup_cons] at hnd
    rw [List.foldl_cons, ih _ hnd.2]
    by_cases hck : k = c
    · subst hck
      by_cases hp : p k
      · simp [hp, hnd.1, GoMap.getD_set]
      · simp [hp, hnd.1]
    · have hck' : ¬ c = k := fun h => hck h.symm
      by_cases hp : p k
      · simp [hp, hck', hck, GoMap.getD_set]
      · simp [hp, hck']

theorem priceMap_getD {E : Env} (hE : E.Sound) (m : SalesMaps) (c : String) :
    GoMap.getD (priceMap E m) c 0 =
      if GoMap.getD m.salesQtyByCode c 0 > 0 then
        E.rnd (GoMap.getD m.salesByCode c 0 / GoMap.getD m.salesQtyByCode c 0)
      else 0 := by
  unfold priceMap
  simp only
  rw [GoMap.foldl_setIf_getD (fun code => GoMap.getD m.salesQtyByCode code 0 > 0)
    (fun code => E.rnd (GoMap.getD m.salesByCode code 0 / GoMap.getD m.salesQtyByCode code 0))
    0 c _ [] (rangeKeys_nodup hE m.salesQtyByCode)]
  by_cases hq : GoMap.getD m.salesQtyByCode c 0 > 0
  · have hmem : c ∈ E.rangeKeys (GoMap.keys m.salesQtyByCode) := by
      rw [mem_rangeKeys hE]
      by_contra hn
      rw [GoMap.getD_of_not_mem _ _ _ hn] at hq
      exact lt_irrefl _ hq
    rw [if_pos ⟨hmem, hq⟩, if_pos hq]
  · rw [if_neg (fun h => hq h.2), if_neg hq]
    rfl

/-- The price used for an item of the output is the average price of its
code. -/
theorem priceMap_avgPrice {E : Env} (hE : E.Sound) (salesData : List SalesItem) (c : String)
    (hc : c ≠ "") :
    GoMap.getD (priceMap E (salesData.foldl (salesStep E)
        { salesByCode := [], salesQtyByCode := [], nameByCode := [] })) c 0 =
      avgPrice E salesData c ∧
    GoMap.getD (salesData.foldl (salesStep E)
        { salesByCode := [], salesQtyByCode := [], nameByCode := [] }).salesByCode c 0 =
      totalAmount E salesData c := by
  constructor
  · rw [priceMap_getD hE, salesFold_amount E c hc, salesFold_quantity E c hc]
    rfl
  · rw [salesFold_amount E c hc]
    rfl


theorem roundTo_zero {E : Env} (h0 : E.rnd 0 = 0) (scale : ℚ) : roundTo E scale 0 = 0 := by
  have hr : mathRound 0 = 0 := by norm_num [mathRound]
  unfold roundTo
  rw [zero_mul, h0, hr, zero_div, h0]

theorem f64Env_zero : f64Env.rnd 0 = 0 := by decide!

/-- C11: whenever `StartDate` does not parse as a date in `02.01.2006` form,
`GetItemAnalytics` returns the start-date error and no response, whatever
`FinishDate` is and whatever the two data files hold (also when they cannot be
loaded); whenever `StartDate` parses and `FinishDate` does not, it returns the
finish-date error and no response, again whatever the files hold. The string
`invalid-date` does not parse. -/
theorem GetItemAnalytics_invalid_dates (E : Env) (s : Service)
    (stockFile : Option (List StockItem)) (salesFile : Option (List SalesItem))
    (req : ItemAnalyticsRequest) :
    (timeParse layoutDate req.startDate = none →
        GetItemAnalytics E s stockFile salesFile req = .error .invalidStartDate) ∧
      (timeParse layoutDate req.startDate ≠ none →
        timeParse layoutDate req.finishDate = none →
        GetItemAnalytics E s stockFile salesFile req = .error .invalidFinishDate) ∧
      timeParse layoutDate "invalid-date" = none := by
  refine ⟨fun h => ?_, fun h1 h2 => ?_, by decide⟩
  · unfold GetItemAnalytics
    rw [h]
  · unfold GetItemAnalytics
    cases hs : timeParse layoutDate req.startDate with
    | none => exact absurd hs h1
    | some startDate => simp only [h2]

/-- C11, at the requests of the test: an unparseable start date with a good
finish date, both unparseable, and a good start date with an unparseable
finish date, with data files that would load. -/
theorem GetItemAnalytics_invalid_dates_witness :
    GetItemAnalytics f64Env (NewService 8) (some []) (some [])
        ⟨"test-token", "invalid-date", "01.01.2024"⟩ = .error .invalidStartDate ∧
      GetItemAnalytics f64Env (NewService 8) (some []) (some [])
        ⟨"test-token", "invalid-date", "invalid-date"⟩ = .error .invalidStartDate ∧
      GetItemAnalytics f64Env (NewService 8) (some []) (some [])
        ⟨"test-token", "01.01.2024", "invalid-date"⟩ = .error .invalidFinishDate :=
  ⟨(GetItemAnalytics_invalid_dates f64Env _ (some []) (some [])
      ⟨"test-token", "invalid-date", "01.01.2024"⟩).1 (by decide),
    (GetItemAnalytics_invalid_dates f64Env _ (some []) (some [])
      ⟨"test-token", "invalid-date", "invalid-date"⟩).1 (by decide),
    (GetItemAnalytics_invalid_dates f64Env _ (some []) (some [])
      ⟨"test-token", "01.01.2024", "invalid-date"⟩).2.1 (by decide) (by decide)⟩

/-! ## The sign of a duration in hours -/

theorem timeSub_nonpos (t u : Time) (h : t ≤ u) : timeSub t u ≤ 0 := by
  have hmax : ¬ t - u > maxDuration := by
    have h0 : (0 : Int) ≤ maxDuration := by decide
    exact not_lt.mpr (le_trans (sub_nonpos.mpr h) h0)
  have hmin : minDuration ≤ 0 := by decide
  unfold timeSub
  rw [if_neg hmax]
  split_ifs
  · exact hmin
  · exact sub_nonpos.mpr h

theorem timeSub_self (t : Time) : timeSub t t = 0 := by
  unfold timeSub
  rw [sub_self, if_neg (by decide), if_neg (by decide)]

theorem tdiv_hour_nonpos (d : Int) (h : d ≤ 0) : Int.tdiv d hourNs ≤ 0 := by
  obtain ⟨m, rfl⟩ : ∃ m : Nat, d = -(m : Int) := ⟨d.natAbs, by omega⟩
  rw [Int.neg_tdiv]
  have := Int.tdiv_nonneg (Int.ofNat_nonneg m) (by decide : (0 : Int) ≤ hourNs)
  exact neg_nonpos.mpr this

theorem tmod_hour_nonpos (d : Int) (h : d ≤ 0) : Int.tmod d hourNs ≤ 0 := by
  obtain ⟨m, rfl⟩ : ∃ m : Nat, d = -(m : Int) := ⟨d.natAbs, by omega⟩
  have h1 := Int.tmod_def (-(m : Int)) hourNs
  rw [Int.neg_tdiv] at h1
  have h2 := Int.tmod_def (m : Int) hourNs
  have h3 := Int.tmod_nonneg hourNs (Int.ofNat_nonneg m)
  rw [h1]
  rw [h2] at h3
  linarith

theorem hoursOf_nonpos {rnd : ℚ → ℚ} (hsign : ∀ x, x ≤ 0 → rnd x ≤ 0) (d : Duration)
    (h : d ≤ 0) : hoursOf rnd d ≤ 0 := by
  unfold hoursOf
  apply hsign
  have h1 : rnd ((Int.tdiv d hourNs : Int) : ℚ) ≤ 0 :=
    hsign _ (by exact_mod_cast tdiv_hour_nonpos d h)
  have h2 : rnd ((Int.tmod d hourNs : Int) : ℚ) ≤ 0 :=
    hsign _ (by exact_mod_cast tmod_hour_nonpos d h)
  have h3 : rnd (rnd ((Int.tmod d hourNs : Int) : ℚ) / 3600000000000) ≤ 0 :=
    hsign _ (div_nonpos_of_nonpos_of_nonneg h2 (by norm_num))
  linarith

theorem calculateOSA_nil (E : Env) (startDate finishDate : Time) :
    calculateOSA E [] startDate finishDate = 0 := by
  simp [calculateOSA]

theorem calculateOSA_of_total_nonpos (E : Env) (events : List StockEvent)
    (startDate finishDate : Time)
    (h : hoursOf E.rnd (timeSub finishDate startDate) ≤ 0) :
    calculateOSA E events startDate finishDate = 0 := by
  unfold calculateOSA
  split_ifs with hlen
  · rfl
  · cases hs : E.sortSlice StockEvent eventLess events with
    | nil => rfl
    | cons first rest => simp only [if_pos h]

theorem roundF64_nonpos (x : ℚ) (h : x ≤ 0) : roundF64 x ≤ 0 := by
  unfold roundF64
  by_cases h0 : x.num = 0
  · rw [if_pos h0]
  · rw [if_neg h0]
    have hneg : x.num < 0 := lt_of_le_of_ne (Rat.num_nonpos.mpr h) h0
    simp only [if_pos hneg]
    apply neg_nonpos.mpr
    split_ifs
    · exact div_nonneg (Nat.cast_nonneg _) (pow_nonneg (by norm_num) _)
    · exact mul_nonneg (Nat.cast_nonneg _) (pow_nonneg (by norm_num) _)

/-- C12: `calculateOSA` returns 0 for the empty event list, and returns 0 for
every event list when the window end is not after the window start, under
every rounding that gives a non-positive result for a non-positive number (as
`float64` rounding does); the division by the total hours is then not reached. -/
theorem calculateOSA_zero (E : Env) (hsign : ∀ x, x ≤ 0 → E.rnd x ≤ 0)
    (events : List StockEvent) (startDate finishDate : Time) :
    calculateOSA E [] startDate finishDate = 0 ∧
      (finishDate ≤ startDate → calculateOSA E events startDate finishDate = 0) :=
  ⟨calculateOSA_nil E startDate finishDate, fun h =>
    calculateOSA_of_total_nonpos E events startDate finishDate
      (hoursOf_nonpos hsign _ (timeSub_nonpos finishDate startDate h))⟩

/-- C12, in `float64` arithmetic, at a zero-length and at an inverted window
(1 February 2024 back to 1 January 2024) with one event inside. -/
theorem calculateOSA_zero_witness :
    calculateOSA f64Env [] 63839664000000000000 63839664000000000000 = 0 ∧
      calculateOSA f64Env [⟨63839664000000000000, 10, 8⟩]
        63839664000000000000 63839664000000000000 = 0 ∧
      calculateOSA f64Env [⟨63840000000000000000, 10, 8⟩]
        63842342400000000000 63839664000000000000 = 0 :=
  ⟨(calculateOSA_zero f64Env roundF64_nonpos [] 63839664000000000000 63839664000000000000).1,
    (calculateOSA_zero f64Env roundF64_nonpos [⟨63839664000000000000, 10, 8⟩]
      63839664000000000000 63839664000000000000).2 (le_refl _),
    (calculateOSA_zero f64Env roundF64_nonpos [⟨63840000000000000000, 10, 8⟩]
      63842342400000000000 63839664000000000000).2 (by decide)⟩

/-! ## Events at or before the window start -/

theorem hoursOf_zero {rnd : ℚ → ℚ} (h0 : rnd 0 = 0) : hoursOf rnd 0 = 0 := by
  simp [hoursOf, hourNs, h0]

theorem timeSub_pos (t u : Time) (h : u < t) : 0 < timeSub t u := by
  have hmax : (0 : Int) < maxDuration := by decide
  unfold timeSub
  split_ifs with h1 h2
  · exact hmax
  · exact absurd (lt_trans h2 (by decide : minDuration < 0)) (not_lt.mpr (le_of_lt (sub_pos.mpr h)))
  · exact sub_pos.mpr h

theorem timeSub_le_max (t u : Time) : timeSub t u ≤ maxDuration := by
  unfold timeSub
  split_ifs with h1 h2
  · exact le_refl _
  · decide
  · exact not_lt.mp h1

/-- A positive duration is a positive number of hours, under a rounding that is
exact on the integers below `2 ^ 53`, leaves its own results unchanged and
does not round a number from `1 / 3600000000000` upwards down to zero. -/
theorem hoursOf_pos {rnd : ℚ → ℚ} (hsmall : ∀ n : ℕ, n < 2 ^ 53 → rnd (n : ℚ) = n)
    (hidem : ∀ x, rnd (rnd x) = rnd x) (hpos : ∀ x : ℚ, 1 / 3600000000000 ≤ x → 0 < rnd x)
    (d : Int) (h0 : 0 < d) (h1 : d ≤ 9223372036854775807) : 0 < hoursOf rnd d := by
  have hr0 : rnd 0 = 0 := by simpa using hsmall 0 (by norm_num)
  have hq := Int.tdiv_add_tmod' d hourNs
  have hqn : 0 ≤ Int.tdiv d hourNs := Int.tdiv_nonneg (le_of_lt h0) (by decide)
  have hmn : 0 ≤ Int.tmod d hourNs := Int.tmod_nonneg hourNs (le_of_lt h0)
  have hml : Int.tmod d hourNs < hourNs := Int.tmod_lt_of_pos d (by decide)
  obtain ⟨a, ha⟩ := Int.eq_ofNat_of_zero_le hqn
  obtain ⟨b, hb⟩ := Int.eq_ofNat_of_zero_le hmn
  rw [ha, hb] at hq
  rw [hb] at hml
  have hH : hourNs = (3600000000000 : Int) := rfl
  rw [hH] at hq hml
  have ha53 : a < 2 ^ 53 := by
    have : (a : Int) < 9007199254740992 := by omega
    have h2 : (2 : ℕ) ^ 53 = 9007199254740992 := by norm_num
    rw [h2]
    exact_mod_cast this
  have hb53 : b < 2 ^ 53 := by
    have : (b : Int) < 9007199254740992 := by omega
    have h2 : (2 : ℕ) ^ 53 = 9007199254740992 := by norm_num
    rw [h2]
    exact_mod_cast this
  unfold hoursOf
  rw [ha, hb]
  simp only [Int.cast_natCast]
  rw [hsmall a ha53, hsmall b hb53]
  by_cases hb0 : b = 0
  · subst hb0
    have ha1 : 1 ≤ a := by omega
    simp only [Nat.cast_zero, zero_div, hr0, add_zero]
    rw [hsmall a ha53]
    exact_mod_cast ha1
  · have hb1 : (1 : ℚ) ≤ b := by exact_mod_cast Nat.one_le_iff_ne_zero.mpr hb0
    have hy : 0 < rnd ((b : ℚ) / 3600000000000) :=
      hpos _ (div_le_div_of_nonneg_right hb1 (by norm_num))
    by_cases ha0 : a = 0
    · subst ha0
      simp only [Nat.cast_zero, zero_add]
      rw [hidem]
      exact hy
    · have ha1 : (1 : ℚ) ≤ a := by exact_mod_cast Nat.one_le_iff_ne_zero.mpr ha0
      apply hpos
      have : (1 : ℚ) / 3600000000000 ≤ 1 := by norm_num
      linarith

theorem foldl_end_getLast? (l : List StockEvent) (b : ℚ) :
    l.foldl (fun _ e => e.end_) b = ((l.getLast?).map (fun e => e.end_)).getD b := by
  induction l generalizing b with
  | nil => rfl
  | cons e rest ih =>
    rw [List.foldl_cons, ih]
    cases rest with
    | nil => rfl
    | cons e2 rest2 =>
      rw [List.getLast?_cons_cons, List.getLast?_eq_getLast _ (List.cons_ne_nil _ _)]
      rfl

/-- The loop of `calculateOSA` over events none of which is after the window
start: no hours are counted, and the balance is the closing balance of the
last event. -/
theorem osaLoop_before {E : Env} (h0 : E.rnd 0 = 0) (startDate finishDate : Time)
    (hwin : startDate ≤ finishDate) :
    ∀ (l : List StockEvent) (st : OsaState), (∀ e ∈ l, e.time ≤ startDate) →
      st.current = startDate → st.availHours = 0 →
      osaLoop E startDate finishDate l st =
        { balance := l.foldl (fun _ e => e.end_) st.balance
          current := startDate
          availHours := 0 } := by
  intro l
  induction l with
  | nil =>
    intro st _ hc ha
    cases st
    simp only [osaLoop, List.foldl_nil] at *
    rw [hc, ha]
  | cons e rest ih =>
    intro st hall hc ha
    have he : e.time ≤ startDate := hall e (List.mem_cons_self _ _)
    have hrest : ∀ x ∈ rest, x.time ≤ startDate := fun x hx => hall x (List.mem_cons_of_mem _ hx)
    rw [osaLoop]
    split_ifs with h1 h2 h3
    · rw [ih ⟨e.end_, st.current, st.availHours⟩ hrest hc ha]
      rfl
    · exact absurd (lt_of_lt_of_le h2 (le_trans he hwin)) (lt_irrefl _)
    · have het : e.time = startDate := le_antisymm he (not_lt.mp h1)
      have hz : E.rnd (st.availHours + hoursOf E.rnd (timeSub e.time st.current)) = 0 := by
        rw [ha, hc, het, timeSub_self, hoursOf_zero h0, add_zero, h0]
      rw [ih ⟨e.end_, e.time, _⟩ hrest het hz]
      rfl
    · have het : e.time = startDate := le_antisymm he (not_lt.mp h1)
      rw [ih ⟨e.end_, e.time, st.availHours⟩ hrest het ha]
      rfl

/-- The value of `calculateOSA` when every event is at or before the start of
a window of positive length. -/
theorem calculateOSA_before (E : Env) (hE : E.Sound)
    (hsmall : ∀ n : ℕ, n < 2 ^ 53 → E.rnd (n : ℚ) = n)
    (hidem : ∀ x, E.rnd (E.rnd x) = E.rnd x)
    (hpos : ∀ x : ℚ, 1 / 3600000000000 ≤ x → 0 < E.rnd x)
    (events : List StockEvent) (hne : events ≠ []) (startDate finishDate : Time)
    (hwin : startDate < finishDate) (hall : ∀ e ∈ events, e.time ≤ startDate) :
    ∃ last, (E.sortSlice StockEvent eventLess events).getLast? = some last ∧
      calculateOSA E events startDate finishDate = (if last.end_ > 0 then 100 else 0) := by
  have h0 : E.rnd 0 = 0 := by simpa using hsmall 0 (by norm_num)
  have h1 : E.rnd 1 = 1 := by simpa using hsmall 1 (by norm_num)
  have h100 : E.rnd 100 = 100 := by simpa using hsmall 100 (by norm_num)
  have h10000 : E.rnd 10000 = 10000 := by simpa using hsmall 10000 (by norm_num)
  have hr : mathRound 10000 = 10000 := by norm_num [mathRound]
  have hr0 : mathRound 0 = 0 := by norm_num [mathRound]
  have hperm := hE.sort_perm StockEvent eventLess events
  have hall2 : ∀ e ∈ E.sortSlice StockEvent eventLess events, e.time ≤ startDate :=
    fun e he => hall e (hperm.mem_iff.mp he)
  have hT : 0 < hoursOf E.rnd (timeSub finishDate startDate) :=
    hoursOf_pos hsmall hidem hpos _ (timeSub_pos _ _ hwin)
      (le_trans (timeSub_le_max _ _) (by decide))
  have hTT : E.rnd (hoursOf E.rnd (timeSub finishDate startDate))
      = hoursOf E.rnd (timeSub finishDate startDate) := by
    unfold hoursOf
    rw [hidem]
  have hlen : ¬ events.length = 0 := fun h => hne (List.length_eq_zero.mp h)
  unfold calculateOSA
  rw [if_neg hlen]
  cases hs : E.sortSlice StockEvent eventLess events with
  | nil =>
    have := hperm.length_eq
    rw [hs] at this
    exact absurd this.symm hlen
  | cons first rest =>
    rw [hs] at hall2
    have hloop := osaLoop_before h0 startDate finishDate (le_of_lt hwin) (first :: rest)
      { balance := first.start, current := startDate, availHours := 0 } hall2 rfl rfl
    have hlast : (first :: rest).foldl (fun _ e => e.end_) first.start
        = ((first :: rest).getLast (List.cons_ne_nil _ _)).end_ := by
      rw [foldl_end_getLast?, List.getLast?_eq_getLast _ (List.cons_ne_nil _ _)]
      rfl
    refine ⟨(first :: rest).getLast (List.cons_ne_nil _ _),
      List.getLast?_eq_getLast _ (List.cons_ne_nil _ _), ?_⟩
    simp only [hloop, hlast]
    rw [if_neg (not_le.mpr hT)]
    by_cases hb : ((first :: rest).getLast (List.cons_ne_nil _ _)).end_ > 0
    · rw [if_pos ⟨hwin, hb⟩, if_pos hb, zero_add, hTT, div_self (ne_of_gt hT), h1, one_mul,
        h10000, hr]
      norm_num [h100]
    · rw [if_neg (fun h => hb h.2), if_neg hb, zero_div, h0, zero_mul, h0, hr0, zero_div, h0]

/-- C13: for every window of positive length and every non-empty event list
in which every timestamp is at or before the window start, `calculateOSA`
returns 100 if the closing balance of the last event of the sorted list is
positive and 0 otherwise, whatever the opening balances are; the rounding is
any one that is exact on the integers below `2 ^ 53`, leaves its own results
unchanged and does not round a number from `1 / 3600000000000` upwards down
to zero. In `float64` arithmetic, a single event exactly at the window start
with opening 10 and closing 8 over a 24-hour window gives 100. -/
theorem calculateOSA_all_before_start (E : Env) (hE : E.Sound)
    (hsmall : ∀ n : ℕ, n < 2 ^ 53 → E.rnd (n : ℚ) = n)
    (hidem : ∀ x, E.rnd (E.rnd x) = E.rnd x)
    (hpos : ∀ x : ℚ, 1 / 3600000000000 ≤ x → 0 < E.rnd x)
    (events : List StockEvent) (hne : events ≠ []) (startDate finishDate : Time)
    (hwin : startDate < finishDate) (hall : ∀ e ∈ events, e.time ≤ startDate) :
    (∃ last, (E.sortSlice StockEvent eventLess events).getLast? = some last ∧
        calculateOSA E events startDate finishDate = (if last.end_ > 0 then 100 else 0)) ∧
      calculateOSA f64Env [⟨63839664000000000000, 10, 8⟩]
        63839664000000000000 63839750400000000000 = 100 :=
  ⟨calculateOSA_before E hE hsmall hidem hpos events hne startDate finishDate hwin hall,
    by decide!⟩

/-- C13, in `float64` arithmetic, at two events before the start of January
2024, the later one closing at 5. -/
theorem calculateOSA_all_before_start_witness :
    (∃ last, (f64Env.sortSlice StockEvent eventLess
          [⟨63839577600000000000, 0, 5⟩, ⟨63839491200000000000, 7, 0⟩]).getLast? = some last ∧
        calculateOSA f64Env [⟨63839577600000000000, 0, 5⟩, ⟨63839491200000000000, 7, 0⟩]
          63839664000000000000 63842342400000000000 = (if last.end_ > 0 then 100 else 0)) ∧
      calculateOSA f64Env [⟨63839664000000000000, 10, 8⟩]
        63839664000000000000 63839750400000000000 = 100 :=
  calculateOSA_all_before_start f64Env f64Env_sound f64Env_small roundF64_idem roundF64_pos
    [⟨63839577600000000000, 0, 5⟩, ⟨63839491200000000000, 7, 0⟩] (by simp)
    63839664000000000000 63842342400000000000 (by decide) (by decide)

/-! ## Events at or after the window end -/

theorem calculateOSA_unfold (E : Env) (events : List StockEvent) (startDate finishDate : Time) :
    calculateOSA E events startDate finishDate =
      if events.length = 0 then 0
      else
        match E.sortSlice StockEvent eventLess events with
        | [] => 0
        | first :: rest =>
          osaRatio E startDate finishDate (osaTail E finishDate
            (osaLoop E startDate finishDate (first :: rest)
              { balance := first.start, current := startDate, availHours := 0 })) := by
  unfold calculateOSA
  split_ifs
  · rfl
  · cases E.sortSlice StockEvent eventLess events <;> rfl

theorem sorted_split (finishDate : Time) :
    ∀ s : List StockEvent, s.Pairwise (fun a b => a.time ≤ b.time) →
      s = s.filter (beforeEnd finishDate) ++ s.filter (fun e => !beforeEnd finishDate e) := by
  intro s
  induction s with
  | nil => intro _; rfl
  | cons e t ih =>
    intro hp
    rw [List.pairwise_cons] at hp
    by_cases hb : beforeEnd finishDate e = true
    · rw [List.filter_cons_of_pos hb, List.filter_cons_of_neg (by simp [hb]), List.cons_append,
        ← ih hp.2]
    · have hall : ∀ x ∈ t, beforeEnd finishDate x = false := by
        intro x hx
        have h1 : ¬ e.time < finishDate := by simpa [beforeEnd] using hb
        have h2 := hp.1 x hx
        simp only [beforeEnd, decide_eq_false_iff_not]
        exact not_lt.mpr (le_trans (not_lt.mp h1) h2)
      have hf1 : t.filter (beforeEnd finishDate) = [] := by
        rw [List.filter_eq_nil_iff]
        intro x hx
        simp [hall x hx]
      have hf2 : t.filter (fun e => !beforeEnd finishDate e) = t := by
        rw [List.filter_eq_self]
        intro x hx
        simp [hall x hx]
      rw [List.filter_cons_of_neg hb, List.filter_cons_of_pos (by simpa using hb), hf1, hf2]
      rfl

theorem osaLoop_append (E : Env) (startDate finishDate : Time) (b : List StockEvent) :
    ∀ (a : List StockEvent) (st : OsaState), (∀ e ∈ a, e.time ≤ finishDate) →
      osaLoop E startDate finishDate (a ++ b) st
        = osaLoop E startDate finishDate b (osaLoop E startDate finishDate a st) := by
  intro a
  induction a with
  | nil => intro st _; rfl
  | cons e t ih =>
    intro st hall
    have he : e.time ≤ finishDate := hall e (List.mem_cons_self _ _)
    have ht : ∀ x ∈ t, x.time ≤ finishDate := fun x hx => hall x (List.mem_cons_of_mem _ hx)
    rw [List.cons_append, osaLoop, osaLoop]
    split_ifs with h1 h2
    · exact ih _ ht
    · exact absurd h2 (not_lt.mpr he)
    · exact ih _ ht
    · exact ih _ ht

theorem osaLoop_inside {E : Env} (hidem : ∀ x, E.rnd (E.rnd x) = E.rnd x)
    (startDate finishDate : Time) :
    ∀ (a : List StockEvent) (st : OsaState), (∀ e ∈ a, e.time < finishDate) →
      st.current < finishDate → E.rnd st.availHours = st.availHours →
      (osaLoop E startDate finishDate a st).current < finishDate ∧
        E.rnd (osaLoop E startDate finishDate a st).availHours
          = (osaLoop E startDate finishDate a st).availHours := by
  intro a
  induction a with
  | nil => intro st _ hc hf; exact ⟨hc, hf⟩
  | cons e t ih =>
    intro st hall hc hf
    have he : e.time < finishDate := hall e (List.mem_cons_self _ _)
    have ht : ∀ x ∈ t, x.time < finishDate := fun x hx => hall x (List.mem_cons_of_mem _ hx)
    rw [osaLoop]
    split_ifs with h1 h2 h3
    · exact ih ⟨e.end_, st.current, st.availHours⟩ ht hc hf
    · exact absurd h2 (not_lt.mpr (le_of_lt he))
    · exact ih ⟨e.end_, e.time, _⟩ ht he (hidem _)
    · exact ih ⟨e.end_, e.time, st.availHours⟩ ht he hf

/-- Events at or after the window end leave the available hours after the
tail step as they are: an event exactly at the end adds what the tail step
would have added, and a later event ends the loop. -/
theorem osaTail_after {E : Env} (h0 : E.rnd 0 = 0) (hidem : ∀ x, E.rnd (E.rnd x) = E.rnd x)
    (startDate finishDate : Time) (hwin : startDate < finishDate) :
    ∀ (b : List StockEvent) (st : OsaState), (∀ e ∈ b, finishDate ≤ e.time) →
      st.current ≤ finishDate → E.rnd st.availHours = st.availHours →
      osaTail E finishDate (osaLoop E startDate finishDate b st) = osaTail E finishDate st := by
  intro b
  induction b with
  | nil => intro st _ _ _; rfl
  | cons e t ih =>
    intro st hall hc hf
    have he : finishDate ≤ e.time := hall e (List.mem_cons_self _ _)
    have ht : ∀ x ∈ t, finishDate ≤ x.time := fun x hx => hall x (List.mem_cons_of_mem _ hx)
    have h1 : ¬ e.time < startDate := not_lt.mpr (le_of_lt (lt_of_lt_of_le hwin he))
    rw [osaLoop, if_neg h1]
    by_cases h2 : e.time > finishDate
    · rw [if_pos h2]
    · rw [if_neg h2]
      have het : e.time = finishDate := le_antisymm (not_lt.mp h2) he
      by_cases hb : st.balance > 0
      · rw [if_pos hb]
        rw [ih ⟨e.end_, e.time, _⟩ ht (le_of_eq het) (hidem _)]
        unfold osaTail
        rw [if_neg (fun h => absurd h.1 (by rw [het]; exact lt_irrefl _))]
        by_cases hcur : st.current < finishDate
        · rw [if_pos ⟨hcur, hb⟩, het]
        · rw [if_neg (fun h => hcur h.1)]
          have hce : st.current = finishDate := le_antisymm hc (not_lt.mp hcur)
          show E.rnd (st.availHours + hoursOf E.rnd (timeSub e.time st.current)) = st.availHours
          rw [het, hce, timeSub_self, hoursOf_zero h0, add_zero, hf]
      · rw [if_neg hb]
        rw [ih ⟨e.end_, e.time, st.availHours⟩ ht (le_of_eq het) hf]
        unfold osaTail
        rw [if_neg (fun h => absurd h.1 (by rw [het]; exact lt_irrefl _)),
          if_neg (fun h => hb h.2)]

/-- The events before the window end, in sorted order, of two lists that have
the same such events with distinct timestamps. -/
theorem sorted_prefix_eq {E : Env} (hE : E.Sound) (finishDate : Time) (l1 l2 : List StockEvent)
    (hsame : (l1.filter (beforeEnd finishDate)).Perm (l2.filter (beforeEnd finishDate)))
    (hnd : ((l1.filter (beforeEnd finishDate)).map (fun e => e.time)).Nodup) :
    (E.sortSlice StockEvent eventLess l1).filter (beforeEnd finishDate)
      = (E.sortSlice StockEvent eventLess l2).filter (beforeEnd finishDate) := by
  have key : ∀ l : List StockEvent,
      (l.filter (beforeEnd finishDate)).Perm (l1.filter (beforeEnd finishDate)) →
      ((E.sortSlice StockEvent eventLess l).filter (beforeEnd finishDate)).Pairwise
        (fun a b => a.time < b.time) := by
    intro l hl
    have hs := (hE.sort_sorted StockEvent eventLess l eventLess_strictWeak).filter
      (beforeEnd finishDate)
    have hperm : ((E.sortSlice StockEvent eventLess l).filter (beforeEnd finishDate)).Perm
        (l1.filter (beforeEnd finishDate)) :=
      ((hE.sort_perm StockEvent eventLess l).filter _).trans hl
    have hnd2 : (((E.sortSlice StockEvent eventLess l).filter (beforeEnd finishDate)).map
        (fun e => e.time)).Nodup :=
      (List.Perm.nodup_iff (List.Perm.map _ hperm)).mpr hnd
    rw [List.Nodup, List.pairwise_map] at hnd2
    refine (hs.and hnd2).imp ?_
    intro a b hab
    have h1 : ¬ b.time < a.time := by simpa [eventLess] using hab.1
    exact lt_of_le_of_ne (not_lt.mp h1) hab.2
  haveI : IsAntisymm StockEvent (fun a b => a.time < b.time) :=
    ⟨fun a b h1 h2 => absurd h1 (lt_asymm h2)⟩
  refine List.eq_of_perm_of_sorted ?_ (key l1 (List.Perm.refl _)) (key l2 hsame.symm)
  exact ((hE.sort_perm _ _ l1).filter _).trans (hsame.trans ((hE.sort_perm _ _ l2).filter _).symm)

/-- The value of `calculateOSA` in terms of the sorted events before the
window end, when there is at least one. -/
theorem calculateOSA_inside_events {E : Env} (hE : E.Sound) (h0 : E.rnd 0 = 0)
    (hidem : ∀ x, E.rnd (E.rnd x) = E.rnd x) (l : List StockEvent)
    (startDate finishDate : Time) (hwin : startDate < finishDate)
    (first : StockEvent) (rest : List StockEvent)
    (hp : (E.sortSlice StockEvent eventLess l).filter (beforeEnd finishDate) = first :: rest) :
    calculateOSA E l startDate finishDate =
      osaRatio E startDate finishDate (osaTail E finishDate
        (osaLoop E startDate finishDate (first :: rest)
          { balance := first.start, current := startDate, availHours := 0 })) := by
  have hsorted : (E.sortSlice StockEvent eventLess l).Pairwise (fun a b => a.time ≤ b.time) := by
    refine (hE.sort_sorted StockEvent eventLess l eventLess_strictWeak).imp ?_
    intro a b hab
    have h1 : ¬ b.time < a.time := by simpa [eventLess] using hab
    exact not_lt.mp h1
  have hsplit := sorted_split finishDate _ hsorted
  rw [hp] at hsplit
  have hin : ∀ e ∈ first :: rest, e.time < finishDate := by
    intro e he
    rw [← hp] at he
    simpa [beforeEnd] using (List.mem_filter.mp he).2
  have hout : ∀ e ∈ (E.sortSlice StockEvent eventLess l).filter
      (fun e => !beforeEnd finishDate e), finishDate ≤ e.time := by
    intro e he
    have := (List.mem_filter.mp he).2
    simpa [beforeEnd] using this
  have hlen : ¬ l.length = 0 := by
    intro h
    have h2 := (hE.sort_perm StockEvent eventLess l).length_eq
    rw [h, List.length_eq_zero] at h2
    rw [h2] at hp
    cases hp
  rw [calculateOSA_unfold, if_neg hlen]
  generalize E.sortSlice StockEvent eventLess l = s at hsplit hout hp
  generalize s.filter (fun e => !beforeEnd finishDate e) = r at hsplit hout
  subst hsplit
  show osaRatio E startDate finishDate (osaTail E finishDate
    (osaLoop E startDate finishDate ((first :: rest) ++ r)
      { balance := first.start, current := startDate, availHours := 0 })) = _
  rw [osaLoop_append E startDate finishDate r (first :: rest) _ (fun e he => le_of_lt (hin e he))]
  have hinv := osaLoop_inside hidem startDate finishDate (first :: rest)
    { balance := first.start, current := startDate, availHours := 0 } hin hwin h0
  rw [osaTail_after h0 hidem startDate finishDate hwin r _ hout (le_of_lt hinv.1) hinv.2]

/-- C14, as amended: for every window and every two event lists whose events
before the window end are the same, at least one in number and with pairwise
distinct timestamps, `calculateOSA` returns the same value, whatever events at
or after the window end the lists hold; the rounding is any one that leaves
zero and its own results unchanged and gives a non-positive result for a
non-positive number. -/
theorem calculateOSA_ignores_after_end (E : Env) (hE : E.Sound) (h0 : E.rnd 0 = 0)
    (hidem : ∀ x, E.rnd (E.rnd x) = E.rnd x) (hsign : ∀ x, x ≤ 0 → E.rnd x ≤ 0)
    (l1 l2 : List StockEvent) (startDate finishDate : Time)
    (hsame : (l1.filter (beforeEnd finishDate)).Perm (l2.filter (beforeEnd finishDate)))
    (hne : l1.filter (beforeEnd finishDate) ≠ [])
    (hnd : ((l1.filter (beforeEnd finishDate)).map (fun e => e.time)).Nodup) :
    calculateOSA E l1 startDate finishDate = calculateOSA E l2 startDate finishDate := by
  by_cases hwin : startDate < finishDate
  · have hpre := sorted_prefix_eq hE finishDate l1 l2 hsame hnd
    cases hp : (E.sortSlice StockEvent eventLess l1).filter (beforeEnd finishDate) with
    | nil =>
      have hperm := (hE.sort_perm StockEvent eventLess l1).filter (beforeEnd finishDate)
      rw [hp] at hperm
      exact absurd hperm.nil_eq.symm hne
    | cons first rest =>
      rw [calculateOSA_inside_events hE h0 hidem l1 startDate finishDate hwin first rest hp,
        calculateOSA_inside_events hE h0 hidem l2 startDate finishDate hwin first rest (hpre ▸ hp)]
  · have hT := hoursOf_nonpos hsign _ (timeSub_nonpos finishDate startDate (not_lt.mp hwin))
    rw [calculateOSA_of_total_nonpos E l1 startDate finishDate hT,
      calculateOSA_of_total_nonpos E l2 startDate finishDate hT]

/-- C14, as amended, in `float64` arithmetic: January 2024 with one event on
15 January, without and with two events in March. -/
theorem calculateOSA_ignores_after_end_witness :
    calculateOSA f64Env [⟨63840873600000000000, 10, 0⟩]
        63839664000000000000 63842342400000000000 =
      calculateOSA f64Env [⟨63844848000000000000, 0, 7⟩, ⟨63840873600000000000, 10, 0⟩,
          ⟨63845000000000000000, 3, 3⟩] 63839664000000000000 63842342400000000000 :=
  calculateOSA_ignores_after_end f64Env f64Env_sound f64Env_zero roundF64_idem roundF64_nonpos
    _ _ _ _ (by decide) (by decide) (by decide)

/-- C14 fails as stated: for January 2024, the empty list gives 0, a list
whose only event is on 1 March 2024 with opening balance 5 gives 100, and a
list whose only event is on 1 March 2024 with opening balance 0 gives 0; none
of the three lists has an event before the window end. -/
theorem calculateOSA_depends_on_events_after_end :
    calculateOSA f64Env [] 63839664000000000000 63842342400000000000 = 0 ∧
      calculateOSA f64Env [⟨63844848000000000000, 5, 5⟩]
        63839664000000000000 63842342400000000000 = 100 ∧
      calculateOSA f64Env [⟨63844848000000000000, 0, 5⟩]
        63839664000000000000 63842342400000000000 = 0 := by
  decide!

/-! ## Worker count, date texts and the classifier guard -/

theorem SetWorkers_foldl_pos (ws : List Int) :
    ∀ s : Service, 1 ≤ s.workers → 1 ≤ (ws.foldl SetWorkers s).workers := by
  induction ws with
  | nil => intro s h; exact h
  | cons w rest ih =>
    intro s h
    rw [List.foldl_cons]
    apply ih
    unfold SetWorkers
    split_ifs with hw
    · exact hw
    · exact h

/-- C24: for every service state and every integer `w`, `SetWorkers` sets the
worker count to `w` when `w > 0` and leaves the service unchanged when
`w ≤ 0`; the worker count of a service created by `NewService` is at least 2,
and stays at least 1 after every sequence of `SetWorkers` calls. -/
theorem SetWorkers_spec (s : Service) (w : Int) :
    (0 < w → SetWorkers s w = { workers := w }) ∧
      (w ≤ 0 → SetWorkers s w = s) ∧
      (∀ numCPU : Int, 2 ≤ (NewService numCPU).workers) ∧
      (∀ (numCPU : Int) (ws : List Int),
        1 ≤ (ws.foldl SetWorkers (NewService numCPU)).workers) := by
  have hnew : ∀ numCPU : Int, 2 ≤ (NewService numCPU).workers := by
    intro numCPU
    unfold NewService
    simp only
    split_ifs with h
    · exact le_refl 2
    · exact not_lt.mp h
  refine ⟨fun h => ?_, fun h => ?_, hnew, fun numCPU ws => ?_⟩
  · unfold SetWorkers
    rw [if_pos h]
  · unfold SetWorkers
    rw [if_neg (not_lt.mpr h)]
  · exact SetWorkers_foldl_pos ws _ (le_trans (by decide) (hnew numCPU))

/-- C24, at the calls of the test: `SetWorkers(8)` then `SetWorkers(0)` on a
new service. -/
theorem SetWorkers_spec_witness :
    SetWorkers (NewService 4) 8 = { workers := 8 } ∧
      SetWorkers (SetWorkers (NewService 4) 8) 0 = SetWorkers (NewService 4) 8 ∧
      SetWorkers (SetWorkers (NewService 4) 8) (-3) = SetWorkers (NewService 4) 8 :=
  ⟨(SetWorkers_spec (NewService 4) 8).1 (by decide),
    (SetWorkers_spec (SetWorkers (NewService 4) 8) 0).2.1 (by decide),
    (SetWorkers_spec (SetWorkers (NewService 4) 8) (-3)).2.1 (by decide)⟩

/-- C22: for every item list whose total sales, as the first loop of
`calculateABCClassification` adds them up, is zero or negative, and for the
empty list, `calculateABCClassification` returns the list unchanged; in exact
arithmetic the total is the sum of the sales. -/
theorem calculateABCClassification_unchanged (E : Env) (items : List ItemAnalyticsResult) :
    (abcTotal E items ≤ 0 → calculateABCClassification E items = items) ∧
      calculateABCClassification E [] = [] ∧
      ((∀ x, E.rnd x = x) → abcTotal E items = (items.map (fun it => it.sales)).sum) := by
  refine ⟨fun h => ?_, rfl, fun hx => abcTotal_exact hx items⟩
  unfold calculateABCClassification
  split_ifs <;> rfl

/-- C22, in binary64, at items with sales `0, 0` and with sales `5, -5`. -/
theorem calculateABCClassification_unchanged_witness :
    calculateABCClassification f64Env
        [⟨"a", "1", "", 0, 0, 0, 0, ""⟩, ⟨"b", "2", "", 0, 0, 0, 0, ""⟩]
      = [⟨"a", "1", "", 0, 0, 0, 0, ""⟩, ⟨"b", "2", "", 0, 0, 0, 0, ""⟩] ∧
      calculateABCClassification f64Env
        [⟨"a", "1", "", 5, 0, 0, 0, ""⟩, ⟨"b", "2", "", -5, 0, 0, 0, ""⟩]
      = [⟨"a", "1", "", 5, 0, 0, 0, ""⟩, ⟨"b", "2", "", -5, 0, 0, 0, ""⟩] :=
  ⟨(calculateABCClassification_unchanged f64Env _).1 (by decide!),
    (calculateABCClassification_unchanged f64Env _).1 (by decide!)⟩

/-- C29: the classification depends on the order of the list. The items
with sales 1000 (code `a`) and 100 (code `b`) have a positive total; in the
order `a, b` item `a` is labelled `B` and item `b` is labelled `C`, and in the
order `b, a` item `b` is labelled `A` and item `a` is labelled `C`. -/
theorem calculateABCClassification_order_dependent :
    List.Perm [(⟨"big", "a", "", 1000, 0, 0, 0, ""⟩ : ItemAnalyticsResult),
        ⟨"small", "b", "", 100, 0, 0, 0, ""⟩]
        [⟨"small", "b", "", 100, 0, 0, 0, ""⟩, ⟨"big", "a", "", 1000, 0, 0, 0, ""⟩] ∧
      0 < abcTotal f64Env
        [⟨"big", "a", "", 1000, 0, 0, 0, ""⟩, ⟨"small", "b", "", 100, 0, 0, 0, ""⟩] ∧
      (calculateABCClassification f64Env
          [⟨"big", "a", "", 1000, 0, 0, 0, ""⟩, ⟨"small", "b", "", 100, 0, 0, 0, ""⟩]).map
        (fun it => (it.code, it.abc)) = [("a", "B"), ("b", "C")] ∧
      (calculateABCClassification f64Env
          [⟨"small", "b", "", 100, 0, 0, 0, ""⟩, ⟨"big", "a", "", 1000, 0, 0, 0, ""⟩]).map
        (fun it => (it.code, it.abc)) = [("b", "A"), ("a", "C")] :=
  ⟨List.Perm.swap _ _ [], by decide!, by decide!, by decide!⟩

/-- C23: `parseDateTime` returns a timestamp exactly when the text parses
under at least one of the layouts `02.01.2006 15:04:05`, `02.01.2006 15:04`
and `02.01.2006`, and the timestamp is the parse under the first of these
layouts, in this order, that accepts the text. The three layout texts parse,
and the empty text and `invalid-date` do not. -/
theorem parseDateTime_spec (dateStr : String) :
    ((parseDateTime dateStr).isSome = true ↔
        (timeParse layoutSecond dateStr).isSome = true ∨
          (timeParse layoutMinute dateStr).isSome = true ∨
          (timeParse layoutDate dateStr).isSome = true) ∧
      (∀ t, timeParse layoutSecond dateStr = some t → parseDateTime dateStr = some t) ∧
      (timeParse layoutSecond dateStr = none →
        ∀ t, timeParse layoutMinute dateStr = some t → parseDateTime dateStr = some t) ∧
      (timeParse layoutSecond dateStr = none → timeParse layoutMinute dateStr = none →
        parseDateTime dateStr = timeParse layoutDate dateStr) ∧
      parseDateTime "02.01.2006 15:04:05" = some 63271811045000000000 ∧
      parseDateTime "02.01.2006 15:04" = some 63271811040000000000 ∧
      parseDateTime "02.01.2006" = some 63271756800000000000 ∧
      parseDateTime "" = none ∧ parseDateTime "invalid-date" = none := by
  refine ⟨?_, ?_, ?_, ?_, by decide, by decide, by decide, by decide, by decide⟩
  · unfold parseDateTime parseFormats parseFormats parseFormats parseFormats
    cases timeParse layoutSecond dateStr <;> cases timeParse layoutMinute dateStr <;>
      cases timeParse layoutDate dateStr <;> simp
  · intro t h
    unfold parseDateTime parseFormats
    rw [h]
  · intro h1 t h2
    unfold parseDateTime parseFormats parseFormats
    rw [h1, h2]
  · intro h1 h2
    unfold parseDateTime parseFormats parseFormats parseFormats parseFormats
    rw [h1, h2]
    cases timeParse layoutDate dateStr <;> rfl

/-- C23, at the text `02.01.2006 15:04`, which the first layout rejects and
the second accepts. -/
theorem parseDateTime_spec_witness :
    parseDateTime "02.01.2006 15:04" = some 63271811040000000000 :=
  (parseDateTime_spec "02.01.2006 15:04").2.2.1 (by decide) 63271811040000000000 (by decide)

/-! ## The events of a chunk and of the whole ledger -/

theorem chunkFold_event_keys (E : Env) (k : String) :
    ∀ (items : List StockItem) (acc : GoMap (List StockEvent) × GoMap ℚ),
      k ∈ GoMap.keys (items.foldl (chunkStep E) acc).1 ↔
        k ∈ GoMap.keys acc.1 ∨
          (k ≠ "" ∧ ∃ it ∈ items, TrimSpace it.code = k ∧
            (parseDateTime it.period).isSome = true) := by
  intro items
  induction items with
  | nil => intro acc; simp
  | cons it rest ih =>
    intro acc
    rw [List.foldl_cons, ih]
    have hstep : k ∈ GoMap.keys (chunkStep E acc it).1 ↔
        k ∈ GoMap.keys acc.1 ∨
          (k ≠ "" ∧ TrimSpace it.code = k ∧ (parseDateTime it.period).isSome = true) := by
      unfold chunkStep
      simp only
      by_cases h : TrimSpace it.code = ""
      · rw [if_pos h]
        constructor
        · exact fun h1 => Or.inl h1
        · rintro (h1 | ⟨h1, h2, -⟩)
          · exact h1
          · exact absurd (h2 ▸ h) h1
      · rw [if_neg h]
        cases hp : parseDateTime it.period with
        | none => simp
        | some dt =>
          have hk : k ∈ GoMap.keys (GoMap.set acc.1 (TrimSpace it.code)
              (GoMap.getD acc.1 (TrimSpace it.code) [] ++
                [StockEvent.mk dt it.startBalance it.endBalance])) ↔
              k ∈ GoMap.keys acc.1 ∨ (k ≠ "" ∧ TrimSpace it.code = k) := by
            rw [GoMap.mem_keys_set]
            constructor
            · rintro (h1 | h1)
              · exact Or.inr ⟨h1 ▸ h, h1.symm⟩
              · exact Or.inl h1
            · rintro (h1 | ⟨-, h1⟩)
              · exact Or.inr h1
              · exact Or.inl h1.symm
          simp only [Option.isSome_some, and_true]
          split_ifs <;> exact hk
    rw [hstep]
    constructor
    · rintro ((h1 | ⟨h1, h2, h3⟩) | ⟨h1, x, hx, hxc⟩)
      · exact Or.inl h1
      · exact Or.inr ⟨h1, it, List.mem_cons_self _ _, h2, h3⟩
      · exact Or.inr ⟨h1, x, List.mem_cons_of_mem _ hx, hxc⟩
    · rintro (h1 | ⟨h1, x, hx, hxc⟩)
      · exact Or.inl (Or.inl h1)
      · rw [List.mem_cons] at hx
        rcases hx with rfl | hx
        · exact Or.inl (Or.inr ⟨h1, hxc⟩)
        · exact Or.inr ⟨h1, x, hx, hxc⟩

/-- C27: for every chunk and every code `c`, the event list that
`processChunk` returns for `c` is the list of the events of the records of the
chunk, in chunk order, where a record gives no event when its trimmed code is
not `c`, is empty, or its period does not parse, and gives the one event made
of the parsed period, the opening and the closing balance otherwise; every key
of the result is the non-empty trimmed code of a record of the chunk whose
period parses. -/
theorem processChunk_event_lists (E : Env) (chunk : Chunk) (startDate finishDate : Time) :
    (∀ c, GoMap.getD (processChunk E chunk startDate finishDate).events c [] =
        chunk.items.filterMap (eventOf c)) ∧
      (∀ (c : String) (it : StockItem),
        eventOf c it = none ↔
          (TrimSpace it.code ≠ c ∨ c = "" ∨ parseDateTime it.period = none)) ∧
      (∀ (c : String) (it : StockItem) (dt : Time),
        TrimSpace it.code = c → c ≠ "" → parseDateTime it.period = some dt →
          eventOf c it = some { time := dt, start := it.startBalance, end_ := it.endBalance }) ∧
      (∀ k ∈ GoMap.keys (processChunk E chunk startDate finishDate).events,
        k ≠ "" ∧ ∃ it ∈ chunk.items, TrimSpace it.code = k ∧
          (parseDateTime it.period).isSome = true) := by
  refine ⟨fun c => processChunk_events E chunk startDate finishDate c, ?_, ?_, ?_⟩
  · intro c it
    unfold eventOf
    by_cases h : TrimSpace it.code = c ∧ c ≠ ""
    · rw [if_pos h]
      cases hp : parseDateTime it.period with
      | none => simp
      | some dt => simp [h.1, h.2]
    · rw [if_neg h]
      simp only [true_iff]
      by_cases h1 : TrimSpace it.code = c
      · exact Or.inr (Or.inl (by
          by_contra h2
          exact h ⟨h1, h2⟩))
      · exact Or.inl h1
  · intro c it dt h1 h2 h3
    unfold eventOf
    rw [if_pos ⟨h1, h2⟩, h3]
    rfl
  · intro k hk
    have h := (chunkFold_event_keys E k chunk.items ([], [])).mp hk
    rcases h with h | h
    · simp [GoMap.keys] at h
    · exact h

/-- C27, at a chunk of four records: one with a blank code, one with an
unparseable period and two of the code `1001`. -/
theorem processChunk_event_lists_witness :
    GoMap.getD (processChunk f64Env
        ⟨[⟨" 1001 ", "", "", "02.01.2024 10:00", 10, 8, ""⟩,
          ⟨"  ", "", "", "01.01.2024", 1, 1, ""⟩,
          ⟨"1001", "", "", "invalid-date", 3, 2, ""⟩,
          ⟨"1001", "", "", "01.01.2024", 8, 6, ""⟩], 0⟩ 0 0).events "1001" []
      = [⟨63839786400000000000, 10, 8⟩, ⟨63839664000000000000, 8, 6⟩] :=
  ((processChunk_event_lists f64Env _ 0 0).1 "1001").trans (by decide)

/-- C30 fails as stated: in binary64, for the ledger of four shrinkage
records of code `1001` with the differences `3.8, 3.8, 2.6, 1.1` and two
workers, the chunks report the losses `7.6` and `3.7`, whose sum is not the
loss `11.299999999999999` that the whole ledger reports as one chunk, neither
as an exact sum nor as a `float64` sum (which is `11.3`). -/
theorem processChunk_losses_not_additive :
    (splitIntoChunks { workers := 2 }
        [⟨"1001", "", "", "01.01.2024", roundF64 (38 / 10), 0, shrinkageMarker⟩,
          ⟨"1001", "", "", "02.01.2024", roundF64 (38 / 10), 0, shrinkageMarker⟩,
          ⟨"1001", "", "", "03.01.2024", roundF64 (26 / 10), 0, shrinkageMarker⟩,
          ⟨"1001", "", "", "04.01.2024", roundF64 (11 / 10), 0, shrinkageMarker⟩]).map
        (fun chunks => chunks.map
          (fun ch => GoMap.getD (processChunk f64Env ch 0 0).losses "1001" 0))
        = .ok [roundF64 (76 / 10), roundF64 (37 / 10)] ∧
      GoMap.getD (processChunk f64Env
          ⟨[⟨"1001", "", "", "01.01.2024", roundF64 (38 / 10), 0, shrinkageMarker⟩,
            ⟨"1001", "", "", "02.01.2024", roundF64 (38 / 10), 0, shrinkageMarker⟩,
            ⟨"1001", "", "", "03.01.2024", roundF64 (26 / 10), 0, shrinkageMarker⟩,
            ⟨"1001", "", "", "04.01.2024", roundF64 (11 / 10), 0, shrinkageMarker⟩], 0⟩ 0 0).losses
          "1001" 0 = 6361334473660825 / 562949953421312 ∧
      roundF64 (76 / 10) + roundF64 (37 / 10) = 12722668947321651 / 1125899906842624 ∧
      roundF64 (roundF64 (76 / 10) + roundF64 (37 / 10)) = 6361334473660826 / 562949953421312 ∧
      roundF64 (38 / 10) = 4278419646001971 / 1125899906842624 ∧
      roundF64 (26 / 10) = 5854679515581645 / 2251799813685248 ∧
      roundF64 (11 / 10) = 2476979795053773 / 2251799813685248 := by
  decide!

theorem parseElems_layoutDate (f0 : DateFields) (value : List Char) (f : DateFields)
    (h : parseElems layoutDate f0 value = some f) :
    f.hour = f0.hour ∧ f.min = f0.min ∧ f.sec = f0.sec ∧ f.nsec = f0.nsec ∧
      1 ≤ f.month ∧ f.month ≤ 12 := by
  simp only [layoutDate, parseElems, parseElem] at h
  cases h1 : getnum value true with
  | none => simp [h1] at h
  | some r1 =>
    simp only [h1, Option.map_some'] at h
    cases h2 : skip r1.2 ['.'] with
    | none => simp [h2] at h
    | some r2 =>
      simp only [h2, Option.map_some'] at h
      cases h3 : getnum r2 true with
      | none => simp [h3] at h
      | some r3 =>
        obtain ⟨m, rest3⟩ := r3
        simp only [h3] at h
        by_cases hm : m = 0 ∨ 12 < m
        · simp [hm] at h
        · simp only [hm, if_false] at h
          cases h4 : skip rest3 ['.'] with
          | none => simp [h4] at h
          | some r4 =>
            simp only [h4, Option.map_some'] at h
            by_cases hy : r4.length < 4 ∨ (!isDigit r4 0) = true
            · rw [if_pos hy] at h
              simp at h
            · rw [if_neg hy] at h
              cases h5 : digitsVal (List.take 4 r4) with
              | none => simp [h5] at h
              | some y =>
                simp only [h5, Option.map_some'] at h
                split_ifs at h
                simp only [Option.some.injEq] at h
                subst h
                exact ⟨rfl, rfl, rfl, rfl, by show 1 ≤ m; omega, by show m ≤ 12; omega⟩



theorem timeParse_layoutDate (value : String) (t : Time)
    (h : timeParse layoutDate value = some t) :
    ∃ y m d, 1 ≤ m ∧ m ≤ 12 ∧ 1 ≤ d ∧ d ≤ daysIn m y ∧ t = midnight y m d := by
  unfold timeParse at h
  cases hp : parseElems layoutDate ⟨0, 0, 0, 0, 0, 0, 0⟩ value.data with
  | none => simp [hp] at h
  | some f =>
    simp only [hp] at h
    obtain ⟨h1, h2, h3, h4, h5, h6⟩ := parseElems_layoutDate _ _ _ hp
    by_cases hd : f.day < 1 ∨ daysIn f.month f.year < f.day
    · rw [if_pos hd] at h
      cases h
    · rw [if_neg hd] at h
      simp only [Option.some.injEq] at h
      refine ⟨f.year, f.month, f.day, h5, h6, by omega, by omega, ?_⟩
      rw [← h]
      obtain ⟨y, m, d, hh, mi, se, ns⟩ := f
      simp only at h1 h2 h3 h4
      subst h1 h2 h3 h4
      rfl

theorem dayNs_eq : dayNs = (86400000000000 : Int) := by decide

theorem daysBefore_succ (y m : Nat) (hm1 : 1 ≤ m) (hm2 : m < 12) :
    (daysBefore (m + 1) : Int) + (if isLeap y = true ∧ 2 < m + 1 then 1 else 0) =
      (daysBefore m : Int) + (if isLeap y = true ∧ 2 < m then 1 else 0) + (daysIn m y : Int) := by
  interval_cases m <;> cases hl : isLeap y <;> simp [daysBefore, daysIn, hl]

theorem leap_days (y : Nat) :
    (y : Int) / 4 - (y : Int) / 100 + (y : Int) / 400 =
      ((y : Int) - 1) / 4 - ((y : Int) - 1) / 100 + ((y : Int) - 1) / 400
        + (if isLeap y = true then 1 else 0) := by
  cases hl : isLeap y
  · simp only [isLeap, Bool.and_eq_false_imp, Bool.or_eq_false_iff, decide_eq_true_eq,
      decide_eq_false_iff_not, Bool.not_eq_true', ne_eq, Decidable.not_not] at hl
    simp only [Bool.false_eq_true, if_false]
    by_cases h4 : y % 4 = 0
    · have := hl h4
      simp only [not_not] at this
      omega
    · omega
  · simp only [isLeap, Bool.and_eq_true, Bool.or_eq_true, decide_eq_true_eq, ne_eq] at hl
    simp only [if_true]
    omega

/-- Midnight of the next calendar day is 24 hours after midnight. -/
theorem midnight_dayAfter (y m d : Nat) (hm1 : 1 ≤ m) (hm2 : m ≤ 12) (hd1 : 1 ≤ d)
    (hd2 : d ≤ daysIn m y) :
    midnight (dayAfter y m d).1 (dayAfter y m d).2.1 (dayAfter y m d).2.2
      = midnight y m d + dayNs := by
  rw [dayNs_eq]
  unfold dayAfter
  by_cases h1 : d < daysIn m y
  · rw [if_pos h1]
    simp only [midnight, dateToTime]
    push_cast
    ring
  · rw [if_neg h1]
    have hd : d = daysIn m y := le_antisymm hd2 (not_lt.mp h1)
    by_cases h2 : m < 12
    · rw [if_pos h2]
      have hs := daysBefore_succ y m hm1 h2
      simp only [midnight, dateToTime]
      rw [hd]
      push_cast at hs ⊢
      linarith
    · rw [if_neg h2]
      have hm : m = 12 := by omega
      subst hm
      have hdv : daysIn 12 y = 31 := by simp [daysIn]
      rw [hdv] at hd
      subst hd
      have hl := leap_days y
      have hb12 : daysBefore 12 = 334 := by decide
      have hb1 : daysBefore 1 = 0 := by decide
      simp only [midnight, dateToTime, hb12, hb1]
      have hc : (if isLeap y = true ∧ 2 < 12 then (1 : Int) else 0)
          = (if isLeap y = true then 1 else 0) := by simp
      have hc1 : (if isLeap (y + 1) = true ∧ 2 < 1 then (1 : Int) else 0) = 0 := by simp
      rw [hc, hc1]
      push_cast at hl ⊢
      have e1 : ((y : Int) + 1 - 1) = y := by ring
      rw [e1]
      linarith



theorem abcLoop_mem (E : Env) (total : ℚ) :
    ∀ (items : List ItemAnalyticsResult) (cum : ℚ),
      ∀ it ∈ abcLoop E total cum items, ∃ it0 ∈ items, it = { it0 with abc := it.abc } := by
  intro items
  induction items with
  | nil => intro cum it h; simp [abcLoop] at h
  | cons x rest ih =>
    intro cum it h
    rw [abcLoop, List.mem_cons] at h
    rcases h with h | h
    · exact ⟨x, List.mem_cons_self _ _, by rw [h]⟩
    · obtain ⟨it0, h0, h1⟩ := ih _ it h
      exact ⟨it0, List.mem_cons_of_mem _ h0, h1⟩

theorem calculateABCClassification_mem (E : Env) (items : List ItemAnalyticsResult) :
    ∀ it ∈ calculateABCClassification E items,
      ∃ it0 ∈ items, it = { it0 with abc := it.abc } := by
  intro it h
  unfold calculateABCClassification at h
  split_ifs at h
  · exact ⟨it, h, rfl⟩
  · exact ⟨it, h, rfl⟩
  · exact abcLoop_mem E _ items 0 it h

/-- The run of `GetItemAnalytics` on dates that parse and files that load:
the availability of every item of the response is that of `calculateOSA` over
the window from the parsed start date to 24 hours after the parsed finish
date. -/
theorem GetItemAnalytics_osa (E : Env) (hE : E.Sound) (W : Int) (hW : 1 ≤ W)
    (stockData : List StockItem) (salesData : List SalesItem) (req : ItemAnalyticsRequest)
    (startDate finishDate : Time)
    (hs : timeParse layoutDate req.startDate = some startDate)
    (hf : timeParse layoutDate req.finishDate = some finishDate) :
    ∃ chunks resp, splitIntoChunks { workers := W } stockData = .ok chunks ∧
      GetItemAnalytics E { workers := W } (some stockData) (some salesData) req = .ok resp ∧
      ∀ it ∈ resp.items,
        it.osa = calculateOSA E
          (GoMap.getD (collect E (workerResults E { workers := W } chunks startDate
            (timeAdd finishDate dayNs))).1 it.code [])
          startDate (timeAdd finishDate dayNs) := by
  obtain ⟨chunks, items, h1, h, hall⟩ :=
    processDataParallel_items E hE W hW stockData salesData startDate (timeAdd finishDate dayNs)
  have hrun : GetItemAnalytics E { workers := W } (some stockData) (some salesData) req =
      .ok ⟨E.sortSlice ItemAnalyticsResult salesGreater (calculateABCClassification E items),
        (E.sortSlice ItemAnalyticsResult salesGreater
          (calculateABCClassification E items)).length⟩ := by
    unfold GetItemAnalytics
    simp only [hs, hf, h]
  refine ⟨chunks, _, h1, hrun, ?_⟩
  · intro it hit
    simp only at hit
    have hit2 := (hE.sort_perm ItemAnalyticsResult salesGreater _).mem_iff.mp hit
    obtain ⟨it0, h0, heq⟩ := calculateABCClassification_mem E items it hit2
    obtain ⟨-, hmk⟩ := hall it0 h0
    have hc : it.code = it0.code := by rw [heq]
    have ho : it.osa = it0.osa := by rw [heq]
    rw [hc, ho]
    conv_lhs => rw [hmk]
    rfl

/-- C28: for every pair of date texts that parse, `GetItemAnalytics`
evaluates the availability of every item over the window that starts at the
parsed start date, which is midnight of a calendar day, and ends exactly 24
hours after the parsed finish date, also midnight of a calendar day. With
equal start and finish texts the window is exactly 24 hours long; midnight of
the next calendar day is 24 hours after midnight, so a finish date one day
before the start date gives a window whose end is its start. -/
theorem GetItemAnalytics_window (E : Env) (hE : E.Sound) (W : Int) (hW : 1 ≤ W)
    (stockData : List StockItem) (salesData : List SalesItem) (req : ItemAnalyticsRequest)
    (startDate finishDate : Time)
    (hs : timeParse layoutDate req.startDate = some startDate)
    (hf : timeParse layoutDate req.finishDate = some finishDate) :
    (∃ chunks resp, splitIntoChunks { workers := W } stockData = .ok chunks ∧
        GetItemAnalytics E { workers := W } (some stockData) (some salesData) req = .ok resp ∧
        ∀ it ∈ resp.items,
          it.osa = calculateOSA E
            (GoMap.getD (collect E (workerResults E { workers := W } chunks startDate
              (timeAdd finishDate dayNs))).1 it.code [])
            startDate (timeAdd finishDate dayNs)) ∧
      (∃ y m d, 1 ≤ m ∧ m ≤ 12 ∧ 1 ≤ d ∧ d ≤ daysIn m y ∧ startDate = midnight y m d) ∧
      (∃ y m d, 1 ≤ m ∧ m ≤ 12 ∧ 1 ≤ d ∧ d ≤ daysIn m y ∧ finishDate = midnight y m d) ∧
      dayNs = 24 * hourNs ∧
      (req.finishDate = req.startDate →
        timeSub (timeAdd finishDate dayNs) startDate = 24 * hourNs) ∧
      (∀ y m d, 1 ≤ m → m ≤ 12 → 1 ≤ d → d ≤ daysIn m y →
        midnight (dayAfter y m d).1 (dayAfter y m d).2.1 (dayAfter y m d).2.2
          = timeAdd (midnight y m d) dayNs) ∧
      (∀ y m d, 1 ≤ m → m ≤ 12 → 1 ≤ d → d ≤ daysIn m y → finishDate = midnight y m d →
        startDate = midnight (dayAfter y m d).1 (dayAfter y m d).2.1 (dayAfter y m d).2.2 →
        timeAdd finishDate dayNs = startDate ∧
          timeSub (timeAdd finishDate dayNs) startDate = 0) := by
  refine ⟨GetItemAnalytics_osa E hE W hW stockData salesData req startDate finishDate hs hf,
    timeParse_layoutDate _ _ hs, timeParse_layoutDate _ _ hf, rfl, ?_, ?_, ?_⟩
  · intro heq
    rw [heq, hs] at hf
    simp only [Option.some.injEq] at hf
    subst hf
    have h0 : (0 : Int) ≤ timeAdd startDate dayNs - startDate := by
      unfold timeAdd
      rw [add_sub_cancel_left]
      decide
    have h1 : timeAdd startDate dayNs - startDate ≤ maxDuration := by
      unfold timeAdd
      rw [add_sub_cancel_left]
      decide
    rw [timeSub_of_fit _ _ h0 h1]
    unfold timeAdd
    rw [add_sub_cancel_left]
    rfl
  · intro y m d hm1 hm2 hd1 hd2
    exact midnight_dayAfter y m d hm1 hm2 hd1 hd2
  · intro y m d hm1 hm2 hd1 hd2 hfin hst
    have h := midnight_dayAfter y m d hm1 hm2 hd1 hd2
    have heq : timeAdd finishDate dayNs = startDate := by
      rw [hst, hfin, h]
      rfl
    exact ⟨heq, by rw [heq, timeSub_self]⟩

/-- C28, in binary64: the request from `01.01.2024` to `01.01.2024` has a
24-hour window, and the request from `01.01.2024` to `31.12.2023` has a window
whose end is its start. -/
theorem GetItemAnalytics_window_witness :
    timeSub (timeAdd 63839664000000000000 dayNs) 63839664000000000000 = 24 * hourNs ∧
      timeAdd 63839577600000000000 dayNs = 63839664000000000000 :=
  ⟨(GetItemAnalytics_window f64Env f64Env_sound 2 (by decide)
      [⟨"1001", "", "", "01.01.2024 00:00:00", 10, 8, ""⟩] [⟨"1001", "", 5, 500⟩]
      ⟨"t", "01.01.2024", "01.01.2024"⟩ 63839664000000000000 63839664000000000000
      (by decide) (by decide)).2.2.2.2.1 rfl,
    ((GetItemAnalytics_window f64Env f64Env_sound 2 (by decide)
      [⟨"1001", "", "", "01.01.2024 00:00:00", 10, 8, ""⟩] [⟨"1001", "", 5, 500⟩]
      ⟨"t", "01.01.2024", "31.12.2023"⟩ 63839664000000000000 63839577600000000000
      (by decide) (by decide)).2.2.2.2.2.2 2023 12 31 (by decide) (by decide) (by decide)
      (by decide) (by decide) (by decide)).1⟩

/-! ## Tokens -/

theorem auth_ValidateToken_eq (s : Auth.Service) (t : String) :
    Auth.ValidateToken s t =
      .ok { valid := decide (GoMap.get? s.tokenStore.tokens t = some 1) } := by
  unfold Auth.ValidateToken Userdb.TokenStore.ValidateToken
  cases h : GoMap.get? s.tokenStore.tokens t with
  | none => simp
  | some u =>
    by_cases hu : u = 1
    · subst hu
      simp
    · simp [hu]

/-- C25: for every state of the token store and every token `t`,
`ValidateToken` of package `auth` returns no error, and `Valid` is `true`
exactly when the store maps `t` to the user id 1: an unknown token and a token
stored with another user id give `Valid = false`. `AddToken` makes the store
map the token to the given id, and `GenerateToken`, when it returns a token,
has stored it with the user id 1, so that validating it gives `Valid = true`. -/
theorem auth_ValidateToken_spec (s : Auth.Service) (t : String) :
    (∃ v, Auth.ValidateToken s t = .ok { valid := v } ∧
        (v = true ↔ GoMap.get? s.tokenStore.tokens t = some 1)) ∧
      (GoMap.get? s.tokenStore.tokens t = none →
        Auth.ValidateToken s t = .ok { valid := false }) ∧
      (∀ u : Int, u ≠ 1 → GoMap.get? s.tokenStore.tokens t = some u →
        Auth.ValidateToken s t = .ok { valid := false }) ∧
      (∀ u : Int, (s.tokenStore.AddToken t u).ValidateToken t = (u, true)) ∧
      (∀ (L : Auth.Lib) (req : Auth.AuthRequest) (resp : Auth.AuthResponse) (s' : Auth.Service),
        Auth.GenerateToken L s req = (.ok resp, s') →
          GoMap.get? s'.tokenStore.tokens resp.token = some 1 ∧
            Auth.ValidateToken s' resp.token = .ok { valid := true }) := by
  refine ⟨⟨_, auth_ValidateToken_eq s t, by simp⟩, ?_, ?_, ?_, ?_⟩
  · intro h
    rw [auth_ValidateToken_eq, h]
    rfl
  · intro u hu h
    rw [auth_ValidateToken_eq, h]
    simp [hu]
  · intro u
    unfold Userdb.TokenStore.ValidateToken Userdb.TokenStore.AddToken
    simp [GoMap.get?_set]
  · intro L req resp s' h
    unfold Auth.GenerateToken at h
    cases hc : Auth.createJWTToken L s req.email req.password with
    | error e => simp [hc] at h
    | ok token =>
      simp only [hc, Prod.mk.injEq, Except.ok.injEq] at h
      obtain ⟨h1, h2⟩ := h
      subst h1 h2
      have hget : GoMap.get? (s.tokenStore.AddToken token 1).tokens token = some 1 := by
        unfold Userdb.TokenStore.AddToken
        simp [GoMap.get?_set]
      refine ⟨hget, ?_⟩
      rw [auth_ValidateToken_eq]
      simp only [hget]
      rfl

/-- C25, at the stores of the tests: a token stored with the user id 2 is not
valid, a token stored with the user id 1 is, and an unknown token is not. -/
theorem auth_ValidateToken_spec_witness :
    Auth.ValidateToken
        (Auth.NewService "test-secret" (Userdb.NewTokenStore.AddToken "test-token-123" 2))
        "test-token-123" = .ok { valid := false } ∧
      Auth.ValidateToken
        (Auth.NewService "test-secret" (Userdb.NewTokenStore.AddToken "test-token-123" 1))
        "invalid-token" = .ok { valid := false } ∧
      Auth.ValidateToken
        (Auth.NewService "test-secret" (Userdb.NewTokenStore.AddToken "test-token-123" 1))
        "test-token-123" = .ok { valid := true } :=
  ⟨(auth_ValidateToken_spec _ "test-token-123").2.2.1 2 (by decide) (by decide),
    (auth_ValidateToken_spec _ "invalid-token").2.1 (by decide),
    by
      obtain ⟨v, h1, h2⟩ := (auth_ValidateToken_spec
        (Auth.NewService "test-secret" (Userdb.NewTokenStore.AddToken "test-token-123" 1))
        "test-token-123").1
      rw [h1, h2.mpr (by decide)]⟩

/-! ## `calculateOSA` and the availability sweep of the specification -/

theorem availabilitySweep_float (E : Env) (events : List StockEvent)
    (startDate finishDate : Time) :
    availabilitySweep (floatArith E) (E.sortSlice StockEvent eventLess) events startDate
        finishDate =
      if events.length = 0 then 0
      else
        match E.sortSlice StockEvent eventLess events with
        | [] => 0
        | first :: rest =>
          osaRatio E startDate finishDate (osaTail E finishDate
            (sweepWalk (floatArith E) startDate finishDate (first :: rest)
              { balance := first.start, current := startDate, availHours := 0 })) := by
  cases events with
  | nil => rfl
  | cons e t =>
    rw [if_neg (by simp)]
    unfold availabilitySweep
    simp only
    cases E.sortSlice StockEvent eventLess (e :: t) <;> rfl

/-- On a sorted list, the loop of `calculateOSA`, which goes on through the
events exactly at the window end, and the walk of the specification, which
stops at them, leave the same available hours after the tail step. -/
theorem osaTail_walk {E : Env} (h0 : E.rnd 0 = 0) (hidem : ∀ x, E.rnd (E.rnd x) = E.rnd x)
    (startDate finishDate : Time) (hwin : startDate < finishDate) :
    ∀ (l : List StockEvent) (st : OsaState), l.Pairwise (fun a b => a.time ≤ b.time) →
      st.current < finishDate → E.rnd st.availHours = st.availHours →
      osaTail E finishDate (osaLoop E startDate finishDate l st) =
        osaTail E finishDate (sweepWalk (floatArith E) startDate finishDate l st) := by
  intro l
  induction l with
  | nil => intro st _ _ _; rfl
  | cons e t ih =>
    intro st hp hc hf
    rw [List.pairwise_cons] at hp
    by_cases h1 : e.time < startDate
    · rw [osaLoop, sweepWalk, if_pos h1, if_pos h1]
      exact ih ⟨e.end_, st.current, st.availHours⟩ hp.2 hc hf
    · by_cases h2 : finishDate ≤ e.time
      · have hall : ∀ x ∈ e :: t, finishDate ≤ x.time := by
          intro x hx
          rw [List.mem_cons] at hx
          rcases hx with rfl | hx
          · exact h2
          · exact le_trans h2 (hp.1 x hx)
        rw [osaTail_after h0 hidem startDate finishDate hwin (e :: t) st hall (le_of_lt hc) hf,
          sweepWalk, if_neg h1, if_pos h2]
      · have h3 : ¬ e.time > finishDate := fun h => h2 (le_of_lt h)
        rw [osaLoop, sweepWalk, if_neg h1, if_neg h1, if_neg h3, if_neg h2]
        by_cases hb : st.balance > 0
        · simp only [if_pos hb]
          exact ih ⟨e.end_, e.time, _⟩ hp.2 (not_le.mp h2) (hidem _)
        · simp only [if_neg hb]
          exact ih ⟨e.end_, e.time, st.availHours⟩ hp.2 (not_le.mp h2) hf

theorem calculateOSA_eq_sweep (E : Env) (hE : E.Sound) (h0 : E.rnd 0 = 0)
    (hidem : ∀ x, E.rnd (E.rnd x) = E.rnd x) (hsign : ∀ x, x ≤ 0 → E.rnd x ≤ 0)
    (events : List StockEvent) (startDate finishDate : Time) :
    calculateOSA E events startDate finishDate =
      availabilitySweep (floatArith E) (E.sortSlice StockEvent eventLess) events startDate
        finishDate := by
  by_cases hwin : startDate < finishDate
  · rw [calculateOSA_unfold, availabilitySweep_float]
    by_cases hlen : events.length = 0
    · rw [if_pos hlen, if_pos hlen]
    · rw [if_neg hlen, if_neg hlen]
      have hsorted : (E.sortSlice StockEvent eventLess events).Pairwise
          (fun a b => a.time ≤ b.time) := by
        refine (hE.sort_sorted StockEvent eventLess events eventLess_strictWeak).imp ?_
        intro a b hab
        have h1 : ¬ b.time < a.time := by simpa [eventLess] using hab
        exact not_lt.mp h1
      cases hs : E.sortSlice StockEvent eventLess events with
      | nil => rfl
      | cons first rest =>
        rw [hs] at hsorted
        simp only
        rw [osaTail_walk h0 hidem startDate finishDate hwin (first :: rest) _ hsorted hwin h0]
  · have hT := hoursOf_nonpos hsign _ (timeSub_nonpos finishDate startDate (not_lt.mp hwin))
    rw [calculateOSA_of_total_nonpos E events startDate finishDate hT, availabilitySweep_float]
    split_ifs
    · rfl
    · cases E.sortSlice StockEvent eventLess events with
      | nil => rfl
      | cons first rest =>
        simp only [osaRatio, if_pos hT]

theorem timeSub_of_range (t u : Time) (h1 : minDuration ≤ t - u) (h2 : t - u ≤ maxDuration) :
    timeSub t u = t - u := by
  unfold timeSub
  rw [if_neg (not_lt.mpr h2), if_neg (not_lt.mpr h1)]

theorem roundHalfAway_percent (r : ℚ) :
    roundHalfAway 100 (r * 100) = mathRound (r * 10000) / 100 := by
  unfold roundHalfAway mathRound
  have e1 : r * 100 * 100 = r * 10000 := by ring
  by_cases h : 0 ≤ r
  · rw [if_pos (by linarith), if_pos (by linarith), e1]
  · rw [if_neg (by linarith), if_neg (by linarith), e1, neg_div]

/-- In exact arithmetic and inside a window that fits a `Duration`, the hours
of the code are the hours of the real numbers. -/
theorem floatArith_hours_exact {E : Env} (hx : ∀ x, E.rnd x = x) (t u : Time)
    (h1 : minDuration ≤ t - u) (h2 : t - u ≤ maxDuration) :
    (floatArith E).hours t u = realArith.hours t u := by
  show hoursOf E.rnd (timeSub t u) = ((t - u : Int) : ℚ) / 3600000000000
  rw [hoursOf_exact hx, timeSub_of_range t u h1 h2]

theorem sweepWalk_exact {E : Env} (hx : ∀ x, E.rnd x = x) (startDate finishDate : Time)
    (hfit : finishDate - startDate ≤ maxDuration) :
    ∀ (l : List StockEvent) (st : OsaState), startDate ≤ st.current →
      st.current < finishDate →
      sweepWalk (floatArith E) startDate finishDate l st =
        sweepWalk realArith startDate finishDate l st ∧
      startDate ≤ (sweepWalk realArith startDate finishDate l st).current ∧
      (sweepWalk realArith startDate finishDate l st).current < finishDate := by
  intro l
  induction l with
  | nil => intro st h1 h2; exact ⟨rfl, h1, h2⟩
  | cons e t ih =>
    intro st hc1 hc2
    by_cases h1 : e.time < startDate
    · rw [sweepWalk, sweepWalk, if_pos h1, if_pos h1]
      exact ih ⟨e.end_, st.current, st.availHours⟩ hc1 hc2
    · by_cases h2 : finishDate ≤ e.time
      · rw [sweepWalk, sweepWalk, if_neg h1, if_neg h1, if_pos h2, if_pos h2]
        exact ⟨rfl, hc1, hc2⟩
      · rw [sweepWalk, sweepWalk, if_neg h1, if_neg h1, if_neg h2, if_neg h2]
        have he1 : startDate ≤ e.time := not_lt.mp h1
        have he2 : e.time < finishDate := not_le.mp h2
        have hmin : minDuration ≤ -maxDuration := by decide
        have hr1 : minDuration ≤ e.time - st.current := by
          have : -maxDuration ≤ e.time - st.current := by linarith
          exact le_trans hmin this
        have hr2 : e.time - st.current ≤ maxDuration := by linarith
        have hh := floatArith_hours_exact hx e.time st.current hr1 hr2
        have hadd : ∀ a b, (floatArith E).add a b = realArith.add a b := by
          intro a b
          show E.rnd (a + b) = a + b
          exact hx _
        rw [hh, hadd]
        exact ih ⟨e.end_, e.time, _⟩ he1 he2

theorem availabilitySweep_exact {E : Env} (hx : ∀ x, E.rnd x = x)
    (sorted : List StockEvent → List StockEvent) (events : List StockEvent)
    (startDate finishDate : Time) (hfit : finishDate - startDate ≤ maxDuration) :
    availabilitySweep (floatArith E) sorted events startDate finishDate =
      availabilitySweep realArith sorted events startDate finishDate := by
  cases events with
  | nil => rfl
  | cons e0 t0 =>
    unfold availabilitySweep
    simp only
    cases sorted (e0 :: t0) with
    | nil => rfl
    | cons first rest =>
      simp only
      by_cases hwin : startDate < finishDate
      · obtain ⟨hw, hc1, hc2⟩ := sweepWalk_exact hx startDate finishDate hfit (first :: rest)
          { balance := first.start, current := startDate, availHours := 0 } (le_refl _) hwin
        have hmin : minDuration ≤ 0 := by decide
        have htot : (floatArith E).hours finishDate startDate
            = realArith.hours finishDate startDate :=
          floatArith_hours_exact hx _ _ (le_trans hmin (le_of_lt (sub_pos.mpr hwin))) hfit
        have htail : (floatArith E).hours finishDate
            (sweepWalk realArith startDate finishDate (first :: rest)
              { balance := first.start, current := startDate, availHours := 0 }).current
            = realArith.hours finishDate
              (sweepWalk realArith startDate finishDate (first :: rest)
                { balance := first.start, current := startDate, availHours := 0 }).current :=
          floatArith_hours_exact hx _ _ (le_trans hmin (le_of_lt (sub_pos.mpr hc2)))
            (by linarith)
        have hadd : ∀ a b, (floatArith E).add a b = realArith.add a b := by
          intro a b
          show E.rnd (a + b) = a + b
          exact hx _
        have hper : ∀ a b, (floatArith E).percent a b = realArith.percent a b := by
          intro a b
          show E.rnd (mathRound (E.rnd (E.rnd (a / b) * 10000)) / 100)
            = roundHalfAway 100 (a / b * 100)
          rw [hx, hx, hx, roundHalfAway_percent]
        rw [hw, htot, htail, hadd, hper]
      · have hle : finishDate ≤ startDate := not_lt.mp hwin
        have h1 : (floatArith E).hours finishDate startDate ≤ 0 := by
          show hoursOf E.rnd (timeSub finishDate startDate) ≤ 0
          exact hoursOf_nonpos (fun x hx0 => by rw [hx]; exact hx0) _
            (timeSub_nonpos finishDate startDate hle)
        have h2 : realArith.hours finishDate startDate ≤ 0 := by
          show ((finishDate - startDate : Int) : ℚ) / 3600000000000 ≤ 0
          apply div_nonpos_of_nonpos_of_nonneg
          · exact_mod_cast sub_nonpos.mpr hle
          · norm_num
        rw [if_pos h1, if_pos h2]

/-- C26 fails as stated: on 1 January 2024 (a window of 24 hours), with a
positive balance from 00:00 to 00:09 and a zero balance afterwards, the
available hours are 0.15 of 24, that is 0.625 percent, which the sweep of the
specification rounds to 0.63; `calculateOSA` returns 0.62 (the binary64
nearest to it), because the `float64` product of the ratio by 10000 is
62.49999999999999. -/
theorem calculateOSA_not_real_sweep :
    calculateOSA f64Env
        [⟨63839664000000000000, 10, 10⟩, ⟨63839664540000000000, 10, 0⟩]
        63839664000000000000 63839750400000000000 = roundF64 (62 / 100) ∧
      availabilitySweep realArith (f64Env.sortSlice StockEvent eventLess)
        [⟨63839664000000000000, 10, 10⟩, ⟨63839664540000000000, 10, 0⟩]
        63839664000000000000 63839750400000000000 = 63 / 100 ∧
      roundF64 (62 / 100) ≠ 63 / 100 ∧ roundF64 (62 / 100) ≠ roundF64 (63 / 100) ∧
      parseDateTime "01.01.2024 00:09:00" = some 63839664540000000000 ∧
      roundF64 (roundF64 (hoursOf roundF64 540000000000 / 24) * 10000)
        = 8796093022207999 / 140737488355328 := by
  decide!

/-! ## The rounding of the result fields -/

theorem mathRound_int (y : ℚ) : ∃ k : Int, mathRound y = (k : ℚ) := by
  unfold mathRound
  split_ifs
  · exact ⟨⌊y + 1 / 2⌋, rfl⟩
  · exact ⟨-⌊-y + 1 / 2⌋, by push_cast; rfl⟩

theorem roundTo_int (E : Env) (scale x : ℚ) :
    ∃ k : Int, roundTo E scale x = E.rnd ((k : ℚ) / scale) := by
  obtain ⟨k, hk⟩ := mathRound_int (E.rnd (x * scale))
  exact ⟨k, by unfold roundTo; rw [hk]⟩

theorem roundTo_exact {E : Env} (hx : ∀ x, E.rnd x = x) (scale x : ℚ) (hs : 0 < scale) :
    roundTo E scale x = roundHalfAway scale x := by
  unfold roundTo roundHalfAway mathRound
  rw [hx, hx]
  by_cases h : 0 ≤ x
  · rw [if_pos (mul_nonneg h (le_of_lt hs)), if_pos h]
  · have h2 : ¬ 0 ≤ x * scale := by
      intro h3
      exact h (nonneg_of_mul_nonneg_left h3 hs)
    rw [if_neg h2, if_neg h, neg_div]

theorem calculateOSA_int (E : Env) (h0 : E.rnd 0 = 0) (events : List StockEvent)
    (startDate finishDate : Time) :
    ∃ k : Int, calculateOSA E events startDate finishDate = E.rnd ((k : ℚ) / 100) := by
  have hzero : (0 : ℚ) = E.rnd (((0 : Int) : ℚ) / 100) := by
    rw [Int.cast_zero, zero_div, h0]
  rw [calculateOSA_unfold]
  split_ifs
  · exact ⟨0, hzero⟩
  · cases E.sortSlice StockEvent eventLess events with
    | nil => exact ⟨0, hzero⟩
    | cons first rest =>
      simp only [osaRatio]
      split_ifs
      · exact ⟨0, hzero⟩
      · obtain ⟨k, hk⟩ := mathRound_int (E.rnd (E.rnd
          (osaTail E finishDate (osaLoop E startDate finishDate (first :: rest)
            { balance := first.start, current := startDate, availHours := 0 }) /
            hoursOf E.rnd (timeSub finishDate startDate)) * 10000))
        exact ⟨k, by rw [hk]⟩

theorem calculateOSA_exact_form {E : Env} (hx : ∀ x, E.rnd x = x) (events : List StockEvent)
    (startDate finishDate : Time) :
    calculateOSA E events startDate finishDate = 0 ∨
      ∃ availHours : ℚ, calculateOSA E events startDate finishDate =
        roundHalfAway 100
          (availHours / hoursOf E.rnd (timeSub finishDate startDate) * 100) := by
  rw [calculateOSA_unfold]
  split_ifs
  · exact Or.inl rfl
  · cases E.sortSlice StockEvent eventLess events with
    | nil => exact Or.inl rfl
    | cons first rest =>
      simp only [osaRatio]
      split_ifs
      · exact Or.inl rfl
      · refine Or.inr ⟨osaTail E finishDate (osaLoop E startDate finishDate (first :: rest)
          { balance := first.start, current := startDate, availHours := 0 }), ?_⟩
        rw [hx, hx, hx, roundHalfAway_percent]

/-- The four rounded fields of every item that `processDataParallel` returns. -/
theorem processDataParallel_fields (E : Env) (hE : E.Sound) (W : Int) (hW : 1 ≤ W)
    (stockData : List StockItem) (salesData : List SalesItem) (startDate finishDate : Time) :
    ∃ chunks items,
      splitIntoChunks { workers := W } stockData = .ok chunks ∧
      processDataParallel E { workers := W } stockData salesData startDate finishDate
        = .ok items ∧
      ∀ it ∈ items,
        it.sales = roundTo E 100 (totalAmount E salesData it.code) ∧
        it.loss = roundTo E 100 (lossAmountOf E
          (GoMap.getD (collect E (workerResults E { workers := W } chunks startDate
            finishDate)).2 it.code 0) salesData it.code) ∧
        it.lossOfProfit = roundTo E 1000 (lossPercentOf E
          (GoMap.getD (collect E (workerResults E { workers := W } chunks startDate
            finishDate)).2 it.code 0) salesData it.code) ∧
        it.osa = calculateOSA E
          (GoMap.getD (collect E (workerResults E { workers := W } chunks startDate
            finishDate)).1 it.code []) startDate finishDate := by
  obtain ⟨chunks, items, h1, h, hall⟩ :=
    processDataParallel_items E hE W hW stockData salesData startDate finishDate
  refine ⟨chunks, items, h1, h, ?_⟩
  intro it hit
  obtain ⟨hne, heq⟩ := hall it hit
  obtain ⟨hprice, hamt⟩ := priceMap_avgPrice hE salesData it.code hne
  refine ⟨?_, ?_, ?_, ?_⟩
  · rw [← hamt]
    conv_lhs => rw [heq]
    rfl
  · unfold lossAmountOf
    rw [← hprice]
    conv_lhs => rw [heq]
    rfl
  · unfold lossPercentOf lossAmountOf
    rw [← hprice, ← hamt]
    conv_lhs => rw [heq]
    rfl
  · conv_lhs => rw [heq]
    rfl

/-- C21 fails as stated: in binary64, one sales record with the amount 0.015
(the `float64` nearest to it, which is below 0.015) gives `Sales` 0.02 (the
`float64` nearest to it), because the `float64` product by 100 is exactly 1.5;
rounding the amount itself half away from zero to 2 decimals gives 0.01. And
the `float64` nearest to 0.02 is not a multiple of 0.01. -/
theorem processDataParallel_sales_not_half_away :
    ((processDataParallel f64Env { workers := 2 } []
          [⟨"1001", "", 1, roundF64 (15 / 1000)⟩] 0 86400000000000).map
        (fun items => items.map (fun (it : ItemAnalyticsResult) => it.sales))
        = .ok [roundF64 (2 / 100)] ∧
      roundF64 (15 / 1000) = 1080863910568919 / 72057594037927936 ∧
      roundF64 (15 / 1000) < 15 / 1000 ∧
      roundF64 (roundF64 (15 / 1000) * 100) = 3 / 2 ∧
      roundHalfAway 100 (roundF64 (15 / 1000)) = 1 / 100 ∧
      roundF64 (2 / 100) = 5764607523034235 / 288230376151711744 ∧
      roundF64 (2 / 100) ≠ roundF64 (1 / 100)) ∧
    ∀ k : Int, roundF64 (2 / 100) ≠ (k : ℚ) / 100 := by
  refine ⟨by decide!, ?_⟩
  intro k hk
  have hv : roundF64 (2 / 100) = 5764607523034235 / 288230376151711744 := by decide!
  rw [hv] at hk
  have h1 : (2 : ℚ) < k := by
    have : (2 : ℚ) / 100 < (k : ℚ) / 100 := by rw [← hk]; norm_num
    linarith
  have h2 : (k : ℚ) < 3 := by
    have : (k : ℚ) / 100 < 3 / 100 := by rw [← hk]; norm_num
    linarith
  have h3 : (2 : Int) < k := by exact_mod_cast h1
  have h4 : k < (3 : Int) := by exact_mod_cast h2
  omega

/-! ## The label of the last item -/

theorem abcLoop_getLast (E : Env) (h1 : E.rnd 1 = 1) (h100 : E.rnd 100 = 100)
    (items : List ItemAnalyticsResult) (hpos : 0 < abcTotal E items) :
    (abcLoop E (abcTotal E items) 0 items).getLast? =
      (items.getLast?).map (fun it => { it with abc := "C" }) := by
  have hne : items ≠ [] := by
    rintro rfl
    simp [abcTotal] at hpos
  have hlen : 0 < items.length := List.length_pos.mpr hne
  rw [List.getLast?_eq_getElem?, List.getLast?_eq_getElem?, abcLoop_length, abcLoop_get]
  have htake : items.take (items.length - 1 + 1) = items := by
    rw [Nat.sub_add_cancel hlen, List.take_length]
  rw [htake]
  have htot : items.foldl (fun t x => E.rnd (t + x.sales)) 0 = abcTotal E items := rfl
  rw [htot, div_self (ne_of_gt hpos), h1, one_mul, h100]
  have hC : abcLabel 100 = "C" := by decide!
  rw [hC]

/-- C31: for every item list whose total sales, as the classifier adds them
up, is positive (such a list is not empty), `calculateABCClassification` turns
the last item into itself with the label `C`: its cumulative sum is the total,
so its share is exactly 100. In particular a single item with positive sales
is labelled `C`. The rounding is any one that is exact on the integers below
`2 ^ 53`. -/
theorem abc_last_is_C (E : Env) (hsmall : ∀ n : ℕ, n < 2 ^ 53 → E.rnd (n : ℚ) = n)
    (items : List ItemAnalyticsResult) (hpos : 0 < abcTotal E items) :
    (∃ last, items.getLast? = some last ∧
        (calculateABCClassification E items).getLast? = some { last with abc := "C" }) ∧
      shareOf E items (items.length - 1) = 100 ∧
      (∀ it : ItemAnalyticsResult, E.rnd it.sales = it.sales → 0 < it.sales →
        calculateABCClassification E [it] = [{ it with abc := "C" }]) := by
  have h0 : E.rnd 0 = 0 := by simpa using hsmall 0 (by norm_num)
  have h1 : E.rnd 1 = 1 := by simpa using hsmall 1 (by norm_num)
  have h100 : E.rnd 100 = 100 := by simpa using hsmall 100 (by norm_num)
  have hC : abcLabel 100 = "C" := by decide!
  have hne : items ≠ [] := by
    rintro rfl
    simp [abcTotal] at hpos
  have hlen : 0 < items.length := List.length_pos.mpr hne
  have hcalc : ∀ l : List ItemAnalyticsResult, 0 < abcTotal E l →
      calculateABCClassification E l = abcLoop E (abcTotal E l) 0 l := by
    intro l hl
    have hl0 : ¬ l.length = 0 := by
      intro h
      have : l = [] := List.length_eq_zero.mp h
      subst this
      simp [abcTotal] at hl
    unfold calculateABCClassification
    rw [if_neg hl0, if_neg (not_le.mpr hl)]
  refine ⟨?_, ?_, ?_⟩
  · refine ⟨items.getLast hne, List.getLast?_eq_getLast _ hne, ?_⟩
    rw [hcalc items hpos, abcLoop_getLast E h1 h100 items hpos, List.getLast?_eq_getLast _ hne]
    rfl
  · unfold shareOf
    rw [Nat.sub_add_cancel hlen, List.take_length, div_self (ne_of_gt hpos), h1, one_mul, h100]
  · intro it hrep hs
    have htot : abcTotal E [it] = it.sales := by
      simp [abcTotal, hrep]
    have hp : 0 < abcTotal E [it] := by rw [htot]; exact hs
    rw [hcalc [it] hp]
    simp only [abcLoop, htot, zero_add, hrep, div_self (ne_of_gt hs), h1, one_mul, h100, hC]

/-- C31, in binary64, at the sales `1000, 500, 200, 100` and at a single item
with the sales `0.01`. -/
theorem abc_last_is_C_witness :
    (calculateABCClassification f64Env
        [⟨"", "1", "", 1000, 0, 0, 0, ""⟩, ⟨"", "2", "", 500, 0, 0, 0, ""⟩,
          ⟨"", "3", "", 200, 0, 0, 0, ""⟩, ⟨"", "4", "", 100, 0, 0, 0, ""⟩]).getLast?
      = some ⟨"", "4", "", 100, 0, 0, 0, "C"⟩ ∧
    calculateABCClassification f64Env [⟨"", "1", "", roundF64 (1 / 100), 0, 0, 0, ""⟩]
      = [⟨"", "1", "", roundF64 (1 / 100), 0, 0, 0, "C"⟩] := by
  constructor
  · obtain ⟨last, h1, h2⟩ := (abc_last_is_C f64Env f64Env_small
      [⟨"", "1", "", 1000, 0, 0, 0, ""⟩, ⟨"", "2", "", 500, 0, 0, 0, ""⟩,
        ⟨"", "3", "", 200, 0, 0, 0, ""⟩, ⟨"", "4", "", 100, 0, 0, 0, ""⟩] (by decide!)).1
    simp only [List.getLast?_cons_cons, List.getLast?_singleton, Option.some.injEq] at h1
    rw [h2, ← h1]
  · exact (abc_last_is_C f64Env f64Env_small
      [⟨"", "1", "", 1000, 0, 0, 0, ""⟩] (by decide!)).2.2
      ⟨"", "1", "", roundF64 (1 / 100), 0, 0, 0, ""⟩ (roundF64_idem _) (by decide!)

/-! ## `splitIntoChunks` and the range of `int` -/

theorem wrap64_of_range (x : Int) (h0 : -9223372036854775808 ≤ x)
    (h1 : x < 9223372036854775808) : wrap64 x = x := by
  unfold wrap64
  omega

theorem wrap64_sum (n W : Int) (h0 : 0 ≤ n) (hW : 1 ≤ W) (hW2 : W < 9223372036854775808)
    (h : n + W ≤ 9223372036854775808) : wrap64 (wrap64 (n + W) - 1) = n + W - 1 := by
  unfold wrap64
  omega

theorem chunkSize_le (n : Nat) (W : Int) (hW : 1 ≤ W) :
    0 ≤ Int.tdiv ((n : Int) + W - 1) W ∧ Int.tdiv ((n : Int) + W - 1) W ≤ n ∧
      (Int.tdiv ((n : Int) + W - 1) W = 0 ↔ n = 0) := by
  rw [chunkSize_eq n W hW]
  obtain ⟨w, rfl⟩ := Int.eq_ofNat_of_zero_le (by omega : 0 ≤ W)
  rw [Int.toNat_ofNat]
  have hw : 1 ≤ w := by omega
  have hle : (n + w - 1) / w ≤ n := by
    rw [Nat.div_le_iff_le_mul_add_pred (by omega)]
    have : n ≤ w * n := Nat.le_mul_of_pos_left n (by omega)
    omega
  have hzero : (n + w - 1) / w = 0 ↔ n = 0 := by
    rw [Nat.div_eq_zero_iff (by omega)]
    omega
  refine ⟨by positivity, by exact_mod_cast hle, ?_⟩
  constructor
  · intro h
    exact hzero.mp (by exact_mod_cast h)
  · intro h
    exact_mod_cast hzero.mpr h

theorem chunkSize64_eq (data : List StockItem) (W : Int) (hW : 1 ≤ W)
    (hW2 : W < 9223372036854775808)
    (hsum : (data.length : Int) + W ≤ 9223372036854775808) :
    chunkSize64 { workers := W } data = Int.tdiv ((data.length : Int) + W - 1) W := by
  obtain ⟨h0, h1, -⟩ := chunkSize_le data.length W hW
  unfold chunkSize64
  simp only
  rw [wrap64_sum _ W (Int.ofNat_nonneg _) hW hW2 hsum, wrap64_of_range _ (by omega) (by omega)]

theorem splitLoop64_eq (data : List StockItem) (cs : Int) (hcs : 0 ≤ cs)
    (hfit : (data.length : Int) + cs < 9223372036854775808) :
    ∀ (fuel : Nat) (i : Int) (chunks : List Chunk), 0 ≤ i →
      splitLoop64 data cs fuel i chunks = splitLoop data cs fuel i chunks := by
  intro fuel
  induction fuel with
  | zero => intro i chunks _; rfl
  | succ fuel ih =>
    intro i chunks hi
    unfold splitLoop64 splitLoop
    by_cases h : i < data.length
    · rw [if_pos h, if_pos h]
      have hw : wrap64 (i + cs) = i + cs := wrap64_of_range _ (by omega) (by omega)
      have hq0 : 0 ≤ Int.tdiv i cs := Int.tdiv_nonneg hi hcs
      have hq1 : Int.tdiv i cs ≤ i := by
        by_cases hc0 : cs = 0
        · subst hc0
          simp only [Int.tdiv_zero]
          exact hi
        · have hcpos : 0 < cs := lt_of_le_of_ne hcs (Ne.symm hc0)
          have hm := Int.tdiv_add_tmod i cs
          have hr := Int.tmod_nonneg cs hi
          have hmul : Int.tdiv i cs ≤ cs * Int.tdiv i cs :=
            le_mul_of_one_le_left hq0 hcpos
          omega
      have hwq : wrap64 (Int.tdiv i cs) = Int.tdiv i cs :=
        wrap64_of_range _ (by omega) (by omega)
      simp only [hw, hwq]
      split_ifs <;> first | rfl | exact ih _ _ (by omega)
    · rw [if_neg h, if_neg h]

/-- As long as `len(data) + W ≤ 2 ^ 63` (and the slice has fewer than `2 ^ 62`
records), `splitIntoChunks` in 64-bit arithmetic is `splitIntoChunks` over the
integers. -/
theorem splitIntoChunks64_eq (data : List StockItem) (W : Int) (hW : 1 ≤ W)
    (hW2 : W < 9223372036854775808)
    (hsum : (data.length : Int) + W ≤ 9223372036854775808)
    (hlen : (data.length : Int) < 4611686018427387904) :
    splitIntoChunks64 { workers := W } data = splitIntoChunks { workers := W } data := by
  obtain ⟨h0, h1, -⟩ := chunkSize_le data.length W hW
  unfold splitIntoChunks64 splitIntoChunks
  simp only
  rw [if_neg (by omega), if_neg (by omega), chunkSize64_eq data W hW hW2 hsum]
  exact splitLoop64_eq data _ h0 (by omega) _ 0 [] (le_refl 0)

/-- In the range of `splitIntoChunks64_eq`, `splitIntoChunks` in 64-bit
arithmetic returns, divides by no zero and makes no slice out of bounds: the
chunk size is 0 exactly for the empty ledger, for which no chunk is returned;
otherwise it is at least 1, the loop index increases at every iteration, and
the loop ends within every number of iterations above `len(data)`. -/
theorem splitIntoChunks64_safe (data : List StockItem) (W : Int) (hW : 1 ≤ W)
    (hW2 : W < 9223372036854775808)
    (hsum : (data.length : Int) + W ≤ 9223372036854775808)
    (hlen : (data.length : Int) < 4611686018427387904) :
    (∃ chunks, splitIntoChunks64 { workers := W } data = .ok chunks ∧
        chunkItems chunks = data ∧ (data = [] → chunks = []) ∧
        ∀ fuel : Nat, data.length < fuel →
          splitLoop64 data (chunkSize64 { workers := W } data) fuel 0 [] = .ok chunks) ∧
      (chunkSize64 { workers := W } data = 0 ↔ data = []) ∧
      (data ≠ [] → 1 ≤ chunkSize64 { workers := W } data ∧
        ∀ i : Int, 0 ≤ i → i < data.length →
          i < wrap64 (i + chunkSize64 { workers := W } data)) := by
  obtain ⟨h0, h1, hz⟩ := chunkSize_le data.length W hW
  have hcs := chunkSize64_eq data W hW hW2 hsum
  have hzero : chunkSize64 { workers := W } data = 0 ↔ data = [] := by
    rw [hcs, hz, List.length_eq_zero]
  refine ⟨?_, hzero, ?_⟩
  · obtain ⟨chunks, hsplit, hcat⟩ := splitIntoChunks_spec data W hW
    have hnilc : data = [] → chunks = [] := by
      intro hnil
      subst hnil
      have : splitIntoChunks { workers := W } [] = .ok [] := by
        unfold splitIntoChunks
        simp only
        rw [if_neg (by omega)]
        rfl
      rw [this] at hsplit
      simp only [Except.ok.injEq] at hsplit
      exact hsplit.symm
    refine ⟨chunks, ?_, hcat, hnilc, ?_⟩
    · rw [splitIntoChunks64_eq data W hW hW2 hsum hlen, hsplit]
    · intro fuel hfuel
      rw [hcs, splitLoop64_eq data _ h0 (by omega) fuel 0 [] (le_refl 0),
        chunkSize_eq data.length W hW]
      have hclosed := splitIntoChunks_closed_int data W hW
      rw [hsplit] at hclosed
      by_cases hn : data.length = 0
      · have hd : data = [] := List.length_eq_zero.mp hn
        have hch : chunks = [] := hnilc hd
        subst hd
        subst hch
        cases fuel with
        | zero => simp at hfuel
        | succ f => simp [splitLoop]
      · have hc1 : 1 ≤ (data.length + W.toNat - 1) / W.toNat := by
          have := (hz.not.mpr hn)
          rw [chunkSize_eq data.length W hW] at this
          have h2 : (data.length + W.toNat - 1) / W.toNat ≠ 0 := by
            intro h3
            exact this (by exact_mod_cast h3)
          exact Nat.one_le_iff_ne_zero.mpr h2
        have hl := splitLoop_closed data ((data.length + W.toNat - 1) / W.toNat) hc1 fuel 0 []
          (by simpa using hfuel)
        simp only [Nat.zero_mul, Nat.cast_zero, List.nil_append, Nat.sub_zero] at hl
        rw [hl, hclosed]
        simp [ceilDiv, List.range_eq_range']
  · intro hne
    have hpos : 1 ≤ chunkSize64 { workers := W } data := by
      have hnz : chunkSize64 { workers := W } data ≠ 0 := fun h => hne (hzero.mp h)
      rw [hcs] at hnz ⊢
      omega
    refine ⟨hpos, ?_⟩
    intro i hi0 hi1
    rw [hcs] at hpos ⊢
    rw [wrap64_of_range _ (by omega) (by omega)]
    omega

/-- C32 fails on the code for a worker count near the largest `int`: with
`9223372036854775807` workers, which `SetWorkers` accepts, and a ledger of four
records, `len(data) + s.workers - 1` wraps around to `-9223372036854775806`, the
chunk size is 0 although the ledger is not empty, and the first iteration of
the loop divides the index by it; with a ledger of two records the sum wraps
to `-9223372036854775808`, the chunk size is `-1` and the first slice
expression is out of bounds. -/
theorem splitIntoChunks64_divides_by_zero :
    SetWorkers (NewService 4) 9223372036854775807 = { workers := 9223372036854775807 } ∧
      wrap64 (wrap64 (4 + 9223372036854775807) - 1) = -9223372036854775806 ∧
      chunkSize64 { workers := 9223372036854775807 }
        [⟨"1001", "", "", "", 0, 0, ""⟩, ⟨"1002", "", "", "", 0, 0, ""⟩,
          ⟨"1003", "", "", "", 0, 0, ""⟩, ⟨"1004", "", "", "", 0, 0, ""⟩] = 0 ∧
      splitIntoChunks64 { workers := 9223372036854775807 }
        [⟨"1001", "", "", "", 0, 0, ""⟩, ⟨"1002", "", "", "", 0, 0, ""⟩,
          ⟨"1003", "", "", "", 0, 0, ""⟩, ⟨"1004", "", "", "", 0, 0, ""⟩]
        = .error .divideByZero ∧
      chunkSize64 { workers := 9223372036854775807 }
        [⟨"1001", "", "", "", 0, 0, ""⟩, ⟨"1002", "", "", "", 0, 0, ""⟩] = -1 ∧
      splitIntoChunks64 { workers := 9223372036854775807 }
        [⟨"1001", "", "", "", 0, 0, ""⟩, ⟨"1002", "", "", "", 0, 0, ""⟩]
        = .error .sliceBounds := by
  decide

/-! ## The chunks returned in 64-bit arithmetic -/

/-- In the range of `splitIntoChunks64_eq`, the chunks returned by
`splitIntoChunks` in 64-bit arithmetic are the pieces `0, ..., ceil(N / S) - 1`
of `S = ceil(N / W)` records. -/
theorem splitIntoChunks64_closed (data : List StockItem) (W : Int) (hW : 1 ≤ W)
    (hW2 : W < 9223372036854775808)
    (hsum : (data.length : Int) + W ≤ 9223372036854775808)
    (hlen : (data.length : Int) < 4611686018427387904) :
    splitIntoChunks64 { workers := W } data =
      .ok ((List.range (ceilDiv data.length (ceilDiv data.length W.toNat))).map
        (chunkAt data (ceilDiv data.length W.toNat))) := by
  rw [splitIntoChunks64_eq data W hW hW2 hsum hlen]
  exact splitIntoChunks_closed_int data W hW

/-- In the range of `splitIntoChunks64_eq`, `splitIntoChunks` in 64-bit
arithmetic returns chunks whose items, concatenated in the order the chunks are
returned, are the ledger. -/
theorem splitIntoChunks64_concat (data : List StockItem) (W : Int) (hW : 1 ≤ W)
    (hW2 : W < 9223372036854775808)
    (hsum : (data.length : Int) + W ≤ 9223372036854775808)
    (hlen : (data.length : Int) < 4611686018427387904) :
    ∃ chunks, splitIntoChunks64 { workers := W } data = .ok chunks ∧
      (chunks.map (fun c => c.items)).flatten = data := by
  rw [splitIntoChunks64_eq data W hW hW2 hsum hlen]
  exact splitIntoChunks_spec data W hW

/-- In the range of `splitIntoChunks64_eq`, every chunk returned by
`splitIntoChunks` in 64-bit arithmetic except the last contains exactly
`ceil(N / W)` records, and the last chunk contains at least 1 and at most
`ceil(N / W)` records. -/
theorem splitIntoChunks64_sizes (data : List StockItem) (W : Int) (hW : 1 ≤ W)
    (hW2 : W < 9223372036854775808)
    (hsum : (data.length : Int) + W ≤ 9223372036854775808)
    (hlen : (data.length : Int) < 4611686018427387904) :
    ∃ chunks, splitIntoChunks64 { workers := W } data = .ok chunks ∧
      ∀ (i : Nat) (hi : i < chunks.length),
        (i + 1 < chunks.length → chunks[i].items.length = ceilDiv data.length W.toNat) ∧
        (i + 1 = chunks.length →
          1 ≤ chunks[i].items.length ∧ chunks[i].items.length ≤ ceilDiv data.length W.toNat) := by
  refine ⟨_, splitIntoChunks64_closed data W hW hW2 hsum hlen, ?_⟩
  intro i hi
  have hi' : i < ceilDiv data.length (ceilDiv data.length W.toNat) := by
    simpa using hi
  have hS : 1 ≤ ceilDiv data.length W.toNat := by
    by_contra h
    have h0 : ceilDiv data.length W.toNat = 0 := by omega
    rw [h0] at hi'
    simp [ceilDiv] at hi'
  have hget : ((List.range (ceilDiv data.length (ceilDiv data.length W.toNat))).map
      (chunkAt data (ceilDiv data.length W.toNat)))[i] =
      chunkAt data (ceilDiv data.length W.toNat) i := by
    simp
  rw [hget, chunkAt_length]
  have hlt := mul_lt_of_lt_ceilDiv hS hi'
  constructor
  · intro hnext
    have hnext' : i + 1 < ceilDiv data.length (ceilDiv data.length W.toNat) := by
      simpa using hnext
    have := mul_lt_of_lt_ceilDiv hS hnext'
    have hmul : (i + 1) * ceilDiv data.length W.toNat =
        i * ceilDiv data.length W.toNat + ceilDiv data.length W.toNat := by ring
    omega
  · intro _
    omega

/-- C1 fails on the code for a worker count near the largest `int`: with
`9223372036854775807` workers, which `SetWorkers` accepts, and a ledger of three
records, `len(data) + s.workers - 1` wraps around to `-9223372036854775807`, the
chunk size is `-1`, the first slice expression `data[0:-1]` is out of bounds and
the run ends in a panic: no chunk is returned, so the chunks do not reproduce
the ledger. With two workers the same ledger is returned in two chunks. -/
theorem splitIntoChunks64_concat_fails :
    SetWorkers (NewService 4) 9223372036854775807 = { workers := 9223372036854775807 } ∧
      wrap64 (wrap64 (3 + 9223372036854775807) - 1) = -9223372036854775807 ∧
      chunkSize64 { workers := 9223372036854775807 }
        [⟨"1001", "", "", "", 0, 0, ""⟩, ⟨"1002", "", "", "", 0, 0, ""⟩,
          ⟨"1003", "", "", "", 0, 0, ""⟩] = -1 ∧
      splitIntoChunks64 { workers := 9223372036854775807 }
        [⟨"1001", "", "", "", 0, 0, ""⟩, ⟨"1002", "", "", "", 0, 0, ""⟩,
          ⟨"1003", "", "", "", 0, 0, ""⟩] = .error .sliceBounds ∧
      (splitIntoChunks64 { workers := 2 }
        [⟨"1001", "", "", "", 0, 0, ""⟩, ⟨"1002", "", "", "", 0, 0, ""⟩,
          ⟨"1003", "", "", "", 0, 0, ""⟩]).map chunkItems =
        .ok [⟨"1001", "", "", "", 0, 0, ""⟩, ⟨"1002", "", "", "", 0, 0, ""⟩,
          ⟨"1003", "", "", "", 0, 0, ""⟩] := by
  decide

/-- C15, as amended: for every ledger of `N` records and every worker count
`W ≥ 1` with `N + W ≤ 2 ^ 63` (and `N < 2 ^ 62`), `splitIntoChunks`, in the
64-bit arithmetic of the code, returns exactly `ceil(N / S)` chunks, where
`S = ceil(N / W)` is the chunk size; this number is at most `W`. -/
theorem splitIntoChunks64_count (data : List StockItem) (W : Int) (hW : 1 ≤ W)
    (hW2 : W < 9223372036854775808)
    (hsum : (data.length : Int) + W ≤ 9223372036854775808)
    (hlen : (data.length : Int) < 4611686018427387904) :
    ∃ chunks, splitIntoChunks64 { workers := W } data = .ok chunks ∧
      chunks.length = ceilDiv data.length (ceilDiv data.length W.toNat) ∧
      (chunks.length : Int) ≤ W := by
  refine ⟨_, splitIntoChunks64_closed data W hW hW2 hsum hlen, ?_, ?_⟩
  · simp
  · have := ceilDiv_ceilDiv_le data.length W.toNat (by omega)
    simp only [List.length_map, List.length_range]
    omega

/-- C15, as amended, at a ledger of five records and four workers. -/
theorem splitIntoChunks64_count_witness :
    ∃ chunks, splitIntoChunks64 { workers := 4 }
        [⟨"1", "", "", "", 0, 0, ""⟩, ⟨"2", "", "", "", 0, 0, ""⟩, ⟨"3", "", "", "", 0, 0, ""⟩,
          ⟨"4", "", "", "", 0, 0, ""⟩, ⟨"5", "", "", "", 0, 0, ""⟩] = .ok chunks ∧
      chunks.length = ceilDiv 5 (ceilDiv 5 (4 : Int).toNat) ∧ (chunks.length : Int) ≤ 4 :=
  splitIntoChunks64_count _ 4 (by decide) (by decide) (by decide) (by decide)

/-- C16 fails on the code for a worker count near the largest `int`: with
`9223372036854775807` workers and a ledger of five records,
`len(data) + s.workers - 1` wraps around to `-9223372036854775805`, the chunk
size is 0 instead of `ceil(5 / W) = 1`, and the first iteration of the loop
divides the index by it: the run ends in a panic and no chunk is returned,
where five chunks of one record are due. With four workers the same ledger is
returned in chunks of 2, 2 and 1 records. -/
theorem splitIntoChunks64_sizes_fail :
    wrap64 (wrap64 (5 + 9223372036854775807) - 1) = -9223372036854775805 ∧
      chunkSize64 { workers := 9223372036854775807 }
        [⟨"1", "", "", "", 0, 0, ""⟩, ⟨"2", "", "", "", 0, 0, ""⟩, ⟨"3", "", "", "", 0, 0, ""⟩,
          ⟨"4", "", "", "", 0, 0, ""⟩, ⟨"5", "", "", "", 0, 0, ""⟩] = 0 ∧
      ceilDiv 5 (9223372036854775807 : Int).toNat = 1 ∧
      splitIntoChunks64 { workers := 9223372036854775807 }
        [⟨"1", "", "", "", 0, 0, ""⟩, ⟨"2", "", "", "", 0, 0, ""⟩, ⟨"3", "", "", "", 0, 0, ""⟩,
          ⟨"4", "", "", "", 0, 0, ""⟩, ⟨"5", "", "", "", 0, 0, ""⟩] = .error .divideByZero ∧
      (splitIntoChunks64 { workers := 4 }
        [⟨"1", "", "", "", 0, 0, ""⟩, ⟨"2", "", "", "", 0, 0, ""⟩, ⟨"3", "", "", "", 0, 0, ""⟩,
          ⟨"4", "", "", "", 0, 0, ""⟩, ⟨"5", "", "", "", 0, 0, ""⟩]).map
        (fun chunks => chunks.map (fun c => c.items.length)) = .ok [2, 2, 1] := by
  decide

/-! ## Sums of whole numbers in `float64` -/

theorem isWhole_natCast (n : ℕ) : isWhole (n : ℚ) :=
  ⟨Rat.den_natCast n, Nat.cast_nonneg n⟩

theorem isWhole_iff (x : ℚ) : isWhole x ↔ ∃ n : ℕ, x = n := by
  constructor
  · rintro ⟨hd, h0⟩
    have hnum : 0 ≤ x.num := Rat.num_nonneg.mpr h0
    refine ⟨x.num.toNat, ?_⟩
    have h1 : (x.num : ℚ) / (x.den : ℚ) = x := Rat.num_div_den x
    rw [hd, Nat.cast_one, div_one] at h1
    have h2 : ((x.num.toNat : ℕ) : ℤ) = x.num := Int.toNat_of_nonneg hnum
    rw [← h1]
    exact_mod_cast congrArg (fun z : ℤ => (z : ℚ)) h2.symm
  · rintro ⟨n, rfl⟩
    exact isWhole_natCast n

theorem isWhole_add {x y : ℚ} (hx : isWhole x) (hy : isWhole y) : isWhole (x + y) := by
  obtain ⟨n, rfl⟩ := (isWhole_iff x).mp hx
  obtain ⟨m, rfl⟩ := (isWhole_iff y).mp hy
  have : ((n : ℚ) + (m : ℚ)) = ((n + m : ℕ) : ℚ) := by push_cast; rfl
  rw [this]
  exact isWhole_natCast _

theorem isWhole_zero : isWhole 0 := by
  have := isWhole_natCast 0
  simpa using this

theorem isWhole_sum : ∀ terms : List ℚ, (∀ x ∈ terms, isWhole x) → isWhole terms.sum := by
  intro terms
  induction terms with
  | nil => intro _; simpa using isWhole_zero
  | cons d rest ih =>
    intro h
    rw [List.sum_cons]
    exact isWhole_add (h d (List.mem_cons_self _ _))
      (ih (fun x hx => h x (List.mem_cons_of_mem _ hx)))

/-- A rounding that is exact on the natural numbers below `2 ^ 53` is exact on
the whole numbers below `2 ^ 53`. -/
theorem rnd_whole {E : Env} (hint : ∀ n : ℕ, n < 2 ^ 53 → E.rnd (n : ℚ) = n) {x : ℚ}
    (hx : isWhole x) (hlt : x < 2 ^ 53) : E.rnd x = x := by
  obtain ⟨n, rfl⟩ := (isWhole_iff x).mp hx
  apply hint
  exact_mod_cast hlt

/-- The `float64` sum of whole numbers, started from a whole number, is the
exact sum as long as that stays below `2 ^ 53`. -/
theorem floatSum_whole {E : Env} (hint : ∀ n : ℕ, n < 2 ^ 53 → E.rnd (n : ℚ) = n) :
    ∀ (terms : List ℚ) (init : ℚ), isWhole init → (∀ x ∈ terms, isWhole x) →
      init + terms.sum < 2 ^ 53 → floatSum E init terms = init + terms.sum := by
  intro terms
  induction terms with
  | nil => intro init _ _ _; simp [floatSum]
  | cons d rest ih =>
    intro init hi hall hlt
    have hd : isWhole d := hall d (List.mem_cons_self _ _)
    have hrest : ∀ x ∈ rest, isWhole x := fun x hx => hall x (List.mem_cons_of_mem _ hx)
    have hsum0 : 0 ≤ rest.sum := (isWhole_sum rest hrest).2
    rw [List.sum_cons] at hlt
    have hstep : E.rnd (init + d) = init + d :=
      rnd_whole hint (isWhole_add hi hd) (by linarith)
    have := ih (init + d) (isWhole_add hi hd) hrest (by linarith)
    unfold floatSum at this ⊢
    rw [List.foldl_cons, hstep, this, List.sum_cons]
    ring

/-- The collecting loop adds whole chunk losses exactly, in every order of
arrival, as long as their sum stays below `2 ^ 53`. -/
theorem lossFold_whole {E : Env} (hint : ∀ n : ℕ, n < 2 ^ 53 → E.rnd (n : ℚ) = n)
    (c : String) :
    ∀ (results : List ProcessedChunk) (init : ℚ), isWhole init →
      (∀ r ∈ results, isWhole (GoMap.getD r.losses c 0)) →
      init + (results.map (fun r => GoMap.getD r.losses c 0)).sum < 2 ^ 53 →
      lossFold E c results init =
        init + (results.map (fun r => GoMap.getD r.losses c 0)).sum := by
  intro results
  induction results with
  | nil => intro init _ _ _; simp [lossFold]
  | cons r rs ih =>
    intro init hi hall hlt
    have hr : isWhole (GoMap.getD r.losses c 0) := hall r (List.mem_cons_self _ _)
    have hrest : ∀ r ∈ rs, isWhole (GoMap.getD r.losses c 0) :=
      fun x hx => hall x (List.mem_cons_of_mem _ hx)
    have hsum0 : 0 ≤ (rs.map (fun r => GoMap.getD r.losses c 0)).sum :=
      (isWhole_sum _ (by
        intro x hx
        obtain ⟨r', hr', rfl⟩ := List.mem_map.mp hx
        exact hrest r' hr')).2
    rw [List.map_cons, List.sum_cons] at hlt
    have hstep : E.rnd (init + GoMap.getD r.losses c 0) = init + GoMap.getD r.losses c 0 :=
      rnd_whole hint (isWhole_add hi hr) (by linarith)
    have h := ih (init + GoMap.getD r.losses c 0) (isWhole_add hi hr) hrest (by linarith)
    unfold lossFold at h ⊢
    rw [List.foldl_cons, List.map_cons, List.sum_cons]
    by_cases hc : c ∈ GoMap.keys r.losses
    · rw [if_pos hc, hstep, h]
      ring
    · rw [if_neg hc]
      have h0 : GoMap.getD r.losses c 0 = 0 := GoMap.getD_of_not_mem _ _ _ hc
      rw [h0, add_zero] at h
      rw [h, h0]
      ring

/-- The loss that `processChunk` reports for code `c` is the exact sum of the
counted differences when these are whole numbers with sum below `2 ^ 53`. -/
theorem processChunk_losses_whole {E : Env} (hint : ∀ n : ℕ, n < 2 ^ 53 → E.rnd (n : ℚ) = n)
    (chunk : Chunk) (startDate finishDate : Time) (c : String)
    (hw : wholeSum (lossTerms E chunk.items c)) :
    GoMap.getD (processChunk E chunk startDate finishDate).losses c 0 =
      (lossTerms E chunk.items c).sum := by
  unfold processChunk
  simp only
  rw [chunkFold_losses, GoMap.getD_nil,
    floatSum_whole hint _ 0 isWhole_zero hw.1 (by rw [zero_add]; exact hw.2), zero_add]

/-- The counted differences of a chunk are whole with sum below `2 ^ 53` when
those of the whole list of chunks are. -/
theorem wholeSum_chunk (E : Env) (chunks : List Chunk) (c : String)
    (hw : wholeSum (lossTerms E (chunkItems chunks) c)) :
    ∀ ch ∈ chunks, wholeSum (lossTerms E ch.items c) := by
  induction chunks with
  | nil => intro ch h; simp at h
  | cons a rest ih =>
    intro ch hch
    rw [chunkItems_cons, lossTerms_append] at hw
    obtain ⟨hall, hlt⟩ := hw
    rw [List.sum_append] at hlt
    have ha : ∀ x ∈ lossTerms E a.items c, isWhole x :=
      fun x hx => hall x (List.mem_append_left _ hx)
    have hr : ∀ x ∈ lossTerms E (chunkItems rest) c, isWhole x :=
      fun x hx => hall x (List.mem_append_right _ hx)
    have ha0 := (isWhole_sum _ ha).2
    have hr0 := (isWhole_sum _ hr).2
    rcases List.mem_cons.mp hch with rfl | hmem
    · exact ⟨ha, by linarith⟩
    · exact ih ⟨hr, by linarith⟩ ch hmem

/-- When the counted differences of code `c` are whole numbers with sum below
`2 ^ 53`, the merged loss of `c` is their exact sum over the whole ledger,
whatever the chunks and the order in which their results arrive. -/
theorem collect_workerResults_losses_whole {E : Env} (hE : E.Sound)
    (hint : ∀ n : ℕ, n < 2 ^ 53 → E.rnd (n : ℚ) = n)
    (W : Int) (hW : 1 ≤ W) (chunks : List Chunk) (startDate finishDate : Time) (c : String)
    (hw : wholeSum (lossTerms E (chunkItems chunks) c)) :
    GoMap.getD (collect E (workerResults E { workers := W } chunks startDate finishDate)).2
      c 0 = (lossTerms E (chunkItems chunks) c).sum := by
  have hW' : ¬ W ≤ 0 := by omega
  have hch := wholeSum_chunk E chunks c hw
  have hsum : ((E.arrival (chunks.map (fun chunk => processChunk E chunk startDate
      finishDate))).map (fun r => GoMap.getD r.losses c 0)).sum =
      (lossTerms E (chunkItems chunks) c).sum := by
    rw [List.Perm.sum_eq (List.Perm.map _ (hE.arrival_perm _)), List.map_map,
      ← lossTerms_chunkItems]
    congr 1
    apply List.map_congr_left
    intro ch hmem
    exact processChunk_losses_whole hint ch startDate finishDate c (hch ch hmem)
  rw [collect_losses hE]
  unfold workerResults
  simp only [if_neg hW']
  rw [lossFold_whole hint c _ 0 isWhole_zero ?_ (by rw [zero_add, hsum]; exact hw.2), zero_add,
    hsum]
  intro r hr
  have hr' := (List.Perm.mem_iff (hE.arrival_perm _)).mp hr
  obtain ⟨ch, hmem, rfl⟩ := List.mem_map.mp hr'
  rw [processChunk_losses_whole hint ch startDate finishDate c (hch ch hmem)]
  exact isWhole_sum _ (hch ch hmem).1

theorem wholeSum_lossTerms (E : Env) (items : List StockItem)
    (hw : wholeSum (allLossTerms E items)) (c : String) : wholeSum (lossTerms E items c) := by
  have hsub : (lossTerms E items c).Sublist (allLossTerms E items) := by
    unfold lossTerms allLossTerms
    apply List.Sublist.map
    apply List.monotone_filter_right
    intro it h
    simp only [countsForLoss, countsForSomeLoss, decide_eq_true_eq] at h ⊢
    obtain ⟨h1, h2, h3, h4, h5⟩ := h
    exact ⟨fun h' => h2 (h1 ▸ h'), h3, h4, h5⟩
  refine ⟨fun x hx => hw.1 x (hsub.subset hx), lt_of_le_of_lt ?_ hw.2⟩
  exact List.Sublist.sum_le_sum hsub (fun x hx => (hw.1 x hx).2)

/-- C3, as amended: for every list of chunk results and every permutation of
it, the collecting loop leaves, for every code, event lists with the same
events in the same multiplicities; the loss total of a code is the `float64`
sum of the chunk losses of the code in the order of arrival, as long as no
addition of that sum overflows; and when the chunk losses of the code are
whole numbers with sum below `2 ^ 53` (the rounding being exact on the natural
numbers below `2 ^ 53`, as binary64 is), the two orders give the same loss
total, the exact sum. -/
theorem collect_perm (E : Env) (hE : E.Sound) (rs rs' : List ProcessedChunk)
    (hp : rs'.Perm rs) (c : String) :
    (GoMap.getD (collect E rs').1 c []).Perm (GoMap.getD (collect E rs).1 c []) ∧
      ((∀ k, k ≤ rs.length → finite64 (lossFold E c (rs.take k) 0)) →
        GoMap.getD (collect E rs).2 c 0 = lossFold E c rs 0) ∧
      ((∀ k, k ≤ rs'.length → finite64 (lossFold E c (rs'.take k) 0)) →
        GoMap.getD (collect E rs').2 c 0 = lossFold E c rs' 0) ∧
      ((∀ n : ℕ, n < 2 ^ 53 → E.rnd (n : ℚ) = n) →
        wholeSum (rs.map (fun r => GoMap.getD r.losses c 0)) →
        GoMap.getD (collect E rs').2 c 0 = GoMap.getD (collect E rs).2 c 0 ∧
          GoMap.getD (collect E rs).2 c 0 = (rs.map (fun r => GoMap.getD r.losses c 0)).sum) := by
  refine ⟨?_, fun _ => collect_losses hE rs c, fun _ => collect_losses hE rs' c, ?_⟩
  · rw [collect_events hE, collect_events hE]
    exact List.Perm.flatten (List.Perm.map _ hp)
  · intro hint hw
    have hpm := List.Perm.map (fun r : ProcessedChunk => GoMap.getD r.losses c 0) hp
    have hall : ∀ r ∈ rs, isWhole (GoMap.getD r.losses c 0) :=
      fun r hr => hw.1 _ (List.mem_map_of_mem _ hr)
    have hall' : ∀ r ∈ rs', isWhole (GoMap.getD r.losses c 0) :=
      fun r hr => hall r (hp.mem_iff.mp hr)
    have h1 := lossFold_whole hint c rs 0 isWhole_zero hall (by rw [zero_add]; exact hw.2)
    have h2 := lossFold_whole hint c rs' 0 isWhole_zero hall'
      (by rw [zero_add, List.Perm.sum_eq hpm]; exact hw.2)
    rw [collect_losses hE, collect_losses hE, h1, h2, List.Perm.sum_eq hpm, zero_add]
    exact ⟨rfl, rfl⟩

/-- C3, as amended, in binary64 at the chunk results of three chunks with the
losses `2, 1, 4` for one code, taken in two orders: the events are the same,
and the loss total is 7 in both orders, the `float64` sum in arrival order. -/
theorem collect_perm_witness :
    (GoMap.getD (collect f64Env
        [⟨[("1001", [⟨5, 1, 0⟩])], [("1001", 1)], 1⟩, ⟨[("1001", [⟨3, 2, 1⟩])], [("1001", 2)], 0⟩,
          ⟨[("1001", [⟨7, 9, 5⟩])], [("1001", 4)], 2⟩]).1 "1001" []).Perm
      (GoMap.getD (collect f64Env
        [⟨[("1001", [⟨3, 2, 1⟩])], [("1001", 2)], 0⟩, ⟨[("1001", [⟨5, 1, 0⟩])], [("1001", 1)], 1⟩,
          ⟨[("1001", [⟨7, 9, 5⟩])], [("1001", 4)], 2⟩]).1 "1001" []) ∧
      GoMap.getD (collect f64Env
        [⟨[("1001", [⟨5, 1, 0⟩])], [("1001", 1)], 1⟩, ⟨[("1001", [⟨3, 2, 1⟩])], [("1001", 2)], 0⟩,
          ⟨[("1001", [⟨7, 9, 5⟩])], [("1001", 4)], 2⟩]).2 "1001" 0 =
      GoMap.getD (collect f64Env
        [⟨[("1001", [⟨3, 2, 1⟩])], [("1001", 2)], 0⟩, ⟨[("1001", [⟨5, 1, 0⟩])], [("1001", 1)], 1⟩,
          ⟨[("1001", [⟨7, 9, 5⟩])], [("1001", 4)], 2⟩]).2 "1001" 0 ∧
      GoMap.getD (collect f64Env
        [⟨[("1001", [⟨3, 2, 1⟩])], [("1001", 2)], 0⟩, ⟨[("1001", [⟨5, 1, 0⟩])], [("1001", 1)], 1⟩,
          ⟨[("1001", [⟨7, 9, 5⟩])], [("1001", 4)], 2⟩]).2 "1001" 0 =
      lossFold f64Env "1001"
        [⟨[("1001", [⟨3, 2, 1⟩])], [("1001", 2)], 0⟩, ⟨[("1001", [⟨5, 1, 0⟩])], [("1001", 1)], 1⟩,
          ⟨[("1001", [⟨7, 9, 5⟩])], [("1001", 4)], 2⟩] 0 ∧
      lossFold f64Env "1001"
        [⟨[("1001", [⟨3, 2, 1⟩])], [("1001", 2)], 0⟩, ⟨[("1001", [⟨5, 1, 0⟩])], [("1001", 1)], 1⟩,
          ⟨[("1001", [⟨7, 9, 5⟩])], [("1001", 4)], 2⟩] 0 = 7 :=
  ⟨(collect_perm f64Env f64Env_sound _ _ (List.Perm.swap _ _ _) "1001").1,
    ((collect_perm f64Env f64Env_sound _ _ (List.Perm.swap _ _ _) "1001").2.2.2
      f64Env_small (by decide!)).1,
    (collect_perm f64Env f64Env_sound _ _ (List.Perm.swap _ _ _) "1001").2.1 (by decide!),
    by decide!⟩

/-- C30, as amended: for every ledger, every worker count `W ≥ 1` with
`len + W ≤ 2 ^ 63` (and `len < 2 ^ 62`) and every code `c`, the event lists for
`c` that `processChunk` returns for the chunks of `splitIntoChunks` (in the
64-bit arithmetic of the code), concatenated in chunk order, are the event
list for `c` that `processChunk` returns for the whole ledger as one chunk;
and when the differences counted for `c` are whole numbers with sum below
`2 ^ 53` (the rounding being exact on the natural numbers below `2 ^ 53`, as
binary64 is), the sum of the loss quantities for `c` of the chunks, taken
exactly or in `float64`, is the loss quantity for `c` of the whole ledger. -/
theorem processChunk_additive (E : Env) (W : Int) (hW : 1 ≤ W) (hW2 : W < 9223372036854775808)
    (data : List StockItem)
    (hsum : (data.length : Int) + W ≤ 9223372036854775808)
    (hlen : (data.length : Int) < 4611686018427387904)
    (startDate finishDate : Time) :
    ∃ chunks, splitIntoChunks64 { workers := W } data = .ok chunks ∧
      ∀ c : String,
        (chunks.map (fun ch =>
            GoMap.getD (processChunk E ch startDate finishDate).events c [])).flatten =
          GoMap.getD (processChunk E ⟨data, 0⟩ startDate finishDate).events c [] ∧
        ((∀ n : ℕ, n < 2 ^ 53 → E.rnd (n : ℚ) = n) → wholeSum (lossTerms E data c) →
          (chunks.map (fun ch =>
              GoMap.getD (processChunk E ch startDate finishDate).losses c 0)).sum =
            GoMap.getD (processChunk E ⟨data, 0⟩ startDate finishDate).losses c 0 ∧
          floatSum E 0 (chunks.map (fun ch =>
              GoMap.getD (processChunk E ch startDate finishDate).losses c 0)) =
            GoMap.getD (processChunk E ⟨data, 0⟩ startDate finishDate).losses c 0) := by
  obtain ⟨chunks, hsplit, hcat⟩ := splitIntoChunks_spec data W hW
  have hitems : chunkItems chunks = data := hcat
  refine ⟨chunks, by rw [splitIntoChunks64_eq data W hW hW2 hsum hlen, hsplit],
    fun c => ⟨?_, fun hint hw => ?_⟩⟩
  · simp only [processChunk_events]
    rw [eventsOf_chunkItems, hitems]
  · have hw' : wholeSum (lossTerms E (chunkItems chunks) c) := by rw [hitems]; exact hw
    have hch := wholeSum_chunk E chunks c hw'
    have hmap : chunks.map (fun ch =>
        GoMap.getD (processChunk E ch startDate finishDate).losses c 0) =
        chunks.map (fun ch => (lossTerms E ch.items c).sum) := by
      apply List.map_congr_left
      intro ch hmem
      exact processChunk_losses_whole hint ch startDate finishDate c (hch ch hmem)
    have hwhole : GoMap.getD (processChunk E ⟨data, 0⟩ startDate finishDate).losses c 0 =
        (lossTerms E data c).sum :=
      processChunk_losses_whole hint ⟨data, 0⟩ startDate finishDate c hw
    have hexact : (chunks.map (fun ch => (lossTerms E ch.items c).sum)).sum =
        (lossTerms E data c).sum := by
      rw [lossTerms_chunkItems, hitems]
    rw [hmap, hwhole]
    refine ⟨hexact, ?_⟩
    rw [floatSum_whole hint _ 0 isWhole_zero ?_ (by rw [zero_add, hexact]; exact hw.2), zero_add,
      hexact]
    intro x hx
    obtain ⟨ch, hmem, rfl⟩ := List.mem_map.mp hx
    exact isWhole_sum _ (hch ch hmem).1

/-- C30, as amended, in binary64 at a ledger of four shrinkage records with
the differences `4, 3, 2, 1` and two workers. -/
theorem processChunk_additive_witness :
    ∃ chunks, splitIntoChunks64 { workers := 2 }
        [⟨"1001", "", "", "01.01.2024", 4, 0, shrinkageMarker⟩,
          ⟨"1001", "", "", "02.01.2024", 5, 2, shrinkageMarker⟩,
          ⟨"1001", "", "", "03.01.2024", 2, 0, shrinkageMarker⟩,
          ⟨"1001", "", "", "04.01.2024", 1, 0, shrinkageMarker⟩] = .ok chunks ∧
      (chunks.map (fun ch => GoMap.getD (processChunk f64Env ch 0 0).events "1001" [])).flatten =
        GoMap.getD (processChunk f64Env
          ⟨[⟨"1001", "", "", "01.01.2024", 4, 0, shrinkageMarker⟩,
            ⟨"1001", "", "", "02.01.2024", 5, 2, shrinkageMarker⟩,
            ⟨"1001", "", "", "03.01.2024", 2, 0, shrinkageMarker⟩,
            ⟨"1001", "", "", "04.01.2024", 1, 0, shrinkageMarker⟩], 0⟩ 0 0).events "1001" [] ∧
      floatSum f64Env 0
          (chunks.map (fun ch => GoMap.getD (processChunk f64Env ch 0 0).losses "1001" 0)) =
        GoMap.getD (processChunk f64Env
          ⟨[⟨"1001", "", "", "01.01.2024", 4, 0, shrinkageMarker⟩,
            ⟨"1001", "", "", "02.01.2024", 5, 2, shrinkageMarker⟩,
            ⟨"1001", "", "", "03.01.2024", 2, 0, shrinkageMarker⟩,
            ⟨"1001", "", "", "04.01.2024", 1, 0, shrinkageMarker⟩], 0⟩ 0 0).losses "1001" 0 := by
  obtain ⟨chunks, h, hall⟩ := processChunk_additive f64Env 2 (by decide) (by decide)
    [⟨"1001", "", "", "01.01.2024", 4, 0, shrinkageMarker⟩,
      ⟨"1001", "", "", "02.01.2024", 5, 2, shrinkageMarker⟩,
      ⟨"1001", "", "", "03.01.2024", 2, 0, shrinkageMarker⟩,
      ⟨"1001", "", "", "04.01.2024", 1, 0, shrinkageMarker⟩] (by decide) (by decide) 0 0
  exact ⟨chunks, h, (hall "1001").1, ((hall "1001").2 f64Env_small (by decide!)).2⟩

theorem processDataParallel_eq_whole (E : Env) (hE : E.Sound)
    (hint : ∀ n : ℕ, n < 2 ^ 53 → E.rnd (n : ℚ) = n)
    (stockData : List StockItem) (salesData : List SalesItem)
    (hord : (∀ rs, E.arrival rs = rs) ∨
      ∀ c, ((eventsOf stockData c).map (fun e => e.time)).Nodup)
    (hwhole : wholeSum (allLossTerms E stockData))
    (W1 W2 : Int) (h1 : 1 ≤ W1) (h2 : 1 ≤ W2) (startDate finishDate : Time) :
    ∃ items,
      processDataParallel E { workers := W1 } stockData salesData startDate finishDate
        = .ok items ∧
      processDataParallel E { workers := W2 } stockData salesData startDate finishDate
        = .ok items := by
  obtain ⟨ch1, -, hc1, hp1⟩ :=
    processDataParallel_ok E W1 h1 stockData salesData startDate finishDate
  obtain ⟨ch2, -, hc2, hp2⟩ :=
    processDataParallel_ok E W2 h2 stockData salesData startDate finishDate
  refine ⟨_, hp1, ?_⟩
  rw [hp2]
  congr 1
  apply List.map_congr_left
  intro code _
  apply makeItem_congr
  · have e1 := collect_workerResults_events hE W1 h1 ch1 startDate finishDate code
    have e2 := collect_workerResults_events hE W2 h2 ch2 startDate finishDate code
    rw [hc1] at e1
    rw [hc2] at e2
    rcases hord with hin | hnd
    · rw [e1.2 hin, e2.2 hin]
    · have hperm := e2.1.trans e1.1.symm
      have hnd2 : ((GoMap.getD (collect E (workerResults E { workers := W2 } ch2 startDate
          finishDate)).1 code []).map (fun e => e.time)).Nodup :=
        (List.Perm.nodup_iff (List.Perm.map _ e2.1)).mpr (hnd code)
      exact calculateOSA_eq_of_perm E hE _ _ hperm hnd2 startDate finishDate
  · have hw := wholeSum_lossTerms E stockData hwhole code
    rw [collect_workerResults_losses_whole hE hint W2 h2 ch2 startDate finishDate code
        (by rw [hc2]; exact hw),
      collect_workerResults_losses_whole hE hint W1 h1 ch1 startDate finishDate code
        (by rw [hc1]; exact hw), hc1, hc2]

/-- C2, as amended: for every ledger (of fewer than `2 ^ 62` records), sales
collection and window, the aggregation returns the same item list, in order
and in every field, for every two worker counts from 1 to 64, provided that
either the chunk results are merged in chunk order or no two events of an item
share a timestamp, and that the shrinkage differences counted by
`processChunk` are whole numbers with sum below `2 ^ 53` (the rounding being
exact on the natural numbers below `2 ^ 53`, as binary64 is); the order of
map iteration and the permutation of `sort.Slice` are those of the environment
in both runs. For these worker counts the chunks are those of the 64-bit
arithmetic of the code. -/
theorem aggregation_worker_independent (E : Env) (hE : E.Sound)
    (hint : ∀ n : ℕ, n < 2 ^ 53 → E.rnd (n : ℚ) = n)
    (stockData : List StockItem) (salesData : List SalesItem)
    (hlen : (stockData.length : Int) < 4611686018427387904)
    (hord : (∀ rs, E.arrival rs = rs) ∨
      ∀ c, ((eventsOf stockData c).map (fun e => e.time)).Nodup)
    (hwhole : wholeSum (allLossTerms E stockData))
    (W1 W2 : Int) (h1 : 1 ≤ W1) (h1' : W1 ≤ 64) (h2 : 1 ≤ W2) (h2' : W2 ≤ 64) :
    splitIntoChunks { workers := W1 } stockData = splitIntoChunks64 { workers := W1 } stockData ∧
    splitIntoChunks { workers := W2 } stockData = splitIntoChunks64 { workers := W2 } stockData ∧
    (∀ startDate finishDate : Time, ∃ items,
      processDataParallel E { workers := W1 } stockData salesData startDate finishDate
        = .ok items ∧
      processDataParallel E { workers := W2 } stockData salesData startDate finishDate
        = .ok items) ∧
    ∀ req : ItemAnalyticsRequest,
      GetItemAnalytics E { workers := W1 } (some stockData) (some salesData) req =
        GetItemAnalytics E { workers := W2 } (some stockData) (some salesData) req := by
  have key := processDataParallel_eq_whole E hE hint stockData salesData hord hwhole W1 W2 h1 h2
  refine ⟨(splitIntoChunks64_eq stockData W1 h1 (by omega) (by omega) hlen).symm,
    (splitIntoChunks64_eq stockData W2 h2 (by omega) (by omega) hlen).symm, key, ?_⟩
  intro req
  unfold GetItemAnalytics
  cases timeParse layoutDate req.startDate with
  | none => rfl
  | some startDate =>
    cases timeParse layoutDate req.finishDate with
    | none => rfl
    | some finishDate =>
      obtain ⟨items, ha, hb⟩ := key startDate (timeAdd finishDate dayNs)
      simp only [ha, hb]

/-- C2, as amended, in binary64 with the results received in the reverse of
chunk order, at a ledger of four records of one item (shrinkage differences
`2` and `3`, distinct timestamps) for one and for two workers, over the first
four days of January 2024: both runs return the same item. -/
theorem aggregation_worker_independent_witness :
    GetItemAnalytics reversedEnv { workers := 1 }
        (some [⟨"1001", "", "", "01.01.2024", 10, 8, shrinkageMarker⟩,
          ⟨"1001", "", "", "02.01.2024", 8, 0, ""⟩, ⟨"1001", "", "", "03.01.2024", 5, 4, ""⟩,
          ⟨"1001", "", "", "04.01.2024", 4, 1, shrinkageMarker⟩])
        (some [⟨"1001", "", 5, 500⟩]) ⟨"t", "01.01.2024", "04.01.2024"⟩ =
      GetItemAnalytics reversedEnv { workers := 2 }
        (some [⟨"1001", "", "", "01.01.2024", 10, 8, shrinkageMarker⟩,
          ⟨"1001", "", "", "02.01.2024", 8, 0, ""⟩, ⟨"1001", "", "", "03.01.2024", 5, 4, ""⟩,
          ⟨"1001", "", "", "04.01.2024", 4, 1, shrinkageMarker⟩])
        (some [⟨"1001", "", 5, 500⟩]) ⟨"t", "01.01.2024", "04.01.2024"⟩ ∧
    GetItemAnalytics reversedEnv { workers := 2 }
        (some [⟨"1001", "", "", "01.01.2024", 10, 8, shrinkageMarker⟩,
          ⟨"1001", "", "", "02.01.2024", 8, 0, ""⟩, ⟨"1001", "", "", "03.01.2024", 5, 4, ""⟩,
          ⟨"1001", "", "", "04.01.2024", 4, 1, shrinkageMarker⟩])
        (some [⟨"1001", "", 5, 500⟩]) ⟨"t", "01.01.2024", "04.01.2024"⟩ =
      .ok ⟨[⟨"1001", "1001", noGroup, 500, 500, 100, 75, "C"⟩], 1⟩ :=
  ⟨(aggregation_worker_independent reversedEnv reversedEnv_sound f64Env_small _ _ (by decide)
    (Or.inr (fun c => by
      by_cases h : c = "1001"
      · subst h; decide
      · have hnil : eventsOf
            [⟨"1001", "", "", "01.01.2024", 10, 8, shrinkageMarker⟩,
              ⟨"1001", "", "", "02.01.2024", 8, 0, ""⟩, ⟨"1001", "", "", "03.01.2024", 5, 4, ""⟩,
              ⟨"1001", "", "", "04.01.2024", 4, 1, shrinkageMarker⟩] c = [] := by
          have ht : TrimSpace "1001" = "1001" := by decide
          have h' : ¬ "1001" = c := fun e => h e.symm
          simp [eventsOf, eventOf, ht, h']
        rw [hnil]
        exact List.nodup_nil))
    (by decide!) 1 2 (by decide) (by decide) (by decide) (by decide)).2.2.2 _, by decide!⟩

/-! ## The classifier in `float64` -/

/-- C6, as amended: for every item list whose `float64` total of sales is
positive and on which no `float64` operation of the classifier overflows,
`calculateABCClassification` changes only the labels, every label is `A`, `B`
or `C`, and item `i` gets `A` when its share is at most 80, `B` when the share
is above 80 and at most 95, and `C` otherwise, where the share of item `i` is
the `float64` value that the code computes: the running `float64` sum of the
sales of items `0..i`, divided by the `float64` total and multiplied by 100,
each operation rounded. The boundaries are inclusive (in binary64 a quotient
of exactly `4/5` gives the share 80 and one of exactly `19/20` gives 95), and
the sales `[1000, 500, 200, 100]` are labelled `A, B, B, C`. -/
theorem abc_classification (E : Env) (items : List ItemAnalyticsResult)
    (hpos : 0 < abcTotal E items) (hfin : abcFinite E items) :
    (calculateABCClassification E items).length = items.length ∧
      (∀ it ∈ calculateABCClassification E items,
        it.abc = "A" ∨ it.abc = "B" ∨ it.abc = "C") ∧
      (∀ (i : Nat) (hi : i < items.length),
        (calculateABCClassification E items)[i]? =
          some { items[i] with abc := abcLabel (shareOf E items i) } ∧
        finite64 (shareOf E items i)) ∧
      (∀ share : ℚ, (share ≤ 80 → abcLabel share = "A") ∧
        (80 < share → share ≤ 95 → abcLabel share = "B") ∧
        (95 < share → abcLabel share = "C")) ∧
      abcLabel 80 = "A" ∧ abcLabel 95 = "B" ∧
      roundF64 (roundF64 (4 / 5) * 100) = 80 ∧ roundF64 (roundF64 (19 / 20) * 100) = 95 ∧
      (calculateABCClassification f64Env
          [⟨"", "", "", 1000, 0, 0, 0, ""⟩, ⟨"", "", "", 500, 0, 0, 0, ""⟩,
            ⟨"", "", "", 200, 0, 0, 0, ""⟩, ⟨"", "", "", 100, 0, 0, 0, ""⟩]).map
        (fun it => it.abc) = ["A", "B", "B", "C"] := by
  have hne : ¬ items.length = 0 := by
    intro h
    have : items = [] := List.length_eq_zero.mp h
    subst this
    simp [abcTotal] at hpos
  have hcalc : calculateABCClassification E items = abcLoop E (abcTotal E items) 0 items := by
    unfold calculateABCClassification
    rw [if_neg hne, if_neg (not_le.mpr hpos)]
  refine ⟨?_, ?_, ?_, ?_, ?_, ?_, ?_, ?_, ?_⟩
  · rw [hcalc, abcLoop_length]
  · rw [hcalc]; exact abcLoop_labels E _ items 0
  · intro i hi
    refine ⟨?_, (hfin i hi).2.2⟩
    rw [hcalc, abcLoop_get, List.getElem?_eq_getElem hi]
    rfl
  · intro share
    unfold abcLabel
    refine ⟨fun h => by rw [if_pos h], fun h1 h2 => ?_, fun h => ?_⟩
    · rw [if_neg (not_le.mpr h1), if_pos h2]
    · rw [if_neg (not_le.mpr (lt_trans (by norm_num) h)), if_neg (not_le.mpr h)]
  · decide!
  · decide!
  · decide!
  · decide!
  · decide!

/-- C6, as amended, at the sales `[1000, 500, 200, 100]` in binary64. -/
theorem abc_classification_witness :
    (calculateABCClassification f64Env
        [⟨"", "", "", 1000, 0, 0, 0, ""⟩, ⟨"", "", "", 500, 0, 0, 0, ""⟩,
          ⟨"", "", "", 200, 0, 0, 0, ""⟩, ⟨"", "", "", 100, 0, 0, 0, ""⟩]).length = 4 :=
  (abc_classification f64Env
    [⟨"", "", "", 1000, 0, 0, 0, ""⟩, ⟨"", "", "", 500, 0, 0, 0, ""⟩,
      ⟨"", "", "", 200, 0, 0, 0, ""⟩, ⟨"", "", "", 100, 0, 0, 0, ""⟩] (by decide!) (by decide!)).1

/-- C6 fails as stated: for the two items with the sales 1.71 and 0.09 (the
binary64 numbers nearest to them), the sum of the sales of the first item
divided by the sum of all sales and multiplied by 100 is above 95 in real
numbers, which is the label `C`, while the code computes the share 95 in
`float64` and labels the item `B`. -/
theorem abc_share_not_real :
    (calculateABCClassification f64Env
        [⟨"", "a", "", roundF64 (171 / 100), 0, 0, 0, ""⟩,
          ⟨"", "b", "", roundF64 (9 / 100), 0, 0, 0, ""⟩]).map (fun it => it.abc) = ["B", "C"] ∧
      shareOf f64Env
        [⟨"", "a", "", roundF64 (171 / 100), 0, 0, 0, ""⟩,
          ⟨"", "b", "", roundF64 (9 / 100), 0, 0, 0, ""⟩] 0 = 95 ∧
      shareOfSpec
        [⟨"", "a", "", roundF64 (171 / 100), 0, 0, 0, ""⟩,
          ⟨"", "b", "", roundF64 (9 / 100), 0, 0, 0, ""⟩] 0 =
        6160924290242838400 / 64851834634135141 ∧
      (95 : ℚ) < 6160924290242838400 / 64851834634135141 ∧
      abcLabel (6160924290242838400 / 64851834634135141) = "C" ∧
      (0 : ℚ) < roundF64 (171 / 100) + roundF64 (9 / 100) ∧
      abcFinite f64Env
        [⟨"", "a", "", roundF64 (171 / 100), 0, 0, 0, ""⟩,
          ⟨"", "b", "", roundF64 (9 / 100), 0, 0, 0, ""⟩] := by
  decide!

/-! ## The item fields in `float64` -/

/-- C19, as amended: for every worker count `W ≥ 1` with `len + W ≤ 2 ^ 63`
and every item of the output for which no `float64` operation that leads to
`Loss` overflows, `Loss` is `math.Round(x * 100) / 100` computed in `float64`,
where `x` is the `float64` product of the merged loss quantity of the code by
the average price of the code; the average price is the `float64` quotient of
the total sales amount by the total sales quantity (both `float64` sums in
input order) when the quantity is positive, and when the quantity is zero or
negative the price is 0 and `Loss` is 0. -/
theorem processDataParallel_loss (E : Env) (hE : E.Sound) (h0 : E.rnd 0 = 0) (W : Int)
    (hW : 1 ≤ W) (hW2 : W < 9223372036854775808)
    (stockData : List StockItem) (salesData : List SalesItem)
    (hsum : (stockData.length : Int) + W ≤ 9223372036854775808)
    (hlen : (stockData.length : Int) < 4611686018427387904)
    (startDate finishDate : Time) :
    ∃ chunks items,
      splitIntoChunks64 { workers := W } stockData = .ok chunks ∧
      processDataParallel E { workers := W } stockData salesData startDate finishDate
        = .ok items ∧
      ∀ it ∈ items,
        lossFinite E (GoMap.getD (collect E (workerResults E { workers := W } chunks startDate
            finishDate)).2 it.code 0) salesData it.code →
        it.loss = E.rnd (mathRound (E.rnd (E.rnd
          (GoMap.getD (collect E (workerResults E { workers := W } chunks startDate
            finishDate)).2 it.code 0 * avgPrice E salesData it.code) * 100)) / 100) ∧
        GoMap.getD (collect E (workerResults E { workers := W } chunks startDate
            finishDate)).2 it.code 0 =
          lossFold E it.code (workerResults E { workers := W } chunks startDate finishDate) 0 ∧
        (0 < totalQuantity E salesData it.code →
          avgPrice E salesData it.code =
            E.rnd (totalAmount E salesData it.code / totalQuantity E salesData it.code)) ∧
        (totalQuantity E salesData it.code ≤ 0 →
          avgPrice E salesData it.code = 0 ∧ it.loss = 0) := by
  obtain ⟨chunks, items, h1, h, hall⟩ :=
    processDataParallel_items E hE W hW stockData salesData startDate finishDate
  refine ⟨chunks, items, by rw [splitIntoChunks64_eq stockData W hW hW2 hsum hlen, h1], h, ?_⟩
  intro it hit _
  obtain ⟨hne, heq⟩ := hall it hit
  obtain ⟨hprice, -⟩ := priceMap_avgPrice hE salesData it.code hne
  have hloss : it.loss = roundTo E 100 (E.rnd
      (GoMap.getD (collect E (workerResults E { workers := W } chunks startDate
        finishDate)).2 it.code 0 * avgPrice E salesData it.code)) := by
    rw [← hprice]
    conv_lhs => rw [heq]
    rfl
  refine ⟨hloss, collect_losses hE _ _, ?_, ?_⟩
  · intro hq
    unfold avgPrice
    rw [if_pos hq]
  · intro hq
    have hp : avgPrice E salesData it.code = 0 := by
      unfold avgPrice
      rw [if_neg (not_lt.mpr hq)]
    refine ⟨hp, ?_⟩
    rw [hloss, hp, mul_zero, h0, roundTo_zero h0]

/-- C19, as amended, in binary64 at a ledger with one shrinkage record and
sales of two codes, one of them with quantity zero: the losses are 2.5 and 0,
and no operation overflows. -/
theorem processDataParallel_loss_witness :
    (∃ chunks items,
      splitIntoChunks64 { workers := 2 }
        [⟨"1001", "", "", "01.01.2024", 10, 8, shrinkageMarker⟩] = .ok chunks ∧
      processDataParallel f64Env { workers := 2 }
        [⟨"1001", "", "", "01.01.2024", 10, 8, shrinkageMarker⟩]
        [⟨"1001", "", 4, 5⟩, ⟨"2002", "", 0, 7⟩] 0 86400000000000 = .ok items ∧
      ∀ it ∈ items,
        lossFinite f64Env (GoMap.getD (collect f64Env (workerResults f64Env { workers := 2 }
            chunks 0 86400000000000)).2 it.code 0)
          [⟨"1001", "", 4, 5⟩, ⟨"2002", "", 0, 7⟩] it.code →
        it.loss = f64Env.rnd (mathRound (f64Env.rnd (f64Env.rnd
          (GoMap.getD (collect f64Env (workerResults f64Env { workers := 2 } chunks 0
            86400000000000)).2 it.code 0 *
            avgPrice f64Env [⟨"1001", "", 4, 5⟩, ⟨"2002", "", 0, 7⟩] it.code) * 100)) / 100) ∧
        GoMap.getD (collect f64Env (workerResults f64Env { workers := 2 } chunks 0
            86400000000000)).2 it.code 0 =
          lossFold f64Env it.code (workerResults f64Env { workers := 2 } chunks 0
            86400000000000) 0 ∧
        (0 < totalQuantity f64Env [⟨"1001", "", 4, 5⟩, ⟨"2002", "", 0, 7⟩] it.code →
          avgPrice f64Env [⟨"1001", "", 4, 5⟩, ⟨"2002", "", 0, 7⟩] it.code =
            f64Env.rnd (totalAmount f64Env [⟨"1001", "", 4, 5⟩, ⟨"2002", "", 0, 7⟩] it.code /
              totalQuantity f64Env [⟨"1001", "", 4, 5⟩, ⟨"2002", "", 0, 7⟩] it.code)) ∧
        (totalQuantity f64Env [⟨"1001", "", 4, 5⟩, ⟨"2002", "", 0, 7⟩] it.code ≤ 0 →
          avgPrice f64Env [⟨"1001", "", 4, 5⟩, ⟨"2002", "", 0, 7⟩] it.code = 0 ∧ it.loss = 0)) ∧
    (processDataParallel f64Env { workers := 2 }
        [⟨"1001", "", "", "01.01.2024", 10, 8, shrinkageMarker⟩]
        [⟨"1001", "", 4, 5⟩, ⟨"2002", "", 0, 7⟩] 0 86400000000000).map
      (fun items => items.map (fun (it : ItemAnalyticsResult) => (it.code, it.loss))) =
      .ok [("1001", 5 / 2), ("2002", 0)] ∧
    lossFinite f64Env 2 [⟨"1001", "", 4, 5⟩, ⟨"2002", "", 0, 7⟩] "1001" ∧
    lossFinite f64Env 0 [⟨"1001", "", 4, 5⟩, ⟨"2002", "", 0, 7⟩] "2002" :=
  ⟨processDataParallel_loss f64Env f64Env_sound f64Env_zero 2 (by decide) (by decide) _ _
    (by decide) (by decide) _ _, by decide!, by decide!, by decide!⟩

/-- C19 fails as stated: in binary64, with the merged loss quantity 3, the
total sales quantity 40 and the total sales amount 3, the loss quantity
multiplied by the average price is `3 * (3 / 40) = 0.225`, which rounded to 2
decimals is 0.23, while `Loss` is 0.22: the `float64` quotient `3 / 40` is below
0.075, the `float64` product by 3 is below 0.225, its `float64` product by 100
is below 22.5, and `math.Round` gives 22. No operation overflows. -/
theorem processDataParallel_loss_not_real :
    (processDataParallel f64Env { workers := 2 }
        [⟨"1001", "", "", "01.01.2024", 3, 0, shrinkageMarker⟩]
        [⟨"1001", "", 40, 3⟩] 0 86400000000000).map
      (fun items => items.map (fun (it : ItemAnalyticsResult) => it.loss)) =
      .ok [roundF64 (22 / 100)] ∧
    roundHalfAway 100 (3 * (3 / 40)) = 23 / 100 ∧
    roundF64 (22 / 100) ≠ 23 / 100 ∧ roundF64 (22 / 100) ≠ roundF64 (23 / 100) ∧
    roundF64 (3 / 40) < 3 / 40 ∧ roundF64 (3 * roundF64 (3 / 40)) < 225 / 1000 ∧
    roundF64 (roundF64 (3 * roundF64 (3 / 40)) * 100) < 45 / 2 ∧
    lossFinite f64Env 3 [⟨"1001", "", 40, 3⟩] "1001" := by
  decide!

/-- C20, as amended: for every worker count `W ≥ 1` with `len + W ≤ 2 ^ 63`
and every item of the output for which no `float64` operation that leads to
`LossOfProfit` overflows, `LossOfProfit` is `math.Round(p * 1000) / 1000`
computed in `float64`, where the loss percent `p` is the `float64` quotient of
the unrounded loss amount by the unrounded total sales amount, multiplied by
100 in `float64`, when the total sales amount is positive, and `p` and
`LossOfProfit` are 0 when the total sales amount is zero or negative: the
division is made only with a positive divisor. -/
theorem processDataParallel_lossOfProfit (E : Env) (hE : E.Sound) (h0 : E.rnd 0 = 0) (W : Int)
    (hW : 1 ≤ W) (hW2 : W < 9223372036854775808)
    (stockData : List StockItem) (salesData : List SalesItem)
    (hsum : (stockData.length : Int) + W ≤ 9223372036854775808)
    (hlen : (stockData.length : Int) < 4611686018427387904)
    (startDate finishDate : Time) :
    ∃ chunks items,
      splitIntoChunks64 { workers := W } stockData = .ok chunks ∧
      processDataParallel E { workers := W } stockData salesData startDate finishDate
        = .ok items ∧
      ∀ it ∈ items,
        percentFinite E (GoMap.getD (collect E (workerResults E { workers := W } chunks
            startDate finishDate)).2 it.code 0) salesData it.code →
        (0 < totalAmount E salesData it.code →
          it.lossOfProfit = E.rnd (mathRound (E.rnd (E.rnd (E.rnd
            (E.rnd (GoMap.getD (collect E (workerResults E { workers := W } chunks startDate
              finishDate)).2 it.code 0 * avgPrice E salesData it.code) /
              totalAmount E salesData it.code) * 100) * 1000)) / 1000)) ∧
        (totalAmount E salesData it.code ≤ 0 → it.lossOfProfit = 0) := by
  obtain ⟨chunks, items, h1, h, hall⟩ :=
    processDataParallel_items E hE W hW stockData salesData startDate finishDate
  refine ⟨chunks, items, by rw [splitIntoChunks64_eq stockData W hW hW2 hsum hlen, h1], h, ?_⟩
  intro it hit _
  obtain ⟨hne, heq⟩ := hall it hit
  obtain ⟨hprice, hamt⟩ := priceMap_avgPrice hE salesData it.code hne
  have hlp : it.lossOfProfit = roundTo E 1000
      (if totalAmount E salesData it.code > 0 then
        E.rnd (E.rnd
          (E.rnd (GoMap.getD (collect E (workerResults E { workers := W } chunks startDate
            finishDate)).2 it.code 0 * avgPrice E salesData it.code) /
            totalAmount E salesData it.code) * 100)
      else 0) := by
    rw [← hprice, ← hamt]
    conv_lhs => rw [heq]
    rfl
  constructor
  · intro hpos
    rw [hlp, if_pos hpos]
    rfl
  · intro hnp
    rw [hlp, if_neg (not_lt.mpr hnp), roundTo_zero h0]

/-- C20, as amended, in binary64 at a ledger with one shrinkage record and
sales of two codes, one of them with amount zero: the loss percents are 50 and
0, and no operation overflows. -/
theorem processDataParallel_lossOfProfit_witness :
    (∃ chunks items,
      splitIntoChunks64 { workers := 2 }
        [⟨"1001", "", "", "01.01.2024", 10, 8, shrinkageMarker⟩] = .ok chunks ∧
      processDataParallel f64Env { workers := 2 }
        [⟨"1001", "", "", "01.01.2024", 10, 8, shrinkageMarker⟩]
        [⟨"1001", "", 4, 5⟩, ⟨"2002", "", 3, 0⟩] 0 86400000000000 = .ok items ∧
      ∀ it ∈ items,
        percentFinite f64Env (GoMap.getD (collect f64Env (workerResults f64Env { workers := 2 }
            chunks 0 86400000000000)).2 it.code 0)
          [⟨"1001", "", 4, 5⟩, ⟨"2002", "", 3, 0⟩] it.code →
        (0 < totalAmount f64Env [⟨"1001", "", 4, 5⟩, ⟨"2002", "", 3, 0⟩] it.code →
          it.lossOfProfit = f64Env.rnd (mathRound (f64Env.rnd (f64Env.rnd (f64Env.rnd
            (f64Env.rnd (GoMap.getD (collect f64Env (workerResults f64Env { workers := 2 } chunks
              0 86400000000000)).2 it.code 0 *
              avgPrice f64Env [⟨"1001", "", 4, 5⟩, ⟨"2002", "", 3, 0⟩] it.code) /
              totalAmount f64Env [⟨"1001", "", 4, 5⟩, ⟨"2002", "", 3, 0⟩] it.code) * 100) *
              1000)) / 1000)) ∧
        (totalAmount f64Env [⟨"1001", "", 4, 5⟩, ⟨"2002", "", 3, 0⟩] it.code ≤ 0 →
          it.lossOfProfit = 0)) ∧
    (processDataParallel f64Env { workers := 2 }
        [⟨"1001", "", "", "01.01.2024", 10, 8, shrinkageMarker⟩]
        [⟨"1001", "", 4, 5⟩, ⟨"2002", "", 3, 0⟩] 0 86400000000000).map
      (fun items => items.map (fun (it : ItemAnalyticsResult) => (it.code, it.lossOfProfit))) =
      .ok [("1001", 50), ("2002", 0)] ∧
    percentFinite f64Env 2 [⟨"1001", "", 4, 5⟩, ⟨"2002", "", 3, 0⟩] "1001" ∧
    percentFinite f64Env 0 [⟨"1001", "", 4, 5⟩, ⟨"2002", "", 3, 0⟩] "2002" :=
  ⟨processDataParallel_lossOfProfit f64Env f64Env_sound f64Env_zero 2 (by decide) (by decide)
    _ _ (by decide) (by decide) _ _, by decide!, by decide!, by decide!⟩

/-- C20 fails as stated: in binary64, with the merged loss quantity 9, the
total sales quantity 320 and the total sales amount 3, the loss amount divided
by the total sales amount and multiplied by 100 is
`9 * (3 / 320) / 3 * 100 = 2.8125`, which rounded to 3 decimals is 2.813, while
`LossOfProfit` is 2.812: the `float64` product of the loss percent by 1000 is
below 2812.5, and `math.Round` gives 2812. No operation overflows. -/
theorem processDataParallel_lossOfProfit_not_real :
    (processDataParallel f64Env { workers := 2 }
        [⟨"1001", "", "", "01.01.2024", 9, 0, shrinkageMarker⟩]
        [⟨"1001", "", 320, 3⟩] 0 86400000000000).map
      (fun items => items.map (fun (it : ItemAnalyticsResult) => it.lossOfProfit)) =
      .ok [roundF64 (2812 / 1000)] ∧
    roundHalfAway 1000 (9 * (3 / 320) / 3 * 100) = 2813 / 1000 ∧
    roundF64 (2812 / 1000) ≠ 2813 / 1000 ∧ roundF64 (2812 / 1000) ≠ roundF64 (2813 / 1000) ∧
    roundF64 (lossPercentOf f64Env 9 [⟨"1001", "", 320, 3⟩] "1001" * 1000) < 5625 / 2 ∧
    percentFinite f64Env 9 [⟨"1001", "", 320, 3⟩] "1001" := by
  decide!

/-- C21, as amended: for every worker count `W ≥ 1` with `len + W ≤ 2 ^ 63`,
every item of the output has `Sales` equal to the `float64` quotient `k / 100`
where the integer `k` is `math.Round` (halves away from zero) of the `float64`
product of the total sales amount by 100, `Loss` equal to the `float64`
quotient `k / 100` where `k` is `math.Round` of the `float64` product of the
unrounded loss amount by 100, and `LossOfProfit` equal to the `float64`
quotient `k / 1000` where `k` is `math.Round` of the `float64` product of the
unrounded loss percent by 1000, each of them whenever no `float64` operation
that leads to the field overflows; and `OSA` is the `float64` quotient `k / 100`
of an integer `k`. -/
theorem processDataParallel_rounded (E : Env) (hE : E.Sound) (h0 : E.rnd 0 = 0) (W : Int)
    (hW : 1 ≤ W) (hW2 : W < 9223372036854775808)
    (stockData : List StockItem) (salesData : List SalesItem)
    (hsum : (stockData.length : Int) + W ≤ 9223372036854775808)
    (hlen : (stockData.length : Int) < 4611686018427387904)
    (startDate finishDate : Time) :
    ∃ chunks items,
      splitIntoChunks64 { workers := W } stockData = .ok chunks ∧
      processDataParallel E { workers := W } stockData salesData startDate finishDate
        = .ok items ∧
      ∀ it ∈ items,
        (salesFinite E salesData it.code →
          ∃ k : Int, (k : ℚ) = mathRound (E.rnd (totalAmount E salesData it.code * 100)) ∧
            it.sales = E.rnd ((k : ℚ) / 100)) ∧
        (lossFinite E (GoMap.getD (collect E (workerResults E { workers := W } chunks startDate
            finishDate)).2 it.code 0) salesData it.code →
          ∃ k : Int, (k : ℚ) = mathRound (E.rnd (lossAmountOf E
              (GoMap.getD (collect E (workerResults E { workers := W } chunks startDate
                finishDate)).2 it.code 0) salesData it.code * 100)) ∧
            it.loss = E.rnd ((k : ℚ) / 100)) ∧
        (percentFinite E (GoMap.getD (collect E (workerResults E { workers := W } chunks
            startDate finishDate)).2 it.code 0) salesData it.code →
          ∃ k : Int, (k : ℚ) = mathRound (E.rnd (lossPercentOf E
              (GoMap.getD (collect E (workerResults E { workers := W } chunks startDate
                finishDate)).2 it.code 0) salesData it.code * 1000)) ∧
            it.lossOfProfit = E.rnd ((k : ℚ) / 1000)) ∧
        (∃ k : Int, it.osa = E.rnd ((k : ℚ) / 100)) := by
  obtain ⟨chunks, items, h1, h, hall⟩ :=
    processDataParallel_fields E hE W hW stockData salesData startDate finishDate
  refine ⟨chunks, items, by rw [splitIntoChunks64_eq stockData W hW hW2 hsum hlen, h1], h, ?_⟩
  intro it hit
  obtain ⟨hs, hl, hp, ho⟩ := hall it hit
  refine ⟨fun _ => ?_, fun _ => ?_, fun _ => ?_, ?_⟩
  · obtain ⟨k, hk⟩ := mathRound_int (E.rnd (totalAmount E salesData it.code * 100))
    exact ⟨k, hk.symm, by rw [hs, roundTo, hk]⟩
  · obtain ⟨k, hk⟩ := mathRound_int (E.rnd (lossAmountOf E
      (GoMap.getD (collect E (workerResults E { workers := W } chunks startDate
        finishDate)).2 it.code 0) salesData it.code * 100))
    exact ⟨k, hk.symm, by rw [hl, roundTo, hk]⟩
  · obtain ⟨k, hk⟩ := mathRound_int (E.rnd (lossPercentOf E
      (GoMap.getD (collect E (workerResults E { workers := W } chunks startDate
        finishDate)).2 it.code 0) salesData it.code * 1000))
    exact ⟨k, hk.symm, by rw [hp, roundTo, hk]⟩
  · rw [ho]; exact calculateOSA_int E h0 _ _ _

/-- C21, as amended, in binary64 at one sales record with the amount 0.015:
`Sales` is the `float64` quotient `2 / 100`, and no operation overflows. -/
theorem processDataParallel_rounded_witness :
    (∃ items,
      processDataParallel f64Env { workers := 2 } []
        [⟨"1001", "", 1, roundF64 (15 / 1000)⟩] 0 86400000000000 = .ok items ∧
      ∀ it ∈ items, salesFinite f64Env [⟨"1001", "", 1, roundF64 (15 / 1000)⟩] it.code →
        ∃ k : Int, (k : ℚ) = mathRound (f64Env.rnd
            (totalAmount f64Env [⟨"1001", "", 1, roundF64 (15 / 1000)⟩] it.code * 100)) ∧
          it.sales = f64Env.rnd ((k : ℚ) / 100)) ∧
    salesFinite f64Env [⟨"1001", "", 1, roundF64 (15 / 1000)⟩] "1001" ∧
    mathRound (f64Env.rnd
      (totalAmount f64Env [⟨"1001", "", 1, roundF64 (15 / 1000)⟩] "1001" * 100)) = 2 := by
  refine ⟨?_, by decide!, by decide!⟩
  obtain ⟨chunks, items, -, h, hall⟩ := processDataParallel_rounded f64Env f64Env_sound
    f64Env_zero 2 (by decide) (by decide) [] [⟨"1001", "", 1, roundF64 (15 / 1000)⟩]
    (by decide) (by decide) 0 86400000000000
  exact ⟨items, h, fun it hit => (hall it hit).1⟩

/-! ## The availability sweep inside a window that fits a `Duration` -/

theorem sweepWalk_window (E : Env) (startDate finishDate : Time)
    (hfit : finishDate - startDate ≤ maxDuration) :
    ∀ (l : List StockEvent) (st : OsaState), startDate ≤ st.current →
      st.current < finishDate →
      sweepWalk (floatArith E) startDate finishDate l st =
        sweepWalk (windowArith E) startDate finishDate l st ∧
      startDate ≤ (sweepWalk (windowArith E) startDate finishDate l st).current ∧
      (sweepWalk (windowArith E) startDate finishDate l st).current < finishDate := by
  intro l
  induction l with
  | nil => intro st h1 h2; exact ⟨rfl, h1, h2⟩
  | cons e t ih =>
    intro st hc1 hc2
    by_cases h1 : e.time < startDate
    · rw [sweepWalk, sweepWalk, if_pos h1, if_pos h1]
      exact ih ⟨e.end_, st.current, st.availHours⟩ hc1 hc2
    · by_cases h2 : finishDate ≤ e.time
      · rw [sweepWalk, sweepWalk, if_neg h1, if_neg h1, if_pos h2, if_pos h2]
        exact ⟨rfl, hc1, hc2⟩
      · rw [sweepWalk, sweepWalk, if_neg h1, if_neg h1, if_neg h2, if_neg h2]
        have he1 : startDate ≤ e.time := not_lt.mp h1
        have he2 : e.time < finishDate := not_le.mp h2
        have hmin : minDuration ≤ -maxDuration := by decide
        have hr1 : minDuration ≤ e.time - st.current := by
          have : -maxDuration ≤ e.time - st.current := by linarith
          exact le_trans hmin this
        have hr2 : e.time - st.current ≤ maxDuration := by linarith
        have hh : (floatArith E).hours e.time st.current =
            (windowArith E).hours e.time st.current := by
          show hoursOf E.rnd (timeSub e.time st.current) = hoursOf E.rnd (e.time - st.current)
          rw [timeSub_of_range _ _ hr1 hr2]
        have hadd : ∀ a b, (floatArith E).add a b = (windowArith E).add a b := fun _ _ => rfl
        rw [hh, hadd]
        exact ih ⟨e.end_, e.time, _⟩ he1 he2

/-- Inside a window that fits a `Duration` no call of `Sub` saturates, and the
sweep in the arithmetic of the code is the sweep with the hours of the exact
differences. -/
theorem availabilitySweep_window {E : Env} (hsign : ∀ x, x ≤ 0 → E.rnd x ≤ 0)
    (sorted : List StockEvent → List StockEvent) (events : List StockEvent)
    (startDate finishDate : Time) (hfit : finishDate - startDate ≤ maxDuration) :
    availabilitySweep (floatArith E) sorted events startDate finishDate =
      availabilitySweep (windowArith E) sorted events startDate finishDate := by
  cases events with
  | nil => rfl
  | cons e0 t0 =>
    unfold availabilitySweep
    simp only
    cases sorted (e0 :: t0) with
    | nil => rfl
    | cons first rest =>
      simp only
      by_cases hwin : startDate < finishDate
      · obtain ⟨hw, hc1, hc2⟩ := sweepWalk_window E startDate finishDate hfit (first :: rest)
          { balance := first.start, current := startDate, availHours := 0 } (le_refl _) hwin
        have hmin : minDuration ≤ 0 := by decide
        have htot : (floatArith E).hours finishDate startDate
            = (windowArith E).hours finishDate startDate := by
          show hoursOf E.rnd (timeSub finishDate startDate) =
            hoursOf E.rnd (finishDate - startDate)
          rw [timeSub_of_range _ _ (le_trans hmin (le_of_lt (sub_pos.mpr hwin))) hfit]
        have htail : (floatArith E).hours finishDate
            (sweepWalk (windowArith E) startDate finishDate (first :: rest)
              { balance := first.start, current := startDate, availHours := 0 }).current
            = (windowArith E).hours finishDate
              (sweepWalk (windowArith E) startDate finishDate (first :: rest)
                { balance := first.start, current := startDate, availHours := 0 }).current := by
          show hoursOf E.rnd (timeSub finishDate _) = hoursOf E.rnd (finishDate - _)
          rw [timeSub_of_range _ _ (le_trans hmin (le_of_lt (sub_pos.mpr hc2))) (by linarith)]
        have hadd : ∀ a b, (floatArith E).add a b = (windowArith E).add a b := fun _ _ => rfl
        have hper : ∀ a b, (floatArith E).percent a b = (windowArith E).percent a b :=
          fun _ _ => rfl
        rw [hw, htot, htail, hadd, hper]
      · have hle : finishDate ≤ startDate := not_lt.mp hwin
        have h1 : (floatArith E).hours finishDate startDate ≤ 0 := by
          show hoursOf E.rnd (timeSub finishDate startDate) ≤ 0
          exact hoursOf_nonpos hsign _ (timeSub_nonpos finishDate startDate hle)
        have h2 : (windowArith E).hours finishDate startDate ≤ 0 := by
          show hoursOf E.rnd (finishDate - startDate) ≤ 0
          exact hoursOf_nonpos hsign _ (sub_nonpos.mpr hle)
        rw [if_pos h1, if_pos h2]

/-- C26, as amended: for every event list and every window that fits a
`Duration` (at most `2 ^ 63 - 1` nanoseconds from start to end),
`calculateOSA` equals the availability sweep of the specification carried out
in `float64`: the events sorted as `sort.Slice` sorts them, the hours of an
interval computed as `Duration.Hours()` of its length, the sums taken in
`float64`, and the result computed as
`math.Round((available / total) * 10000) / 100`; the walk of the specification
stops at the first event at or after the window end, where the code stops
after it. The rounding assumed is any one that leaves zero and its own results
unchanged and gives a non-positive result for a non-positive number, as
binary64 does. -/
theorem calculateOSA_sweep (E : Env) (hE : E.Sound) (h0 : E.rnd 0 = 0)
    (hidem : ∀ x, E.rnd (E.rnd x) = E.rnd x) (hsign : ∀ x, x ≤ 0 → E.rnd x ≤ 0)
    (events : List StockEvent) (startDate finishDate : Time)
    (hfit : finishDate - startDate ≤ maxDuration) :
    calculateOSA E events startDate finishDate =
      availabilitySweep (windowArith E) (E.sortSlice StockEvent eventLess) events startDate
        finishDate := by
  rw [calculateOSA_eq_sweep E hE h0 hidem hsign events startDate finishDate,
    availabilitySweep_window hsign _ events startDate finishDate hfit]

/-- C26, as amended: in binary64, on 1 January 2024 with an event at 12:00
that closes with no stock and one exactly at the window end; the availability
is 50 percent. -/
theorem calculateOSA_sweep_witness :
    calculateOSA f64Env
        [⟨63839750400000000000, 3, 0⟩, ⟨63839707200000000000, 10, 0⟩]
        63839664000000000000 63839750400000000000 =
      availabilitySweep (windowArith f64Env) (f64Env.sortSlice StockEvent eventLess)
        [⟨63839750400000000000, 3, 0⟩, ⟨63839707200000000000, 10, 0⟩]
        63839664000000000000 63839750400000000000 ∧
    availabilitySweep (windowArith f64Env) (f64Env.sortSlice StockEvent eventLess)
        [⟨63839750400000000000, 3, 0⟩, ⟨63839707200000000000, 10, 0⟩]
        63839664000000000000 63839750400000000000 = 50 :=
  ⟨calculateOSA_sweep f64Env f64Env_sound f64Env_zero roundF64_idem roundF64_nonpos
      _ _ _ (by decide), by decide!⟩

end Analytics
